import Mathlib

/-!
# rubik-ca: the array cube, its move tables, the pattern databases and the IDA* solver

A shallow embedding of `src/backend/cube.cpp`.

* `std::array<uint8_t, n>` is `Arr Nat n`, a list of exactly `n` cells.  The
  cells hold naturals: the program only copies cells or stores a value
  reduced modulo 2 or 3, so no byte ever wraps.
* `int` values (PDB entries, `g`, `threshold`, `max_depth`) are `Int`.  The
  two sums of `dfs`, `g + heuristic(c)` and `g + 1`, are reduced to 32 bits in
  two's complement (`wrapInt`): stored values close to `INT_MAX` make them
  wrap.  The other additions stay in range: `generatePDB` stores `depth + 1`
  with `depth < max_depth`, and `solve` increments a threshold of at most 30.
* `Move::turns` is a natural number: `while (turns--)` runs `turns` times.
* `std::unordered_map<Key, int>` is an association list with `find` and
  `emplace`; `std::queue` is a list popped at the head and pushed at the end.
* loops that the program runs until a queue or a search tree is used up take
  a fuel argument and answer `none` when it runs out.  `generatePDB` passes a
  fuel that is shown to be enough; `solve` takes the depth allowed to the
  recursion of `dfs` as an argument, and the theorems say which depth is
  enough, or that none is.
-/

namespace RubikCA

/-! ## Faces, moves, arrays -/

/-- The enumeration `enum Face { U, D, F, B, L, R }`. -/
inductive Face where
  | U | D | F | B | L | R
deriving DecidableEq, Repr

/-- The six faces in enumeration order, `0 .. NUM_FACES - 1`. -/
def Face.all : List Face := [Face.U, Face.D, Face.F, Face.B, Face.L, Face.R]

/-- The record `struct Move { Face face; int turns; }`. -/
structure Move where
  face : Face
  turns : Nat
deriving DecidableEq, Repr

/-- The function `allMoves()`: for each face in order, turns 1, 2, 3. -/
def allMoves : List Move :=
  Face.all.flatMap fun f => [1, 2, 3].map fun t => Move.mk f t

/-- A fixed-size array `std::array<T, n>`. -/
abbrev Arr (α : Type) (n : Nat) := { l : List α // l.length = n }

/-- Read cell `i` of a byte array (`a[i]`). -/
def Arr.rd {n : Nat} (a : Arr Nat n) (i : Nat) : Nat := a.1.getD i 0

/-- Write cell `i` of a byte array (`a[i] = x`). -/
def Arr.wr {n : Nat} (a : Arr Nat n) (i : Nat) (x : Nat) : Arr Nat n :=
  ⟨a.1.set i x, by rw [List.length_set]; exact a.2⟩

/-- The record `struct CubeState` with its four arrays. -/
structure CubeState where
  edges : Arr Nat 12
  corners : Arr Nat 8
  edge_orient : Arr Nat 12
  corner_orient : Arr Nat 8
deriving DecidableEq

/-- The function `solvedCube()`: identity permutations, zero orientations. -/
def solvedCube : CubeState where
  edges := ⟨List.range 12, rfl⟩
  corners := ⟨List.range 8, rfl⟩
  edge_orient := ⟨List.replicate 12 0, rfl⟩
  corner_orient := ⟨List.replicate 8 0, rfl⟩

/-! ## Move tables and move application -/

/-- The table `MoveTables::edge_cycles`. -/
def edge_cycles : Face → List Nat
  | Face.U => [0, 1, 2, 3]
  | Face.D => [4, 5, 6, 7]
  | Face.F => [2, 6, 10, 7]
  | Face.B => [0, 5, 8, 4]
  | Face.L => [3, 7, 11, 4]
  | Face.R => [1, 6, 9, 5]

/-- The table `MoveTables::corner_cycles`. -/
def corner_cycles : Face → List Nat
  | Face.U => [0, 1, 2, 3]
  | Face.D => [4, 5, 6, 7]
  | Face.F => [1, 5, 6, 2]
  | Face.B => [0, 3, 7, 4]
  | Face.L => [0, 4, 5, 1]
  | Face.R => [2, 6, 7, 3]

/-- The table `MoveTables::corner_orient`. -/
def corner_orient : Face → List Nat
  | Face.U => [0, 0, 0, 0]
  | Face.D => [0, 0, 0, 0]
  | Face.F => [1, 2, 1, 2]
  | Face.B => [2, 1, 2, 1]
  | Face.L => [1, 2, 1, 2]
  | Face.R => [2, 1, 2, 1]

/-- The table `MoveTables::edge_orient`. -/
def edge_orient : Face → List Nat
  | Face.U => [0, 0, 0, 0]
  | Face.D => [0, 0, 0, 0]
  | Face.F => [1, 0, 1, 0]
  | Face.B => [1, 0, 1, 0]
  | Face.L => [0, 0, 0, 0]
  | Face.R => [0, 0, 0, 0]

/-- Entry `t[i]` of a table row. -/
def tab (t : List Nat) (i : Nat) : Nat := t.getD i 0

/-- One pass of the first inner loop of `apply`:
`r.edges[e[i]] = r.edges[e[i-1]]` and
`r.edge_orient[e[i]] = (r.edge_orient[e[i-1]] + edge_orient[face][i]) % 2`. -/
def edgeShift (face : Face) (r : CubeState) (i : Nat) : CubeState :=
  let e := edge_cycles face
  let r1 := { r with edges := r.edges.wr (tab e i) (r.edges.rd (tab e (i - 1))) }
  let o := (r1.edge_orient.rd (tab e (i - 1)) + tab (edge_orient face) i) % 2
  { r1 with edge_orient := r1.edge_orient.wr (tab e i) o }

/-- One pass of the second inner loop of `apply`, on the corner arrays. -/
def cornerShift (face : Face) (r : CubeState) (i : Nat) : CubeState :=
  let cr := corner_cycles face
  let r1 := { r with corners := r.corners.wr (tab cr i) (r.corners.rd (tab cr (i - 1))) }
  let o := (r1.corner_orient.rd (tab cr (i - 1)) + tab (corner_orient face) i) % 3
  { r1 with corner_orient := r1.corner_orient.wr (tab cr i) o }

/-- The body of `while (turns--)` in `MoveTables::apply`: one quarter turn. -/
def quarterTurn (face : Face) (r : CubeState) : CubeState :=
  let e := edge_cycles face
  let te := r.edges.rd (tab e 3)
  let teo := r.edge_orient.rd (tab e 3)
  let r := [3, 2, 1].foldl (edgeShift face) r
  let r := { r with edges := r.edges.wr (tab e 0) te }
  let o := (teo + tab (edge_orient face) 0) % 2
  let r := { r with edge_orient := r.edge_orient.wr (tab e 0) o }
  let cr := corner_cycles face
  let tc := r.corners.rd (tab cr 3)
  let tco := r.corner_orient.rd (tab cr 3)
  let r := [3, 2, 1].foldl (cornerShift face) r
  let r := { r with corners := r.corners.wr (tab cr 0) tc }
  let o := (tco + tab (corner_orient face) 0) % 3
  { r with corner_orient := r.corner_orient.wr (tab cr 0) o }

/-- The function `MoveTables::apply(c, face, turns)`. -/
def apply (c : CubeState) (face : Face) (turns : Nat) : CubeState :=
  (quarterTurn face)^[turns] c

/-- The function `applyMove(c, m)`. -/
def applyMove (c : CubeState) (m : Move) : CubeState :=
  apply c m.face m.turns

/-- Apply the moves of a sequence in order, as `applyScramble` and the
callers of `applyMove` do. -/
def applyMoves (c : CubeState) (ms : List Move) : CubeState :=
  ms.foldl applyMove c


/-! ## Abstraction extractors and the pattern-database builder -/

/-- The function `getEdgeOrientation(c)`. -/
def getEdgeOrientation (c : CubeState) : Arr Nat 12 := c.edge_orient

/-- The function `getCornerOrientation(c)`. -/
def getCornerOrientation (c : CubeState) : Arr Nat 8 := c.corner_orient

/-- The function `getESlice(c)`: cell `i` tells whether `c.edges[i]` is one
of the edges 4..7. -/
def getESlice (c : CubeState) : Arr Bool 12 :=
  ⟨c.edges.1.map fun e => decide (4 ≤ e ∧ e ≤ 7), by rw [List.length_map]; exact c.edges.2⟩

/-- A pattern database `std::unordered_map<Key, int>`, as an association
list in insertion order. -/
abbrev PDB (K : Type) := List (K × Int)

/-- The lookup `pdb.find(k)`: the stored value, or `none` for `pdb.end()`. -/
def pdbFind {K : Type} [DecidableEq K] : PDB K → K → Option Int
  | [], _ => none
  | (k', v) :: rest, k => if k' = k then some v else pdbFind rest k

/-- The call `pdb.emplace(k, v)`: the map afterwards and the flag `inserted`;
an existing entry is left as it is. -/
def pdbEmplace {K : Type} [DecidableEq K] (pdb : PDB K) (k : K) (v : Int) : PDB K × Bool :=
  match pdbFind pdb k with
  | some _ => (pdb, false)
  | none => (pdb ++ [(k, v)], true)

/-- The loop `for (const auto& m : moves)` of `generatePDB`, run on the moves
still to be tried for the popped pair `(state, depth)`. -/
def expandMoves {K : Type} [DecidableEq K] (extractor : CubeState → K) (state : CubeState)
    (depth : Int) : List Move → PDB K → List (CubeState × Int) → PDB K × List (CubeState × Int)
  | [], pdb, q => (pdb, q)
  | m :: ms, pdb, q =>
    let next := applyMove state m
    let k := extractor next
    match pdbEmplace pdb k (depth + 1) with
    | (pdb1, true) => expandMoves extractor state depth ms pdb1 (q ++ [(next, depth + 1)])
    | (pdb1, false) => expandMoves extractor state depth ms pdb1 q

/-- The loop `while (!q.empty())` of `generatePDB`; `none` when the fuel is
used up before the queue is empty. -/
def bfsLoop {K : Type} [DecidableEq K] (extractor : CubeState → K) (max_depth : Int) :
    Nat → PDB K → List (CubeState × Int) → Option (PDB K)
  | _, pdb, [] => some pdb
  | 0, _, _ :: _ => none
  | fuel + 1, pdb, (state, depth) :: q =>
    if depth ≥ max_depth then bfsLoop extractor max_depth fuel pdb q
    else
      let r := expandMoves extractor state depth allMoves pdb q
      bfsLoop extractor max_depth fuel r.1 r.2

/-- Fuel for `bfsLoop`: a pair popped `r` levels short of `max_depth`
accounts for itself and for at most eighteen pairs one level further down. -/
def pdbFuel : Nat → Nat
  | 0 => 1
  | r + 1 => 1 + 18 * pdbFuel r

/-- The function `generatePDB(start, extractor, max_depth)`. -/
def generatePDB {K : Type} [DecidableEq K] (start : CubeState) (extractor : CubeState → K)
    (max_depth : Int) : Option (PDB K) :=
  bfsLoop extractor max_depth (pdbFuel max_depth.toNat)
    (pdbEmplace [] (extractor start) 0).1 [(start, 0)]

/-! ## The IDA* solver -/

/-- The record `struct IDASolver`.  `nodes_visited` is threaded through `dfs`
as an argument; `size_max` is the largest value of `size_t` on the target,
after which `++nodes_visited` wraps to 0.  The stored values are `int` in the
program; here a PDB may hold any integer, which only adds cases. -/
structure IDASolver where
  goal : CubeState
  edgePDB : PDB (Arr Nat 12)
  cornerPDB : PDB (Arr Nat 8)
  eslicePDB : PDB (Arr Bool 12)
  node_limit : Nat
  size_max : Nat

/-- The value `it->second` of a lookup, or the initial 0 when the key is absent. -/
def lookupOr0 {K : Type} [DecidableEq K] (pdb : PDB K) (k : K) : Int :=
  match pdbFind pdb k with
  | some v => v
  | none => 0

/-- The method `IDASolver::heuristic(c)`. -/
def heuristic (sv : IDASolver) (c : CubeState) : Int :=
  let edgeH := lookupOr0 sv.edgePDB (getEdgeOrientation c)
  let cornerH := lookupOr0 sv.cornerPDB (getCornerOrientation c)
  let esliceH := lookupOr0 sv.eslicePDB (getESlice c)
  max edgeH (max cornerH esliceH)

/-- The two `continue` tests of `dfs` for candidate `m` after `path`:
`path` is not empty and either `path.back().face == m.face`, or
`path.size() >= 2`, `path[path.size() - 2].face == m.face` and
`(path.back().turns + m.turns) % 4 == 0`. -/
def pruned (path : List Move) (m : Move) : Bool :=
  match path.reverse with
  | [] => false
  | last :: before =>
    if last.face = m.face then true
    else
      match before with
      | [] => false
      | prev :: _ => decide (prev.face = m.face ∧ (last.turns + m.turns) % 4 = 0)

/-- The loop `for (const auto& m : moves)` of `dfs` on the moves still to be
tried; `child` is the recursive call `dfs(next, g + 1, threshold, path)`.
The result is the returned flag, `path` and `nodes_visited`. -/
def dfsMoves (child : CubeState → List Move → Nat → Option (Bool × List Move × Nat))
    (c : CubeState) : List Move → List Move → Nat → Option (Bool × List Move × Nat)
  | [], path, nodes => some (false, path, nodes)
  | m :: ms, path, nodes =>
    if pruned path m then dfsMoves child c ms path nodes
    else
      match child (applyMove c m) (path ++ [m]) nodes with
      | none => none
      | some (true, path1, nodes1) => some (true, path1, nodes1)
      | some (false, path1, nodes1) => dfsMoves child c ms path1.dropLast nodes1

/-- The increment `++nodes_visited` on a `size_t` whose largest value is
`size_max`. -/
def bump (size_max nodes : Nat) : Nat :=
  if nodes = size_max then 0 else nodes + 1

/-- The value an `int` holds after an addition whose exact result is `x`:
the 32-bit two's complement value congruent to `x` modulo `2 ^ 32`. -/
def wrapInt (x : Int) : Int := (x + 2147483648) % 4294967296 - 2147483648

/-- The method `IDASolver::dfs(c, g, threshold, path)` with `nodes_visited`
as the last argument.  The sums `g + heuristic(c)` and `g + 1` are sums of
`int`, taken with `wrapInt`; `none` when the recursion is deeper than the
fuel. -/
def dfs (sv : IDASolver) : Nat → CubeState → Int → Int → List Move → Nat →
    Option (Bool × List Move × Nat)
  | 0, _, _, _, _, _ => none
  | fuel + 1, c, g, threshold, path, nodes =>
    let nodes1 := bump sv.size_max nodes
    if nodes1 > sv.node_limit then some (false, path, nodes1)
    else if wrapInt (g + heuristic sv c) > threshold then some (false, path, nodes1)
    else if c = sv.goal then some (true, path, nodes1)
    else
      dfsMoves (fun c1 p n => dfs sv fuel c1 (wrapInt (g + 1)) threshold p n) c allMoves path
        nodes1

/-- The loop `while (threshold <= 30)` of `solve`; `path` is the vector the
iterations share, and a new iteration starts with `nodes_visited = 0`.  The
first number is the depth of recursion allowed to each call of `dfs`, the
second the number of iterations left; `threshold++` is taken at 30 or less
and does not wrap. -/
def solveLoop (sv : IDASolver) (fuel : Nat) (start : CubeState) :
    Nat → Int → List Move → Option (List Move)
  | 0, _, _ => none
  | n + 1, threshold, path =>
    if threshold ≤ 30 then
      match dfs sv fuel start 0 threshold path 0 with
      | none => none
      | some (true, path1, _) => some path1
      | some (false, path1, _) => solveLoop sv fuel start n (threshold + 1) path1
    else some []

/-- The method `IDASolver::solve(start)`, with the depth of recursion allowed
to `dfs`: `none` when a call of `dfs` goes deeper.  The loop is given the
`31 - threshold` iterations it can make, and one more. -/
def solve (sv : IDASolver) (fuel : Nat) (start : CubeState) : Option (List Move) :=
  let threshold := heuristic sv start
  solveLoop sv fuel start ((31 - threshold).toNat + 1) threshold []

/-! ## Notions used to state the properties -/

/-- The slot whose content a quarter turn moves into slot `j`, for the cycle
row `t` of a face: the predecessor of `j` on the cycle, or `j` itself. -/
def prevSlot (t : List Nat) (j : Nat) : Nat :=
  if j = tab t 0 then tab t 3
  else if j = tab t 1 then tab t 0
  else if j = tab t 2 then tab t 1
  else if j = tab t 3 then tab t 2
  else j

/-- The orientation delta a quarter turn adds in slot `j`, for the cycle
row `t` and the delta row `d` of a face; 0 off the cycle. -/
def slotDelta (t d : List Nat) (j : Nat) : Nat :=
  if j = tab t 0 then tab d 0
  else if j = tab t 1 then tab d 1
  else if j = tab t 2 then tab d 2
  else if j = tab t 3 then tab d 3
  else 0

/-- The orientation ranges of the data model: every `edge_orient` cell is 0
or 1 and every `corner_orient` cell is 0, 1 or 2. -/
def InRange (s : CubeState) : Prop :=
  (∀ x ∈ s.edge_orient.1, x < 2) ∧ (∀ x ∈ s.corner_orient.1, x < 3)

/-- A sequence made of the eighteen moves of `allMoves()`. -/
def ValidMoves (T : List Move) : Prop := ∀ m ∈ T, m ∈ allMoves

/-- A state reachable from `solvedCube()` by a sequence of the eighteen moves. -/
def Reachable (s : CubeState) : Prop :=
  ∃ T : List Move, ValidMoves T ∧ applyMoves solvedCube T = s

/-- The inverse of a move: same face, `4 - turns` quarter turns. -/
def Move.inv (m : Move) : Move := ⟨m.face, 4 - m.turns⟩

/-- The reverse inverse of a move sequence. -/
def inverseSeq (S : List Move) : List Move := S.reverse.map Move.inv

/-- The permutation of the slots `0 .. n` that sends each slot of the cycle
row `t` to its predecessor on the cycle, as a product of three swaps. -/
def slotPerm (n : Nat) (t : List Nat) : Equiv.Perm (Fin (n + 1)) :=
  Equiv.swap (Fin.ofNat (tab t 0)) (Fin.ofNat (tab t 3))
    * Equiv.swap (Fin.ofNat (tab t 3)) (Fin.ofNat (tab t 2))
    * Equiv.swap (Fin.ofNat (tab t 2)) (Fin.ofNat (tab t 1))

/-- The arrays `edges` and `corners` are permutations with the same sign:
`edges` lists the values of a permutation of the twelve slots, `corners`
those of a permutation of the eight slots, and the two signs agree. -/
def SameParity (s : CubeState) : Prop :=
  ∃ (σ : Equiv.Perm (Fin 12)) (τ : Equiv.Perm (Fin 8)),
    (∀ i : Fin 12, s.edges.rd i.1 = (σ i).1) ∧ (∀ i : Fin 8, s.corners.rd i.1 = (τ i).1)
      ∧ Equiv.Perm.sign σ = Equiv.Perm.sign τ

/-- What a finished `dfs` call from state `c` with `path` on entry has done:
when it returns `true` the path is the entry path followed by moves of
`allMoves()` that take `c` to the goal, and `nodes_visited` is within the
limit; when it returns `false` the path is as on entry. -/
def DfsPost (sv : IDASolver) (c : CubeState) (path : List Move)
    (r : Bool × List Move × Nat) : Prop :=
  (r.1 = true →
    (∃ T, r.2.1 = path ++ T ∧ ValidMoves T ∧ applyMoves c T = sv.goal)
      ∧ r.2.2 ≤ sv.node_limit)
  ∧ (r.1 = false → r.2.1 = path)

/-- The set-up of `solveCube`: the goal is the solved cube and the three
PDBs are built from it with the same `max_depth` (14 in `solveCube`). -/
def buildSolver (max_depth : Int) (node_limit size_max : Nat) : Option IDASolver :=
  match generatePDB solvedCube getEdgeOrientation max_depth,
      generatePDB solvedCube getCornerOrientation max_depth,
      generatePDB solvedCube getESlice max_depth with
  | some e, some c, some sl => some ⟨solvedCube, e, c, sl, node_limit, size_max⟩
  | _, _, _ => none

/-- An extractor is a congruence for the moves: the key after a move depends
only on the key before it and the move. -/
def Congruent {K : Type} (extractor : CubeState → K) : Prop :=
  ∀ (a b : CubeState) (m : Move), extractor a = extractor b →
    extractor (applyMove a m) = extractor (applyMove b m)

/-- Some sequence of exactly `n` of the eighteen moves takes `start` to a
state whose extracted key is `k`. -/
def KeyReach {K : Type} (extractor : CubeState → K) (start : CubeState) (k : K) (n : Nat) :
    Prop :=
  ∃ T : List Move, T.length = n ∧ ValidMoves T ∧ extractor (applyMoves start T) = k

/-- Key `k`, stored with value `v`, has been expanded: the key of every
successor of a state with key `k` is stored with a value of at most `v + 1`. -/
def Expanded {K : Type} [DecidableEq K] (extractor : CubeState → K) (pdb : PDB K) (k : K)
    (v : Int) : Prop :=
  ∀ m ∈ allMoves, ∀ s : CubeState, extractor s = k →
    ∃ v1, pdbFind pdb (extractor (applyMove s m)) = some v1 ∧ v1 ≤ v + 1

/-- The invariant of the loop `while (!q.empty())` of `generatePDB`. -/
structure BfsInv {K : Type} [DecidableEq K] (extractor : CubeState → K) (start : CubeState)
    (max_depth : Int) (pdb : PDB K) (q : List (CubeState × Int)) : Prop where
  start0 : pdbFind pdb (extractor start) = some 0
  range : ∀ k v, pdbFind pdb k = some v → 0 ≤ v ∧ v ≤ max_depth
  sound : ∀ k v, pdbFind pdb k = some v → KeyReach extractor start k v.toNat
  queue : ∀ s d, (s, d) ∈ q → pdbFind pdb (extractor s) = some d
  expanded : ∀ k v, pdbFind pdb k = some v → v < max_depth →
    (∃ s, (s, v) ∈ q ∧ extractor s = k) ∨ Expanded extractor pdb k v
  sorted : q.Pairwise fun a b => a.2 ≤ b.2
  bound : ∀ s d, (s, d) ∈ q → ∀ k v, pdbFind pdb k = some v → v ≤ d + 1

/-- The fuel that the pairs of a queue account for. -/
def queueWeight (max_depth : Int) (q : List (CubeState × Int)) : Nat :=
  (q.map fun sd => pdbFuel (max_depth - sd.2).toNat).sum

/-- The pattern database of an extractor is exact: `generatePDB` returns a
map from the solved cube, and every stored value is the length of a shortest
sequence of the eighteen moves that takes the solved cube to a state with the
stored key. -/
def ExactPDB {K : Type} [DecidableEq K] (extractor : CubeState → K) (max_depth : Int) : Prop :=
  ∃ pdb, generatePDB solvedCube extractor max_depth = some pdb ∧
    ∀ k v, pdbFind pdb k = some v →
      0 ≤ v ∧ KeyReach extractor solvedCube k v.toNat
        ∧ ∀ n, KeyReach extractor solvedCube k n → v ≤ n

/-- No move of the sequence is rejected by `pruned`, given `path` and the
moves of the sequence before it. -/
def admittedFrom (path : List Move) : List Move → Bool
  | [] => true
  | m :: ms => !pruned path m && admittedFrom (path ++ [m]) ms

/-- The string `"UDFBLR"` of `parseMove` (`faceChars`) and of the formatter
in `solveCube` (`faceNames`). -/
def faceChars : List Char := ['U', 'D', 'F', 'B', 'L', 'R']

/-- The apostrophe, the suffix of a 270 degree turn. -/
def primeChar : Char := Char.ofNat 39

/-- The conversion `static_cast<Face>(pos)` for a position in `"UDFBLR"`. -/
def Face.ofPos : Nat → Face
  | 0 => Face.U
  | 1 => Face.D
  | 2 => Face.F
  | 3 => Face.B
  | 4 => Face.L
  | _ => Face.R

/-- The value of a face as an index, as in `faceNames[move.face]`. -/
def Face.toPos : Face → Nat
  | Face.U => 0
  | Face.D => 1
  | Face.F => 2
  | Face.B => 3
  | Face.L => 4
  | Face.R => 5

/-- The turn count `parseMove` reads from the characters after the first:
2 for `2`, 3 for an apostrophe, otherwise the initial 1. -/
def parseTurns : List Char → Nat
  | [] => 1
  | c1 :: _ => if c1 = '2' then 2 else if c1 = primeChar then 3 else 1

/-- The function `parseMove(token)`; `indexOf` is `std::string::find`, which
answers the length of the string (`npos`) when the character is absent. -/
def parseMove (token : List Char) : Move :=
  match token with
  | [] => ⟨Face.U, 1⟩
  | c0 :: rest =>
    let pos := faceChars.indexOf c0
    let face := if pos < faceChars.length then Face.ofPos pos else Face.U
    ⟨face, parseTurns rest⟩

/-- The token the formatter of `solveCube` writes for a move: the face letter
followed by nothing, `2` or an apostrophe for 1, 2 or other turn counts. -/
def formatMove (m : Move) : List Char :=
  faceChars.getD m.face.toPos 'U' ::
    (if m.turns = 1 then [] else if m.turns = 2 then ['2'] else [primeChar])

/-- The solution string of `solveCube`: every token followed by a space. -/
def formatSolution (T : List Move) : List Char :=
  T.flatMap fun m => formatMove m ++ [' ']

/-- The eighteen valid tokens: a face letter alone, followed by `2`, or
followed by an apostrophe. -/
def validTokens : List (List Char) :=
  faceChars.flatMap fun c => [[c], [c, '2'], [c, primeChar]]

/-- Every value stored in the three PDBs of a solver lies between `lo` and
`hi`. -/
def PDBsWithin (sv : IDASolver) (lo hi : Int) : Prop :=
  (∀ k v, pdbFind sv.edgePDB k = some v → lo ≤ v ∧ v ≤ hi)
    ∧ (∀ k v, pdbFind sv.cornerPDB k = some v → lo ≤ v ∧ v ≤ hi)
    ∧ (∀ k v, pdbFind sv.eslicePDB k = some v → lo ≤ v ∧ v ≤ hi)

/-- What a finished `dfs` call at depth `g` has done to `path`: on `true` the
path is the entry path followed by moves that `pruned` admitted one after the
other, and, when the stored values are between 0 and `INT_MAX - 31` and
`0 <= g <= 31`, `threshold <= 30`, the depth of the goal node, `g` plus their
number, is within the threshold; on `false` the path is as on entry. -/
def DfsShape (sv : IDASolver) (g threshold : Int) (path : List Move)
    (r : Bool × List Move × Nat) : Prop :=
  (r.1 = true →
    ∃ T, r.2.1 = path ++ T ∧ admittedFrom path T = true ∧
      (PDBsWithin sv 0 2147483616 → 0 ≤ g → g ≤ 31 → threshold ≤ 30 →
        g + T.length ≤ threshold))
  ∧ (r.1 = false → r.2.1 = path)

/-! ## The packed cube of `cubestate.cpp`

A `uint64_t` is a natural number below `2 ^ 64`; the only operation of the
file that can leave that range, the complement `~`, is taken within 64 bits,
and shifted values are reduced modulo `2 ^ 64`.  The move tables of
`movetables.h` are only declared there, so they are a parameter. -/

namespace Packed

/-- The constant `MASK5 = 0b11111`. -/
def MASK5 : Nat := 31

/-- The number of values of a `uint64_t`. -/
def WORD : Nat := 2 ^ 64

/-- The function `get5Bits(state, index)`. -/
def get5Bits (state index : Nat) : Nat :=
  (state >>> (index * 5)) &&& MASK5

/-- The function `set5Bits(state, index, value)`, returning the new word. -/
def set5Bits (state index value : Nat) : Nat :=
  let cleared := state &&& (WORD - 1 - (MASK5 <<< (index * 5)) % WORD)
  cleared ||| (((value &&& MASK5) <<< (index * 5)) % WORD)

/-- The two data members of `class CubeState` in `cubestate.h`. -/
structure CubeState where
  cornerData : Nat
  edgeData : Nat
deriving DecidableEq

/-- The constructor `CubeState::CubeState()`. -/
def CubeState.init : CubeState where
  cornerData := (List.range 8).foldl (fun w i => set5Bits w i (i <<< 2)) 0
  edgeData := (List.range 12).foldl (fun w i => set5Bits w i (i <<< 1)) 0

/-- The four tables declared in `movetables.h` that `applyMove` reads, indexed
by move and by slot. -/
structure MoveTables where
  cornerPerm : Nat → Nat → Nat
  cornerOrientDelta : Nat → Nat → Nat
  edgePerm : Nat → Nat → Nat
  edgeFlipDelta : Nat → Nat → Nat

/-- The value `(pos << 2) | orient` that the first loop of `applyMove` stores
in corner field `i`. -/
def cornerField (tb : MoveTables) (cornerData moveIndex i : Nat) : Nat :=
  let src := tb.cornerPerm moveIndex i
  let corner := get5Bits cornerData src
  let orient := corner &&& 3
  let pos := corner >>> 2
  let delta := tb.cornerOrientDelta moveIndex i
  let orient1 := (orient + delta) % 3
  (pos <<< 2) ||| orient1

/-- The value `(pos << 1) | flip` that the second loop of `applyMove` stores
in edge field `i`. -/
def edgeField (tb : MoveTables) (edgeData moveIndex i : Nat) : Nat :=
  let src := tb.edgePerm moveIndex i
  let edge := get5Bits edgeData src
  let flip := edge &&& 1
  let pos := edge >>> 1
  let delta := tb.edgeFlipDelta moveIndex i
  let flip1 := flip ^^^ delta
  (pos <<< 1) ||| flip1

/-- The method `CubeState::applyMove(moveIndex)`, returning the new state. -/
def CubeState.applyMove (tb : MoveTables) (c : CubeState) (moveIndex : Nat) : CubeState where
  cornerData :=
    (List.range 8).foldl (fun w i => set5Bits w i (cornerField tb c.cornerData moveIndex i)) 0
  edgeData :=
    (List.range 12).foldl (fun w i => set5Bits w i (edgeField tb c.edgeData moveIndex i)) 0

/-- The method `CubeState::isSolved()`. -/
def CubeState.isSolved (c : CubeState) : Bool :=
  ((List.range 8).all fun i => get5Bits c.cornerData i == i <<< 2)
    && ((List.range 12).all fun i => get5Bits c.edgeData i == i <<< 1)

/-- Well-formed packed state: the eight corner fields hold positions that
form a permutation of `0 .. 7` and orientations below 3, the twelve edge
fields hold positions that form a permutation of `0 .. 11`, and no bit is set
above bit 39 of `cornerData` or above bit 59 of `edgeData`. -/
def WellFormed (c : CubeState) : Prop :=
  ((List.range 8).map fun i => get5Bits c.cornerData i >>> 2).Perm (List.range 8)
    ∧ (∀ i, i < 8 → get5Bits c.cornerData i &&& 3 < 3)
    ∧ ((List.range 12).map fun i => get5Bits c.edgeData i >>> 1).Perm (List.range 12)
    ∧ c.cornerData < 2 ^ 40 ∧ c.edgeData < 2 ^ 60

/-- The rows of the tables for move `m` are valid:
`cornerPerm[m]` is a permutation of `0 .. 7`, `edgePerm[m]` a permutation of
`0 .. 11`, the corner deltas are 0, 1 or 2 and the edge deltas 0 or 1. -/
def TablesOK (tb : MoveTables) (m : Nat) : Prop :=
  ((List.range 8).map (tb.cornerPerm m)).Perm (List.range 8)
    ∧ ((List.range 12).map (tb.edgePerm m)).Perm (List.range 12)
    ∧ (∀ i, i < 8 → tb.cornerOrientDelta m i < 3)
    ∧ (∀ i, i < 12 → tb.edgeFlipDelta m i < 2)

/-- The word whose 5-bit fields, from field 0 upwards, are the given values. -/
def pack : List Nat → Nat
  | [] => 0
  | v :: vs => v + 32 * pack vs

end Packed


/-! ## Keys as numbers

To decide which keys a pattern database of depth 14 holds, a key is read as
a number (a key of `n` cells below `b` is a number of `n` digits in base `b`)
and a set of keys as a bit set.  The functions of this section are written
with the primitive operations of `Nat`, which evaluate in one step. -/

/-- The number whose digits in base `b`, from the lowest, are the cells. -/
def codeOf (b : Nat) : List Nat → Nat
  | [] => 0
  | v :: vs => v + b * codeOf b vs

/-- The digit of weight `p` of `c` in base `b`. -/
def digitAt (b p c : Nat) : Nat := Nat.mod (Nat.div c p) b

/-- One quarter turn on the number `c` of a key in base `b`: the digits of
weights `p0, p1, p2, p3` (the slots of a cycle row) move one slot along the
cycle, and the deltas `d0 .. d3` are added modulo `b`. -/
def qtCode (b p0 p1 p2 p3 d0 d1 d2 d3 c : Nat) : Nat :=
  Nat.sub
    (Nat.add c
      (Nat.add (Nat.add (Nat.add
        (Nat.mul (Nat.mod (Nat.add (digitAt b p3 c) d0) b) p0)
        (Nat.mul (Nat.mod (Nat.add (digitAt b p0 c) d1) b) p1))
        (Nat.mul (Nat.mod (Nat.add (digitAt b p1 c) d2) b) p2))
        (Nat.mul (Nat.mod (Nat.add (digitAt b p2 c) d3) b) p3)))
    (Nat.add (Nat.add (Nat.add (Nat.mul (digitAt b p0 c) p0) (Nat.mul (digitAt b p1 c) p1))
      (Nat.mul (digitAt b p2 c) p2)) (Nat.mul (digitAt b p3 c) p3))

/-- One quarter turn on the list of cells of a key in base `b`, for the cycle
row `t` and the delta row `d`: four writes, each of the cell before it on the
cycle plus the delta. -/
def cycList (b : Nat) (t d : List Nat) (l : List Nat) : List Nat :=
  (((l.set (tab t 3) ((l.getD (tab t 2) 0 + tab d 3) % b)).set (tab t 2)
    ((l.getD (tab t 1) 0 + tab d 2) % b)).set (tab t 1)
    ((l.getD (tab t 0) 0 + tab d 1) % b)).set (tab t 0)
    ((l.getD (tab t 3) 0 + tab d 0) % b)

/-- Quarter turn on the number of an edge-orientation key: base 2, the
weights `2 ^ edge_cycles[f][i]` and the deltas `edge_orient[f][i]`. -/
def qtEdgeCode : Face → Nat → Nat
  | Face.U, c => qtCode 2 1 2 4 8 0 0 0 0 c
  | Face.D, c => qtCode 2 16 32 64 128 0 0 0 0 c
  | Face.F, c => qtCode 2 4 64 1024 128 1 0 1 0 c
  | Face.B, c => qtCode 2 1 32 256 16 1 0 1 0 c
  | Face.L, c => qtCode 2 8 128 2048 16 0 0 0 0 c
  | Face.R, c => qtCode 2 2 64 512 32 0 0 0 0 c

/-- Quarter turn on the number of a corner-orientation key: base 3, the
weights `3 ^ corner_cycles[f][i]` and the deltas `corner_orient[f][i]`. -/
def qtCornerCode : Face → Nat → Nat
  | Face.U, c => qtCode 3 1 3 9 27 0 0 0 0 c
  | Face.D, c => qtCode 3 81 243 729 2187 0 0 0 0 c
  | Face.F, c => qtCode 3 3 243 729 9 1 2 1 2 c
  | Face.B, c => qtCode 3 1 27 2187 81 2 1 2 1 c
  | Face.L, c => qtCode 3 1 81 243 3 1 2 1 2 c
  | Face.R, c => qtCode 3 9 729 2187 27 2 1 2 1 c

/-- Quarter turn on the number of an E-slice key: base 2, the weights
`2 ^ edge_cycles[f][i]`, no delta. -/
def qtSliceCode : Face → Nat → Nat
  | Face.U, c => qtCode 2 1 2 4 8 0 0 0 0 c
  | Face.D, c => qtCode 2 16 32 64 128 0 0 0 0 c
  | Face.F, c => qtCode 2 4 64 1024 128 0 0 0 0 c
  | Face.B, c => qtCode 2 1 32 256 16 0 0 0 0 c
  | Face.L, c => qtCode 2 8 128 2048 16 0 0 0 0 c
  | Face.R, c => qtCode 2 2 64 512 32 0 0 0 0 c

/-- The number of the edge-orientation key of a state. -/
def edgeCode (s : CubeState) : Nat := codeOf 2 (getEdgeOrientation s).1

/-- The number of the corner-orientation key of a state. -/
def cornerCode (s : CubeState) : Nat := codeOf 3 (getCornerOrientation s).1

/-- The number of the E-slice key of a state: digit 1 for `true`. -/
def sliceCode (s : CubeState) : Nat :=
  codeOf 2 ((getESlice s).1.map fun x => if x then 1 else 0)

/-- Bit `c` of the bit set `V`. -/
def hasBit (V c : Nat) : Bool := Nat.beq (Nat.land (Nat.shiftRight V c) 1) 1

/-- The bit set `V` with bit `c` set. -/
def setBit (V c : Nat) : Nat := Nat.lor V (Nat.shiftLeft 1 c)

/-- The value `k n`, computed after `n` itself: the match makes an evaluator
bring `n` to a numeral before it goes on. -/
def withValue {α : Type} (n : Nat) (k : Nat → α) : α :=
  match n with
  | 0 => k 0
  | m + 1 => k (m + 1)

/-- Add to the bit set `V` and to the list `F` the numbers not yet in `V`. -/
def addCodes : List Nat → Nat × List Nat → Nat × List Nat
  | [], acc => acc
  | c :: cs, (V, F) =>
    withValue c fun c1 =>
      match hasBit V c1 with
      | true => addCodes cs (V, F)
      | false => withValue (setBit V c1) fun V1 => addCodes cs (V1, c1 :: F)

/-- Add the six quarter turns of every number of a frontier. -/
def expandFrontier (qt : Face → Nat → Nat) : List Nat → Nat × List Nat → Nat × List Nat
  | [], acc => acc
  | c :: cs, acc => expandFrontier qt cs (addCodes (Face.all.map fun f => qt f c) acc)

/-- The bit set of the numbers found in at most `r` further rounds of
quarter turns, from the bit set `V` with frontier `F`. -/
def bfsCodes (qt : Face → Nat → Nat) : Nat → Nat → List Nat → Nat
  | 0, V, _ => V
  | r + 1, V, F =>
    match expandFrontier qt F (V, []) with
    | (V1, F1) => bfsCodes qt r V1 F1

/-- Every quarter turn of every number below `n` in the bit set `V` is in `V`. -/
def closedBelow (qt : Face → Nat → Nat) (V : Nat) : Nat → Bool
  | 0 => true
  | n + 1 =>
    (!hasBit V n || Face.all.all fun f => hasBit V (qt f n)) && closedBelow qt V n

/-- Some sequence of at most `d` of the eighteen moves takes the solved cube
to a state whose key has the number `c`. -/
def CodeReach (code : CubeState → Nat) (d c : Nat) : Prop :=
  ∃ T : List Move, ValidMoves T ∧ T.length ≤ d ∧ code (applyMoves solvedCube T) = c

/-- The check for one abstraction: the bit set found from the number `c0` of
the solved key in 14 rounds of quarter turns is closed under quarter turns. -/
def keysWithin14 (qt : Face → Nat → Nat) (c0 N : Nat) : Bool :=
  withValue (bfsCodes qt 14 (setBit 0 c0) [c0]) fun V => hasBit V c0 && closedBelow qt V N

/-! ## A solver whose stored values make the sums of `dfs` wrap -/

/-- A corner PDB with 23 keys whose stored values are non-negative and close
to `INT_MAX`: the key stored with `2147483648 - d` makes
`g + heuristic(c)` wrap to a negative number from depth `g = d` on. -/
def longCornerPDB : PDB (Arr Nat 8) :=
  [(⟨[0, 2, 2, 2, 0, 0, 0, 0], rfl⟩, 2147483647),
   (⟨[2, 0, 2, 2, 0, 0, 0, 0], rfl⟩, 2147483645),
   (⟨[1, 0, 2, 1, 0, 0, 0, 2], rfl⟩, 2147483643),
   (⟨[1, 1, 0, 2, 0, 0, 0, 2], rfl⟩, 2147483642),
   (⟨[1, 1, 0, 2, 2, 0, 0, 0], rfl⟩, 2147483641),
   (⟨[2, 1, 1, 0, 2, 0, 0, 0], rfl⟩, 2147483640),
   (⟨[2, 1, 1, 1, 0, 0, 0, 1], rfl⟩, 2147483639),
   (⟨[1, 1, 2, 1, 0, 0, 0, 1], rfl⟩, 2147483638),
   (⟨[1, 1, 2, 1, 1, 0, 0, 0], rfl⟩, 2147483637),
   (⟨[1, 1, 1, 2, 1, 0, 0, 0], rfl⟩, 2147483636),
   (⟨[1, 1, 1, 2, 0, 1, 0, 0], rfl⟩, 2147483635),
   (⟨[2, 1, 1, 1, 0, 1, 0, 0], rfl⟩, 2147483634),
   (⟨[2, 2, 2, 1, 0, 0, 1, 1], rfl⟩, 2147483632),
   (⟨[1, 2, 2, 2, 0, 0, 1, 1], rfl⟩, 2147483631),
   (⟨[1, 2, 2, 2, 1, 0, 0, 1], rfl⟩, 2147483630),
   (⟨[2, 1, 2, 2, 1, 0, 0, 1], rfl⟩, 2147483629),
   (⟨[2, 1, 2, 2, 1, 1, 0, 0], rfl⟩, 2147483628),
   (⟨[2, 2, 2, 1, 1, 1, 0, 0], rfl⟩, 2147483627),
   (⟨[2, 2, 2, 1, 0, 1, 1, 0], rfl⟩, 2147483626),
   (⟨[1, 2, 2, 2, 0, 1, 1, 0], rfl⟩, 2147483625),
   (⟨[1, 2, 0, 0, 0, 0, 2, 1], rfl⟩, 2147483623),
   (⟨[1, 2, 0, 0, 2, 1, 0, 0], rfl⟩, 2147483622),
   (⟨[0, 0, 0, 0, 0, 0, 0, 0], rfl⟩, 2147483621)]

/-- A solver with the solved cube as goal, `longCornerPDB`, empty edge and
E-slice PDBs, the default `node_limit` and a 64-bit `size_t`. -/
def longSolver : IDASolver :=
  ⟨solvedCube, [], longCornerPDB, [], 50000000, 18446744073709551615⟩

/-- A scramble of 32 moves. -/
def longScramble : List Move :=
  [⟨Face.U, 3⟩, ⟨Face.D, 3⟩, ⟨Face.U, 3⟩, ⟨Face.D, 3⟩, ⟨Face.U, 3⟩, ⟨Face.L, 3⟩, ⟨Face.D, 2⟩,
   ⟨Face.R, 1⟩, ⟨Face.D, 3⟩, ⟨Face.U, 3⟩, ⟨Face.D, 3⟩, ⟨Face.U, 2⟩, ⟨Face.D, 3⟩, ⟨Face.U, 3⟩,
   ⟨Face.D, 3⟩, ⟨Face.U, 3⟩, ⟨Face.F, 3⟩, ⟨Face.D, 2⟩, ⟨Face.U, 3⟩, ⟨Face.D, 3⟩, ⟨Face.U, 3⟩,
   ⟨Face.D, 3⟩, ⟨Face.U, 2⟩, ⟨Face.B, 1⟩, ⟨Face.U, 3⟩, ⟨Face.D, 3⟩, ⟨Face.U, 3⟩, ⟨Face.B, 1⟩,
   ⟨Face.D, 3⟩, ⟨Face.U, 3⟩, ⟨Face.D, 3⟩, ⟨Face.U, 3⟩]

/-- The 32 moves that `solve` returns for `longSolver` on `longScramble`. -/
def longSolution : List Move :=
  [⟨Face.U, 1⟩, ⟨Face.D, 1⟩, ⟨Face.U, 1⟩, ⟨Face.D, 1⟩, ⟨Face.B, 3⟩, ⟨Face.U, 1⟩, ⟨Face.D, 1⟩,
   ⟨Face.U, 1⟩, ⟨Face.B, 3⟩, ⟨Face.U, 2⟩, ⟨Face.D, 1⟩, ⟨Face.U, 1⟩, ⟨Face.D, 1⟩, ⟨Face.U, 1⟩,
   ⟨Face.D, 2⟩, ⟨Face.F, 1⟩, ⟨Face.U, 1⟩, ⟨Face.D, 1⟩, ⟨Face.U, 1⟩, ⟨Face.D, 1⟩, ⟨Face.U, 2⟩,
   ⟨Face.D, 1⟩, ⟨Face.U, 1⟩, ⟨Face.D, 1⟩, ⟨Face.R, 3⟩, ⟨Face.D, 2⟩, ⟨Face.L, 1⟩, ⟨Face.U, 1⟩,
   ⟨Face.D, 1⟩, ⟨Face.U, 1⟩, ⟨Face.D, 1⟩, ⟨Face.U, 1⟩]

/-! ## A search that does not return -/

/-- The solved cube with the edge in slot 0 flipped: a state of the data
model that no move sequence reaches. -/
def flippedEdge : CubeState :=
  { solvedCube with edge_orient := ⟨[1, 0, 0, 0, 0, 0, 0, 0, 0, 0, 0, 0], rfl⟩ }

/-- A corner PDB that stores `INT_MAX` for eight keys: the corner
orientations met when `F` is followed by `U D U D ..`. -/
def loopCornerPDB : PDB (Arr Nat 8) :=
  [(⟨[0, 1, 2, 0, 0, 2, 1, 0], rfl⟩, 2147483647),
   (⟨[0, 0, 1, 2, 0, 2, 1, 0], rfl⟩, 2147483647),
   (⟨[0, 0, 1, 2, 0, 0, 2, 1], rfl⟩, 2147483647),
   (⟨[2, 0, 0, 1, 0, 0, 2, 1], rfl⟩, 2147483647),
   (⟨[2, 0, 0, 1, 1, 0, 0, 2], rfl⟩, 2147483647),
   (⟨[1, 2, 0, 0, 1, 0, 0, 2], rfl⟩, 2147483647),
   (⟨[1, 2, 0, 0, 2, 1, 0, 0], rfl⟩, 2147483647),
   (⟨[0, 1, 2, 0, 2, 1, 0, 0], rfl⟩, 2147483647)]

/-- A solver with the solved cube as goal, `loopCornerPDB`, empty edge and
E-slice PDBs, and `node_limit = SIZE_MAX` on a 64-bit `size_t`. -/
def loopSolver : IDASolver :=
  ⟨solvedCube, [], loopCornerPDB, [], 18446744073709551615, 18446744073709551615⟩

/-- The face turned at depth `d` of an endless walk of quarter turns, of
period `2 ^ 32`: `F`, then `U D` alternating `2 ^ 30` times, then `F`, then
`U D` alternating up to the end of the period. -/
def walkFace (d : Nat) : Face :=
  if d % 4294967296 = 0 then Face.F
  else if d % 4294967296 ≤ 2147483648 then
    (if d % 4294967296 % 2 = 1 then Face.U else Face.D)
  else if d % 4294967296 = 2147483649 then Face.F
  else (if d % 4294967296 % 2 = 0 then Face.U else Face.D)

/-- The first `n` moves of the walk. -/
def walk : Nat → List Move
  | 0 => []
  | n + 1 => walk n ++ [⟨walkFace n, 1⟩]

/-- The corner orientations after `F` and `j` further moves `U D U D ..`,
which come back after eight moves. -/
def mKey (j : Nat) : List Nat :=
  match j % 8 with
  | 0 => [0, 1, 2, 0, 0, 2, 1, 0]
  | 1 => [0, 0, 1, 2, 0, 2, 1, 0]
  | 2 => [0, 0, 1, 2, 0, 0, 2, 1]
  | 3 => [2, 0, 0, 1, 0, 0, 2, 1]
  | 4 => [2, 0, 0, 1, 1, 0, 0, 2]
  | 5 => [1, 2, 0, 0, 1, 0, 0, 2]
  | 6 => [1, 2, 0, 0, 2, 1, 0, 0]
  | _ => [0, 1, 2, 0, 2, 1, 0, 0]

/-- The corner orientations at depth `d` of the walk. -/
def keyAt (d : Nat) : List Nat :=
  if d % 4294967296 = 0 then [0, 0, 0, 0, 0, 0, 0, 0]
  else if d % 4294967296 ≤ 2147483649 then mKey (d % 4294967296 - 1)
  else [0, 0, 0, 0, 0, 0, 0, 0]

/-- The moves `ms` lead from the node `(c, g, path)` of `dfs` through nodes
that `dfs` expands: at each of them the sum `g + heuristic(c)` is within the
threshold, the state is not the goal, and the next move is not pruned. -/
def OpenPath (sv : IDASolver) (threshold : Int) :
    CubeState → Int → List Move → List Move → Prop
  | _, _, _, [] => True
  | c, g, path, m :: ms =>
    wrapInt (g + heuristic sv c) ≤ threshold ∧ c ≠ sv.goal ∧ m ∈ allMoves
      ∧ pruned path m = false
      ∧ OpenPath sv threshold (applyMove c m) (wrapInt (g + 1)) (path ++ [m]) ms
/-! # Theorems -/

/-! ## Arrays and one quarter turn, cell by cell -/

theorem Arr.exists12 {α : Type} (a : Arr α 12) : ∃ x0 x1 x2 x3 x4 x5 x6 x7 x8 x9 x10 x11,
    a = ⟨[x0, x1, x2, x3, x4, x5, x6, x7, x8, x9, x10, x11], rfl⟩ := by
  obtain ⟨l, hl⟩ := a
  match l, hl with
  | [x0, x1, x2, x3, x4, x5, x6, x7, x8, x9, x10, x11], _ =>
    exact ⟨x0, x1, x2, x3, x4, x5, x6, x7, x8, x9, x10, x11, rfl⟩

theorem Arr.exists8 {α : Type} (a : Arr α 8) : ∃ x0 x1 x2 x3 x4 x5 x6 x7,
    a = ⟨[x0, x1, x2, x3, x4, x5, x6, x7], rfl⟩ := by
  obtain ⟨l, hl⟩ := a
  match l, hl with
  | [x0, x1, x2, x3, x4, x5, x6, x7], _ =>
    exact ⟨x0, x1, x2, x3, x4, x5, x6, x7, rfl⟩

theorem getD_map_range {α : Type} (n : Nat) (g : Nat → α) (d : α) (j : Nat) (hj : j < n) :
    ((List.range n).map g).getD j d = g j := by
  rw [List.getD_eq_getElem _ _ (by simpa using hj)]
  simp

theorem Arr.ext_rd {n : Nat} (a b : Arr Nat n) (h : ∀ j, j < n → a.rd j = b.rd j) : a = b := by
  apply Subtype.ext
  apply List.ext_getElem (by rw [a.2, b.2])
  intro j h1 h2
  have := h j (by rw [← a.2]; exact h1)
  rwa [Arr.rd, Arr.rd, List.getD_eq_getElem _ _ h1, List.getD_eq_getElem _ _ h2] at this

theorem Arr.rd_mem {n : Nat} (a : Arr Nat n) (j : Nat) (hj : j < n) : a.rd j ∈ a.1 := by
  have h1 : j < a.1.length := by rw [a.2]; exact hj
  rw [Arr.rd, List.getD_eq_getElem _ _ h1]
  exact List.getElem_mem _

theorem Arr.eq_map_rd {n : Nat} (a : Arr Nat n) : a.1 = (List.range n).map a.rd := by
  apply List.ext_getElem (by simp [a.2])
  intro j h1 h2
  rw [List.getElem_map, List.getElem_range, Arr.rd, List.getD_eq_getElem _ _ h1]

theorem CubeState.ext4 (a b : CubeState) (h1 : a.edges = b.edges) (h2 : a.corners = b.corners)
    (h3 : a.edge_orient = b.edge_orient) (h4 : a.corner_orient = b.corner_orient) : a = b := by
  cases a; cases b; simp_all

theorem quarterTurn_edges (f : Face) (s : CubeState) :
    (quarterTurn f s).edges.1 =
      (List.range 12).map fun j => s.edges.rd (prevSlot (edge_cycles f) j) := by
  obtain ⟨e, c, eo, co⟩ := s
  obtain ⟨e0, e1, e2, e3, e4, e5, e6, e7, e8, e9, e10, e11, rfl⟩ := Arr.exists12 e
  cases f <;> rfl

theorem quarterTurn_corners (f : Face) (s : CubeState) :
    (quarterTurn f s).corners.1 =
      (List.range 8).map fun j => s.corners.rd (prevSlot (corner_cycles f) j) := by
  obtain ⟨e, c, eo, co⟩ := s
  obtain ⟨c0, c1, c2, c3, c4, c5, c6, c7, rfl⟩ := Arr.exists8 c
  cases f <;> rfl

theorem quarterTurn_edge_orient (f : Face) (s : CubeState) :
    (quarterTurn f s).edge_orient.1 =
      (List.range 12).map fun j =>
        if j ∈ edge_cycles f then
          (s.edge_orient.rd (prevSlot (edge_cycles f) j)
            + slotDelta (edge_cycles f) (edge_orient f) j) % 2
        else s.edge_orient.rd j := by
  obtain ⟨e, c, eo, co⟩ := s
  obtain ⟨o0, o1, o2, o3, o4, o5, o6, o7, o8, o9, o10, o11, rfl⟩ := Arr.exists12 eo
  cases f <;> rfl

theorem quarterTurn_corner_orient (f : Face) (s : CubeState) :
    (quarterTurn f s).corner_orient.1 =
      (List.range 8).map fun j =>
        if j ∈ corner_cycles f then
          (s.corner_orient.rd (prevSlot (corner_cycles f) j)
            + slotDelta (corner_cycles f) (corner_orient f) j) % 3
        else s.corner_orient.rd j := by
  obtain ⟨e, c, eo, co⟩ := s
  obtain ⟨t0, t1, t2, t3, t4, t5, t6, t7, rfl⟩ := Arr.exists8 co
  cases f <;> rfl

theorem rd_quarterTurn_edges (f : Face) (s : CubeState) (j : Nat) (hj : j < 12) :
    (quarterTurn f s).edges.rd j = s.edges.rd (prevSlot (edge_cycles f) j) := by
  rw [Arr.rd, quarterTurn_edges, getD_map_range _ _ _ _ hj]

theorem rd_quarterTurn_corners (f : Face) (s : CubeState) (j : Nat) (hj : j < 8) :
    (quarterTurn f s).corners.rd j = s.corners.rd (prevSlot (corner_cycles f) j) := by
  rw [Arr.rd, quarterTurn_corners, getD_map_range _ _ _ _ hj]

theorem rd_quarterTurn_edge_orient (f : Face) (s : CubeState) (j : Nat) (hj : j < 12) :
    (quarterTurn f s).edge_orient.rd j =
      if j ∈ edge_cycles f then
        (s.edge_orient.rd (prevSlot (edge_cycles f) j)
          + slotDelta (edge_cycles f) (edge_orient f) j) % 2
      else s.edge_orient.rd j := by
  rw [Arr.rd, quarterTurn_edge_orient, getD_map_range _ _ _ _ hj]

theorem rd_quarterTurn_corner_orient (f : Face) (s : CubeState) (j : Nat) (hj : j < 8) :
    (quarterTurn f s).corner_orient.rd j =
      if j ∈ corner_cycles f then
        (s.corner_orient.rd (prevSlot (corner_cycles f) j)
          + slotDelta (corner_cycles f) (corner_orient f) j) % 3
      else s.corner_orient.rd j := by
  rw [Arr.rd, quarterTurn_corner_orient, getD_map_range _ _ _ _ hj]

theorem prevSlot_edge_lt (f : Face) (j : Nat) (hj : j < 12) :
    prevSlot (edge_cycles f) j < 12 := by
  cases f <;> interval_cases j <;> decide

theorem prevSlot_corner_lt (f : Face) (j : Nat) (hj : j < 8) :
    prevSlot (corner_cycles f) j < 8 := by
  cases f <;> interval_cases j <;> decide

/-! ## Orientation ranges and four quarter turns -/

theorem InRange_quarterTurn (f : Face) (s : CubeState) (h : InRange s) :
    InRange (quarterTurn f s) := by
  constructor
  · intro x hx
    rw [quarterTurn_edge_orient] at hx
    simp only [List.mem_map, List.mem_range] at hx
    obtain ⟨j, hj, rfl⟩ := hx
    split
    · exact Nat.mod_lt _ (by decide)
    · exact h.1 _ (Arr.rd_mem _ _ hj)
  · intro x hx
    rw [quarterTurn_corner_orient] at hx
    simp only [List.mem_map, List.mem_range] at hx
    obtain ⟨j, hj, rfl⟩ := hx
    split
    · exact Nat.mod_lt _ (by decide)
    · exact h.2 _ (Arr.rd_mem _ _ hj)

theorem quarterTurn_four (f : Face) (s : CubeState) (h : InRange s) :
    (quarterTurn f)^[4] s = s := by
  simp only [Function.iterate_succ, Function.iterate_zero, Function.comp, id]
  apply CubeState.ext4
  · apply Arr.ext_rd; intro j hj
    have h1 := prevSlot_edge_lt f j hj
    have h2 := prevSlot_edge_lt f _ h1
    have h3 := prevSlot_edge_lt f _ h2
    rw [rd_quarterTurn_edges _ _ _ hj, rd_quarterTurn_edges _ _ _ h1,
      rd_quarterTurn_edges _ _ _ h2, rd_quarterTurn_edges _ _ _ h3]
    congr 1
    cases f <;> interval_cases j <;> decide
  · apply Arr.ext_rd; intro j hj
    have h1 := prevSlot_corner_lt f j hj
    have h2 := prevSlot_corner_lt f _ h1
    have h3 := prevSlot_corner_lt f _ h2
    rw [rd_quarterTurn_corners _ _ _ hj, rd_quarterTurn_corners _ _ _ h1,
      rd_quarterTurn_corners _ _ _ h2, rd_quarterTurn_corners _ _ _ h3]
    congr 1
    cases f <;> interval_cases j <;> decide
  · apply Arr.ext_rd; intro j hj
    have hx : s.edge_orient.rd j < 2 := h.1 _ (Arr.rd_mem _ _ hj)
    have h1 := prevSlot_edge_lt f j hj
    have h2 := prevSlot_edge_lt f _ h1
    have h3 := prevSlot_edge_lt f _ h2
    simp only [rd_quarterTurn_edge_orient _ _ _ hj, rd_quarterTurn_edge_orient _ _ _ h1,
      rd_quarterTurn_edge_orient _ _ _ h2, rd_quarterTurn_edge_orient _ _ _ h3]
    revert hx
    generalize s.edge_orient.rd = g
    cases f <;> interval_cases j <;>
      simp [prevSlot, slotDelta, tab, edge_cycles, edge_orient] <;> omega
  · apply Arr.ext_rd; intro j hj
    have hx : s.corner_orient.rd j < 3 := h.2 _ (Arr.rd_mem _ _ hj)
    have h1 := prevSlot_corner_lt f j hj
    have h2 := prevSlot_corner_lt f _ h1
    have h3 := prevSlot_corner_lt f _ h2
    simp only [rd_quarterTurn_corner_orient _ _ _ hj, rd_quarterTurn_corner_orient _ _ _ h1,
      rd_quarterTurn_corner_orient _ _ _ h2, rd_quarterTurn_corner_orient _ _ _ h3]
    revert hx
    generalize s.corner_orient.rd = g
    cases f <;> interval_cases j <;>
      simp [prevSlot, slotDelta, tab, corner_cycles, corner_orient] <;> omega

/-! ## Properties carried along `apply`, `applyMove` and move sequences -/

theorem apply_invariant (P : CubeState → Prop) (hq : ∀ f s, P s → P (quarterTurn f s))
    (s : CubeState) (f : Face) (t : Nat) (h : P s) : P (apply s f t) := by
  induction t with
  | zero => exact h
  | succ t ih =>
    show P ((quarterTurn f)^[t + 1] s)
    rw [Function.iterate_succ_apply']
    exact hq f _ ih

theorem applyMoves_invariant (P : CubeState → Prop) (hq : ∀ f s, P s → P (quarterTurn f s))
    (T : List Move) : ∀ s : CubeState, P s → P (applyMoves s T) := by
  induction T with
  | nil => intro s h; exact h
  | cons m T ih =>
    intro s h
    exact ih _ (apply_invariant P hq s m.face m.turns h)

theorem applyMoves_append (s : CubeState) (A B : List Move) :
    applyMoves s (A ++ B) = applyMoves (applyMoves s A) B := by
  simp [applyMoves, List.foldl_append]

theorem InRange_solvedCube : InRange solvedCube := by
  constructor <;> intro x hx <;> simp [solvedCube] at hx <;> omega

theorem InRange_applyMove (s : CubeState) (m : Move) (h : InRange s) :
    InRange (applyMove s m) :=
  apply_invariant InRange InRange_quarterTurn s m.face m.turns h

theorem InRange_applyMoves (s : CubeState) (T : List Move) (h : InRange s) :
    InRange (applyMoves s T) :=
  applyMoves_invariant InRange InRange_quarterTurn T s h

theorem apply_add (s : CubeState) (f : Face) (a b : Nat) :
    apply (apply s f a) f b = apply s f (a + b) := by
  show (quarterTurn f)^[b] ((quarterTurn f)^[a] s) = (quarterTurn f)^[a + b] s
  rw [Nat.add_comm, Function.iterate_add_apply]

theorem apply_four_mul (s : CubeState) (f : Face) (h : InRange s) (k : Nat) :
    apply s f (4 * k) = s := by
  induction k with
  | zero => rfl
  | succ k ih =>
    have : 4 * (k + 1) = 4 + 4 * k := by ring
    rw [this, ← apply_add]
    show apply ((quarterTurn f)^[4] s) f (4 * k) = s
    rw [quarterTurn_four f s h, ih]

theorem apply_mod_four (s : CubeState) (f : Face) (h : InRange s) (n : Nat) :
    apply s f n = apply s f (n % 4) := by
  conv_lhs => rw [← Nat.div_add_mod n 4]
  rw [← apply_add, apply_four_mul s f h]

theorem mem_allMoves (m : Move) :
    m ∈ allMoves ↔ m.turns = 1 ∨ m.turns = 2 ∨ m.turns = 3 := by
  obtain ⟨f, t⟩ := m
  cases f <;> simp [allMoves, Face.all]

theorem applyMove_inv (s : CubeState) (m : Move) (h : InRange s) (hm : m ∈ allMoves) :
    applyMove (applyMove s m) m.inv = s := by
  have ht := (mem_allMoves m).1 hm
  show apply (apply s m.face m.turns) m.face (4 - m.turns) = s
  rw [apply_add]
  have : m.turns + (4 - m.turns) = 4 * 1 := by omega
  rw [this, apply_four_mul s m.face h]

theorem applyMoves_inverseSeq (S : List Move) :
    ∀ s : CubeState, InRange s → ValidMoves S →
      applyMoves (applyMoves s S) (inverseSeq S) = s := by
  induction S with
  | nil => intro s _ _; rfl
  | cons m S ih =>
    intro s h hS
    have hm : m ∈ allMoves := hS m (List.mem_cons_self _ _)
    have hS1 : ValidMoves S := fun x hx => hS x (List.mem_cons_of_mem _ hx)
    have e1 : inverseSeq (m :: S) = inverseSeq S ++ [m.inv] := by
      simp [inverseSeq]
    have e2 : applyMoves s (m :: S) = applyMoves (applyMove s m) S := rfl
    rw [e1, e2, applyMoves_append, ih _ (InRange_applyMove s m h) hS1]
    exact applyMove_inv s m h hm

theorem inv_mem_allMoves (m : Move) (hm : m ∈ allMoves) : m.inv ∈ allMoves := by
  rw [mem_allMoves] at hm ⊢
  show 4 - m.turns = 1 ∨ 4 - m.turns = 2 ∨ 4 - m.turns = 3
  omega

theorem ValidMoves_inverseSeq (S : List Move) (hS : ValidMoves S) :
    ValidMoves (inverseSeq S) := by
  intro m hm
  simp only [inverseSeq, List.mem_map, List.mem_reverse] at hm
  obtain ⟨x, hx, rfl⟩ := hm
  exact inv_mem_allMoves x (hS x hx)

theorem length_inverseSeq (S : List Move) : (inverseSeq S).length = S.length := by
  simp [inverseSeq]

theorem Reachable_InRange (s : CubeState) (h : Reachable s) : InRange s := by
  obtain ⟨T, _, rfl⟩ := h
  exact InRange_applyMoves _ T InRange_solvedCube

/-! ## Permutations, orientation sums and parity -/

theorem quarterTurn_edges_perm (f : Face) (s : CubeState) :
    (quarterTurn f s).edges.1.Perm s.edges.1 := by
  have e : (quarterTurn f s).edges.1
      = ((List.range 12).map (prevSlot (edge_cycles f))).map s.edges.rd := by
    rw [quarterTurn_edges, List.map_map]; rfl
  rw [e]
  conv_rhs => rw [Arr.eq_map_rd s.edges]
  apply List.Perm.map
  cases f <;> decide

theorem quarterTurn_corners_perm (f : Face) (s : CubeState) :
    (quarterTurn f s).corners.1.Perm s.corners.1 := by
  have e : (quarterTurn f s).corners.1
      = ((List.range 8).map (prevSlot (corner_cycles f))).map s.corners.rd := by
    rw [quarterTurn_corners, List.map_map]; rfl
  rw [e]
  conv_rhs => rw [Arr.eq_map_rd s.corners]
  apply List.Perm.map
  cases f <;> decide

theorem quarterTurn_edge_orient_sum (f : Face) (s : CubeState) :
    (quarterTurn f s).edge_orient.1.sum % 2 = s.edge_orient.1.sum % 2 := by
  obtain ⟨e, c, eo, co⟩ := s
  obtain ⟨o0, o1, o2, o3, o4, o5, o6, o7, o8, o9, o10, o11, rfl⟩ := Arr.exists12 eo
  rw [quarterTurn_edge_orient]
  cases f <;>
    simp [List.range_succ, prevSlot, slotDelta, tab, edge_cycles, edge_orient, Arr.rd] <;>
    omega

theorem quarterTurn_corner_orient_sum (f : Face) (s : CubeState) :
    (quarterTurn f s).corner_orient.1.sum % 3 = s.corner_orient.1.sum % 3 := by
  obtain ⟨e, c, eo, co⟩ := s
  obtain ⟨t0, t1, t2, t3, t4, t5, t6, t7, rfl⟩ := Arr.exists8 co
  rw [quarterTurn_corner_orient]
  cases f <;>
    simp [List.range_succ, prevSlot, slotDelta, tab, corner_cycles, corner_orient, Arr.rd] <;>
    omega

theorem slotPerm_edge_val (f : Face) (j : Fin 12) :
    (slotPerm 11 (edge_cycles f) j).1 = prevSlot (edge_cycles f) j.1 := by
  cases f <;> fin_cases j <;> decide

theorem slotPerm_corner_val (f : Face) (j : Fin 8) :
    (slotPerm 7 (corner_cycles f) j).1 = prevSlot (corner_cycles f) j.1 := by
  cases f <;> fin_cases j <;> decide

theorem sign_slotPerm_edge (f : Face) :
    Equiv.Perm.sign (slotPerm 11 (edge_cycles f)) = -1 := by
  cases f <;> simp [slotPerm, Equiv.Perm.sign_mul, Equiv.Perm.sign_swap', tab, edge_cycles] <;>
    decide

theorem sign_slotPerm_corner (f : Face) :
    Equiv.Perm.sign (slotPerm 7 (corner_cycles f)) = -1 := by
  cases f <;> simp [slotPerm, Equiv.Perm.sign_mul, Equiv.Perm.sign_swap', tab, corner_cycles] <;>
    decide

theorem SameParity_solvedCube : SameParity solvedCube := by
  refine ⟨1, 1, ?_, ?_, rfl⟩
  · intro i; fin_cases i <;> rfl
  · intro i; fin_cases i <;> rfl

theorem SameParity_quarterTurn (f : Face) (s : CubeState) (h : SameParity s) :
    SameParity (quarterTurn f s) := by
  obtain ⟨σ, τ, hσ, hτ, hs⟩ := h
  refine ⟨σ * slotPerm 11 (edge_cycles f), τ * slotPerm 7 (corner_cycles f), ?_, ?_, ?_⟩
  · intro i
    rw [rd_quarterTurn_edges f s i.1 i.2, ← slotPerm_edge_val, hσ]; rfl
  · intro i
    rw [rd_quarterTurn_corners f s i.1 i.2, ← slotPerm_corner_val, hτ]; rfl
  · rw [Equiv.Perm.sign_mul, Equiv.Perm.sign_mul, sign_slotPerm_edge, sign_slotPerm_corner, hs]

/-- C4: turns of one face compose modulo 4.  For every face, all natural
numbers `a` and `b` and every state whose orientation cells are in range,
`apply (apply s f a) f b = apply s f ((a + b) % 4)`, and `apply s f (4 * k) = s`
for every `k`. -/
theorem apply_turns_compose_mod_four (f : Face) (a b : Nat) (s : CubeState) (h : InRange s) :
    apply (apply s f a) f b = apply s f ((a + b) % 4) ∧ ∀ k : Nat, apply s f (4 * k) = s :=
  ⟨by rw [apply_add, apply_mod_four s f h], apply_four_mul s f h⟩

theorem apply_turns_compose_mod_four_witness :
    InRange (applyMove solvedCube ⟨Face.F, 1⟩) ∧
      (apply (apply (applyMove solvedCube ⟨Face.F, 1⟩) Face.R 3) Face.R 2
          = apply (applyMove solvedCube ⟨Face.F, 1⟩) Face.R ((3 + 2) % 4)
        ∧ ∀ k : Nat, apply (applyMove solvedCube ⟨Face.F, 1⟩) Face.R (4 * k)
            = applyMove solvedCube ⟨Face.F, 1⟩) :=
  ⟨InRange_applyMove _ _ InRange_solvedCube,
    apply_turns_compose_mod_four Face.R 3 2 _ (InRange_applyMove _ _ InRange_solvedCube)⟩

/-- C5: a scramble followed by its reverse inverse is the identity.  For
every state with orientation cells in range and every sequence `S` of the
eighteen moves, applying `S` and then `inverseSeq S` gives the state back; from
the solved cube it gives the solved cube; and a single move followed by its
inverse gives the state back. -/
theorem scramble_then_inverse (s : CubeState) (S : List Move) (h : InRange s)
    (hS : ValidMoves S) :
    applyMoves (applyMoves s S) (inverseSeq S) = s
      ∧ applyMoves (applyMoves solvedCube S) (inverseSeq S) = solvedCube
      ∧ ∀ m ∈ allMoves, applyMove (applyMove s m) m.inv = s :=
  ⟨applyMoves_inverseSeq S s h hS, applyMoves_inverseSeq S solvedCube InRange_solvedCube hS,
    fun m hm => applyMove_inv s m h hm⟩

theorem scramble_then_inverse_witness :
    InRange (applyMove solvedCube ⟨Face.B, 2⟩)
      ∧ ValidMoves [⟨Face.R, 1⟩, ⟨Face.U, 3⟩, ⟨Face.F, 2⟩]
      ∧ (applyMoves (applyMoves (applyMove solvedCube ⟨Face.B, 2⟩)
            [⟨Face.R, 1⟩, ⟨Face.U, 3⟩, ⟨Face.F, 2⟩])
            (inverseSeq [⟨Face.R, 1⟩, ⟨Face.U, 3⟩, ⟨Face.F, 2⟩])
          = applyMove solvedCube ⟨Face.B, 2⟩
        ∧ applyMoves (applyMoves solvedCube [⟨Face.R, 1⟩, ⟨Face.U, 3⟩, ⟨Face.F, 2⟩])
            (inverseSeq [⟨Face.R, 1⟩, ⟨Face.U, 3⟩, ⟨Face.F, 2⟩]) = solvedCube
        ∧ ∀ m ∈ allMoves,
            applyMove (applyMove (applyMove solvedCube ⟨Face.B, 2⟩) m) m.inv
              = applyMove solvedCube ⟨Face.B, 2⟩) :=
  ⟨InRange_applyMove _ _ InRange_solvedCube, by unfold ValidMoves; decide,
    scramble_then_inverse _ _ (InRange_applyMove _ _ InRange_solvedCube)
      (by unfold ValidMoves; decide)⟩

/-- C6: permutation invariant.  In every state reachable from `solvedCube`
by the eighteen moves, `edges` is a permutation of `0 .. 11` and `corners` is a
permutation of `0 .. 7`. -/
theorem reachable_permutations (s : CubeState) (h : Reachable s) :
    s.edges.1.Perm (List.range 12) ∧ s.corners.1.Perm (List.range 8) := by
  obtain ⟨T, _, rfl⟩ := h
  exact applyMoves_invariant
    (fun s => s.edges.1.Perm (List.range 12) ∧ s.corners.1.Perm (List.range 8))
    (fun f s hs => ⟨(quarterTurn_edges_perm f s).trans hs.1,
      (quarterTurn_corners_perm f s).trans hs.2⟩)
    T solvedCube ⟨List.Perm.refl _, List.Perm.refl _⟩

theorem reachable_permutations_witness :
    Reachable (applyMoves solvedCube [⟨Face.R, 1⟩, ⟨Face.U, 3⟩])
      ∧ (applyMoves solvedCube [⟨Face.R, 1⟩, ⟨Face.U, 3⟩]).edges.1.Perm (List.range 12)
      ∧ (applyMoves solvedCube [⟨Face.R, 1⟩, ⟨Face.U, 3⟩]).corners.1.Perm (List.range 8) :=
  ⟨⟨_, by unfold ValidMoves; decide, rfl⟩,
    reachable_permutations _ ⟨_, by unfold ValidMoves; decide, rfl⟩⟩

/-- C7: orientation-sum invariant.  In every state reachable from
`solvedCube` by the eighteen moves, every `edge_orient` cell is 0 or 1 and
their sum is even, and every `corner_orient` cell is 0, 1 or 2 and their sum
is a multiple of 3. -/
theorem reachable_orientation_sums (s : CubeState) (h : Reachable s) :
    (∀ x ∈ s.edge_orient.1, x < 2) ∧ s.edge_orient.1.sum % 2 = 0
      ∧ (∀ x ∈ s.corner_orient.1, x < 3) ∧ s.corner_orient.1.sum % 3 = 0 := by
  have hr := Reachable_InRange s h
  obtain ⟨T, _, rfl⟩ := h
  have hsum := applyMoves_invariant
    (fun s => s.edge_orient.1.sum % 2 = 0 ∧ s.corner_orient.1.sum % 3 = 0)
    (fun f s hs => ⟨(quarterTurn_edge_orient_sum f s).trans hs.1,
      (quarterTurn_corner_orient_sum f s).trans hs.2⟩)
    T solvedCube ⟨rfl, rfl⟩
  exact ⟨hr.1, hsum.1, hr.2, hsum.2⟩

theorem reachable_orientation_sums_witness :
    Reachable (applyMoves solvedCube [⟨Face.F, 1⟩, ⟨Face.L, 2⟩])
      ∧ ((∀ x ∈ (applyMoves solvedCube [⟨Face.F, 1⟩, ⟨Face.L, 2⟩]).edge_orient.1, x < 2)
        ∧ (applyMoves solvedCube [⟨Face.F, 1⟩, ⟨Face.L, 2⟩]).edge_orient.1.sum % 2 = 0
        ∧ (∀ x ∈ (applyMoves solvedCube [⟨Face.F, 1⟩, ⟨Face.L, 2⟩]).corner_orient.1, x < 3)
        ∧ (applyMoves solvedCube [⟨Face.F, 1⟩, ⟨Face.L, 2⟩]).corner_orient.1.sum % 3 = 0) :=
  ⟨⟨_, by unfold ValidMoves; decide, rfl⟩,
    reachable_orientation_sums _ ⟨_, by unfold ValidMoves; decide, rfl⟩⟩

/-- C8: parity invariant.  In every state reachable from `solvedCube` by the
eighteen moves, `edges` and `corners` are permutations of their slots and the
sign of the edge permutation equals the sign of the corner permutation. -/
theorem reachable_same_parity (s : CubeState) (h : Reachable s) : SameParity s := by
  obtain ⟨T, _, rfl⟩ := h
  exact applyMoves_invariant SameParity SameParity_quarterTurn T solvedCube
    SameParity_solvedCube

theorem reachable_same_parity_witness :
    Reachable (applyMoves solvedCube [⟨Face.D, 3⟩, ⟨Face.B, 1⟩])
      ∧ SameParity (applyMoves solvedCube [⟨Face.D, 3⟩, ⟨Face.B, 1⟩]) :=
  ⟨⟨_, by unfold ValidMoves; decide, rfl⟩,
    reachable_same_parity _ ⟨_, by unfold ValidMoves; decide, rfl⟩⟩

/-! ## The depth-first search and the threshold loop -/

theorem dfsMoves_post (sv : IDASolver)
    (child : CubeState → List Move → Nat → Option (Bool × List Move × Nat))
    (hchild : ∀ c1 p n r, child c1 p n = some r → DfsPost sv c1 p r) (c : CubeState)
    (ms : List Move) (hms : ValidMoves ms) :
    ∀ (path : List Move) (nodes : Nat) (r : Bool × List Move × Nat),
      dfsMoves child c ms path nodes = some r → DfsPost sv c path r := by
  induction ms with
  | nil =>
    intro path nodes r h
    simp only [dfsMoves, Option.some.injEq] at h
    subst h
    constructor
    · intro h; cases h
    · intro _; rfl
  | cons m ms ih =>
    have hm : m ∈ allMoves := hms m (List.mem_cons_self _ _)
    have hms1 : ValidMoves ms := fun x hx => hms x (List.mem_cons_of_mem _ hx)
    intro path nodes r h
    rw [dfsMoves] at h
    split at h
    · exact ih hms1 path nodes r h
    · split at h
      · cases h
      · rename_i path1 nodes1 hc
        simp only [Option.some.injEq] at h
        subst h
        obtain ⟨h1, _⟩ := hchild _ _ _ _ hc
        obtain ⟨⟨T, hp, hT, hg⟩, hn⟩ := h1 rfl
        constructor
        · intro _
          refine ⟨⟨m :: T, ?_, ?_, hg⟩, hn⟩
          · show path1 = path ++ m :: T
            rw [show path1 = path ++ [m] ++ T from hp]; simp
          · intro x hx
            rcases List.mem_cons.1 hx with rfl | hx
            · exact hm
            · exact hT x hx
        · intro h; cases h
      · rename_i path1 nodes1 hc
        have hp : path1 = path ++ [m] := (hchild _ _ _ _ hc).2 rfl
        rw [hp, List.dropLast_concat] at h
        exact ih hms1 path nodes1 r h

theorem ValidMoves_allMoves : ValidMoves allMoves := fun _ h => h

theorem dfs_post (sv : IDASolver) (threshold : Int) :
    ∀ (fuel : Nat) (c : CubeState) (g : Int) (path : List Move) (nodes : Nat)
      (r : Bool × List Move × Nat),
      dfs sv fuel c g threshold path nodes = some r → DfsPost sv c path r := by
  intro fuel
  induction fuel with
  | zero => intro c g path nodes r h; simp [dfs] at h
  | succ fuel ih =>
    intro c g path nodes r h
    rw [dfs] at h
    generalize bump sv.size_max nodes = n1 at h
    split at h
    · simp only [Option.some.injEq] at h; subst h
      constructor
      · intro h; cases h
      · intro _; rfl
    · rename_i hlim
      split at h
      · simp only [Option.some.injEq] at h; subst h
        constructor
        · intro h; cases h
        · intro _; rfl
      · split at h
        · rename_i hgoal
          simp only [Option.some.injEq] at h; subst h
          constructor
          · intro _
            refine ⟨⟨[], ?_, ?_, hgoal⟩, Nat.le_of_not_lt hlim⟩
            · simp
            · intro x hx; cases hx
          · intro h; cases h
        · exact dfsMoves_post sv _ (fun c1 p n r hr => ih c1 (wrapInt (g + 1)) p n r hr) c allMoves
            ValidMoves_allMoves path _ r h

theorem solveLoop_post (sv : IDASolver) (fuel : Nat) (start : CubeState) :
    ∀ (n : Nat) (threshold : Int) (T : List Move),
      solveLoop sv fuel start n threshold [] = some T → T ≠ [] →
        ValidMoves T ∧ applyMoves start T = sv.goal := by
  intro n
  induction n with
  | zero => intro threshold T h; simp [solveLoop] at h
  | succ n ih =>
    intro threshold T h hne
    rw [solveLoop] at h
    split at h
    · split at h
      · cases h
      · rename_i path1 nodes1 hd
        simp only [Option.some.injEq] at h; subst h
        obtain ⟨⟨T, hp, hT, hg⟩, _⟩ := (dfs_post sv threshold _ _ _ _ _ _ hd).1 rfl
        have : path1 = T := by simpa using hp
        subst this
        exact ⟨hT, hg⟩
      · rename_i path1 nodes1 hd
        have hp : path1 = [] := (dfs_post sv threshold _ _ _ _ _ _ hd).2 rfl
        rw [hp] at h
        exact ih _ T h hne
    · simp only [Option.some.injEq] at h
      exact absurd h.symm hne

/-- C1: solution correctness of `solve`.  For every solver (any goal, any
content of the three PDBs, any `node_limit`), every start state and every
depth allowed to the recursion, a non-empty sequence returned by `solve` takes
the start state to the goal when its moves are applied in order with
`applyMove`; with the goal of `solveCube`, the solved cube, it takes the start
state to the solved cube. -/
theorem solve_returns_solution (sv : IDASolver) (fuel : Nat) (s : CubeState) (T : List Move)
    (h : solve sv fuel s = some T) (hne : T ≠ []) :
    applyMoves s T = sv.goal ∧ (sv.goal = solvedCube → applyMoves s T = solvedCube) := by
  have := (solveLoop_post sv fuel s _ _ T h hne).2
  exact ⟨this, fun hg => this.trans hg⟩

theorem solve_returns_solution_witness :
    solve ⟨solvedCube, [], [], [], 50000000, 4294967295⟩ 2 (applyMove solvedCube ⟨Face.U, 3⟩)
        = some [⟨Face.U, 1⟩]
      ∧ [(⟨Face.U, 1⟩ : Move)] ≠ []
      ∧ (applyMoves (applyMove solvedCube ⟨Face.U, 3⟩) [⟨Face.U, 1⟩] = solvedCube
        ∧ (solvedCube = solvedCube →
            applyMoves (applyMove solvedCube ⟨Face.U, 3⟩) [⟨Face.U, 1⟩] = solvedCube)) :=
  ⟨by decide, by decide,
    solve_returns_solution ⟨solvedCube, [], [], [], 50000000, 4294967295⟩ 2
      (applyMove solvedCube ⟨Face.U, 3⟩) [⟨Face.U, 1⟩] (by decide) (by decide)⟩

/-! ## The pattern-database builder: one expansion -/

theorem pdbFind_append {K : Type} [DecidableEq K] (pdb : PDB K) (k : K) (v : Int) (k1 : K) :
    pdbFind (pdb ++ [(k, v)]) k1 =
      match pdbFind pdb k1 with
      | some x => some x
      | none => if k = k1 then some v else none := by
  induction pdb with
  | nil => simp [pdbFind]
  | cons kv rest ih =>
    obtain ⟨k2, v2⟩ := kv
    by_cases h : k2 = k1
    · simp [pdbFind, h]
    · simp [pdbFind, h, ih]

theorem pdbFind_append_of_some {K : Type} [DecidableEq K] (pdb : PDB K) (k : K) (v : Int)
    (k1 : K) (x : Int) (h : pdbFind pdb k1 = some x) :
    pdbFind (pdb ++ [(k, v)]) k1 = some x := by
  rw [pdbFind_append, h]

theorem pdbFind_append_self {K : Type} [DecidableEq K] (pdb : PDB K) (k : K) (v : Int)
    (h : pdbFind pdb k = none) : pdbFind (pdb ++ [(k, v)]) k = some v := by
  rw [pdbFind_append, h]; simp

theorem pdbFind_append_inv {K : Type} [DecidableEq K] (pdb : PDB K) (k : K) (v : Int)
    (k1 : K) (x : Int) (h : pdbFind (pdb ++ [(k, v)]) k1 = some x) :
    pdbFind pdb k1 = some x ∨ (pdbFind pdb k1 = none ∧ k1 = k ∧ x = v) := by
  rw [pdbFind_append] at h
  cases hf : pdbFind pdb k1 with
  | some y => rw [hf] at h; left; simpa using h
  | none =>
    rw [hf] at h
    by_cases hk : k = k1
    · simp [hk] at h; right; exact ⟨rfl, hk.symm, h.symm⟩
    · simp [hk] at h

theorem expandMoves_spec {K : Type} [DecidableEq K] (extractor : CubeState → K)
    (s0 : CubeState) (d0 : Int) (ms : List Move) :
    ∀ (pdb : PDB K) (q : List (CubeState × Int)),
      (∀ k v, pdbFind pdb k = some v →
          pdbFind (expandMoves extractor s0 d0 ms pdb q).1 k = some v)
      ∧ (∀ k v, pdbFind (expandMoves extractor s0 d0 ms pdb q).1 k = some v →
          pdbFind pdb k = some v ∨
            (v = d0 + 1 ∧ (∃ m ∈ ms, k = extractor (applyMove s0 m))
              ∧ ∃ s, (s, d0 + 1) ∈ (expandMoves extractor s0 d0 ms pdb q).2 ∧ extractor s = k))
      ∧ (∀ m ∈ ms, ∃ v,
          pdbFind (expandMoves extractor s0 d0 ms pdb q).1 (extractor (applyMove s0 m)) = some v)
      ∧ ∃ new, (expandMoves extractor s0 d0 ms pdb q).2 = q ++ new ∧ new.length ≤ ms.length
          ∧ ∀ s d, (s, d) ∈ new → d = d0 + 1
            ∧ pdbFind (expandMoves extractor s0 d0 ms pdb q).1 (extractor s) = some (d0 + 1) := by
  induction ms with
  | nil =>
    intro pdb q
    refine ⟨fun k v h => h, fun k v h => Or.inl h, fun m hm => (by cases hm), [], ?_, ?_, ?_⟩
    · simp [expandMoves]
    · simp
    · intro s d h; cases h
  | cons m ms ih =>
    intro pdb q
    cases hf : pdbFind pdb (extractor (applyMove s0 m)) with
    | some x =>
      have e : expandMoves extractor s0 d0 (m :: ms) pdb q
          = expandMoves extractor s0 d0 ms pdb q := by
        simp [expandMoves, pdbEmplace, hf]
      rw [e]
      obtain ⟨h1, h2, h3, new, h4, h5, h6⟩ := ih pdb q
      refine ⟨h1, ?_, ?_, new, h4, ?_, h6⟩
      · intro k v h
        rcases h2 k v h with h | ⟨hv, ⟨m1, hm1, hk⟩, hq⟩
        · exact Or.inl h
        · exact Or.inr ⟨hv, ⟨m1, List.mem_cons_of_mem _ hm1, hk⟩, hq⟩
      · intro m1 hm1
        rcases List.mem_cons.1 hm1 with rfl | hm1
        · exact ⟨x, h1 _ _ hf⟩
        · exact h3 m1 hm1
      · simp only [List.length_cons]; omega
    | none =>
      have e : expandMoves extractor s0 d0 (m :: ms) pdb q
          = expandMoves extractor s0 d0 ms (pdb ++ [(extractor (applyMove s0 m), d0 + 1)])
              (q ++ [(applyMove s0 m, d0 + 1)]) := by
        simp [expandMoves, pdbEmplace, hf]
      rw [e]
      obtain ⟨h1, h2, h3, new, h4, h5, h6⟩ :=
        ih (pdb ++ [(extractor (applyMove s0 m), d0 + 1)]) (q ++ [(applyMove s0 m, d0 + 1)])
      have hself := h1 _ _ (pdbFind_append_self pdb _ (d0 + 1) hf)
      refine ⟨?_, ?_, ?_, (applyMove s0 m, d0 + 1) :: new, ?_, ?_, ?_⟩
      · intro k v h
        exact h1 k v (pdbFind_append_of_some pdb _ _ k v h)
      · intro k v h
        rcases h2 k v h with h | ⟨hv, ⟨m1, hm1, hk⟩, hq⟩
        · rcases pdbFind_append_inv pdb _ _ k v h with h | ⟨_, hk, hv⟩
          · exact Or.inl h
          · refine Or.inr ⟨hv, ⟨m, List.mem_cons_self _ _, hk⟩, applyMove s0 m, ?_, hk.symm⟩
            rw [h4]; simp
        · exact Or.inr ⟨hv, ⟨m1, List.mem_cons_of_mem _ hm1, hk⟩, hq⟩
      · intro m1 hm1
        rcases List.mem_cons.1 hm1 with rfl | hm1
        · exact ⟨_, hself⟩
        · exact h3 m1 hm1
      · rw [h4]; simp
      · simp only [List.length_cons]; omega
      · intro s d h
        rcases List.mem_cons.1 h with h | h
        · cases h; exact ⟨rfl, hself⟩
        · exact h6 s d h

/-! ## The pattern-database builder: the loop invariant -/

theorem applyMoves_concat (s : CubeState) (T : List Move) (m : Move) :
    applyMoves s (T ++ [m]) = applyMove (applyMoves s T) m := by
  rw [applyMoves_append]; rfl

theorem BfsInv.init {K : Type} [DecidableEq K] (extractor : CubeState → K) (start : CubeState)
    (max_depth : Int) (hmd : 0 ≤ max_depth) :
    BfsInv extractor start max_depth (pdbEmplace [] (extractor start) 0).1 [(start, 0)] := by
  have e : (pdbEmplace ([] : PDB K) (extractor start) 0).1 = [(extractor start, 0)] := rfl
  rw [e]
  have hfind : ∀ k v, pdbFind [(extractor start, (0 : Int))] k = some v →
      k = extractor start ∧ v = 0 := by
    intro k v h
    by_cases hk : extractor start = k
    · simp [pdbFind, hk] at h; exact ⟨hk.symm, h.symm⟩
    · simp [pdbFind, hk] at h
  refine ⟨by simp [pdbFind], ?_, ?_, ?_, ?_, ?_, ?_⟩
  · intro k v h; obtain ⟨_, rfl⟩ := hfind k v h; exact ⟨le_refl _, hmd⟩
  · intro k v h; obtain ⟨rfl, rfl⟩ := hfind k v h
    exact ⟨[], rfl, fun _ hx => (by cases hx), rfl⟩
  · intro s d h
    simp only [List.mem_singleton, Prod.mk.injEq] at h
    obtain ⟨rfl, rfl⟩ := h
    simp [pdbFind]
  · intro k v h _; obtain ⟨rfl, rfl⟩ := hfind k v h
    exact Or.inl ⟨start, List.mem_singleton.2 rfl, rfl⟩
  · exact List.pairwise_singleton _ _
  · intro s d h k v hk
    simp only [List.mem_singleton, Prod.mk.injEq] at h
    obtain ⟨_, rfl⟩ := h
    obtain ⟨_, rfl⟩ := hfind k v hk
    decide

theorem BfsInv.skip {K : Type} [DecidableEq K] {extractor : CubeState → K} {start : CubeState}
    {max_depth : Int} {pdb : PDB K} {s0 : CubeState} {d0 : Int} {q : List (CubeState × Int)}
    (h : BfsInv extractor start max_depth pdb ((s0, d0) :: q)) (hd : max_depth ≤ d0) :
    BfsInv extractor start max_depth pdb q := by
  refine ⟨h.start0, h.range, h.sound, ?_, ?_, ?_, ?_⟩
  · intro s d hs; exact h.queue s d (List.mem_cons_of_mem _ hs)
  · intro k v hk hv
    rcases h.expanded k v hk hv with ⟨s, hs, hks⟩ | hx
    · rcases List.mem_cons.1 hs with heq | hs
      · simp only [Prod.mk.injEq] at heq; omega
      · exact Or.inl ⟨s, hs, hks⟩
    · exact Or.inr hx
  · exact (List.pairwise_cons.1 h.sorted).2
  · intro s d hs; exact h.bound s d (List.mem_cons_of_mem _ hs)

theorem BfsInv.expand {K : Type} [DecidableEq K] {extractor : CubeState → K}
    (hc : Congruent extractor) {start : CubeState}
    {max_depth : Int} {pdb : PDB K} {s0 : CubeState} {d0 : Int} {q : List (CubeState × Int)}
    (h : BfsInv extractor start max_depth pdb ((s0, d0) :: q)) (hd : d0 < max_depth) :
    BfsInv extractor start max_depth (expandMoves extractor s0 d0 allMoves pdb q).1
      (expandMoves extractor s0 d0 allMoves pdb q).2 := by
  obtain ⟨h1, h2, h3, new, h4, _, h6⟩ := expandMoves_spec extractor s0 d0 allMoves pdb q
  have hd0 : pdbFind pdb (extractor s0) = some d0 := h.queue s0 d0 (List.mem_cons_self _ _)
  have hd0nn : 0 ≤ d0 := (h.range _ _ hd0).1
  have hold : ∀ k v, pdbFind pdb k = some v → v ≤ d0 + 1 :=
    fun k v hk => h.bound s0 d0 (List.mem_cons_self _ _) k v hk
  have hnew : ∀ k v, pdbFind (expandMoves extractor s0 d0 allMoves pdb q).1 k = some v →
      v ≤ d0 + 1 := by
    intro k v hk
    rcases h2 k v hk with hk | ⟨hv, _⟩
    · exact hold k v hk
    · omega
  have hqd : ∀ s d, (s, d) ∈ q → d0 ≤ d ∧ d ≤ d0 + 1 := by
    intro s d hs
    exact ⟨(List.pairwise_cons.1 h.sorted).1 (s, d) hs,
      hold _ _ (h.queue s d (List.mem_cons_of_mem _ hs))⟩
  refine ⟨h1 _ _ h.start0, ?_, ?_, ?_, ?_, ?_, ?_⟩
  · intro k v hk
    rcases h2 k v hk with hk | ⟨hv, _⟩
    · exact h.range k v hk
    · omega
  · intro k v hk
    rcases h2 k v hk with hk | ⟨hv, ⟨m, hm, hkm⟩, _⟩
    · exact h.sound k v hk
    · obtain ⟨T, hT, hTv, hTk⟩ := h.sound _ _ hd0
      refine ⟨T ++ [m], ?_, ?_, ?_⟩
      · rw [List.length_append, hT, hv]; simp; omega
      · intro x hx
        rcases List.mem_append.1 hx with hx | hx
        · exact hTv x hx
        · rw [List.mem_singleton.1 hx]; exact hm
      · rw [applyMoves_concat, hkm]; exact hc _ _ m hTk
  · intro s d hs
    rw [h4] at hs
    rcases List.mem_append.1 hs with hs | hs
    · exact h1 _ _ (h.queue s d (List.mem_cons_of_mem _ hs))
    · obtain ⟨rfl, hf⟩ := h6 s d hs; exact hf
  · intro k v hk hv
    rcases h2 k v hk with hk | ⟨hv1, _, s, hs, hks⟩
    · rcases h.expanded k v hk hv with ⟨s, hs, hks⟩ | hx
      · rcases List.mem_cons.1 hs with heq | hs
        · simp only [Prod.mk.injEq] at heq
          obtain ⟨rfl, rfl⟩ := heq
          right
          intro m hm s1 hs1
          obtain ⟨v1, hv1⟩ := h3 m hm
          have : extractor (applyMove s1 m) = extractor (applyMove s m) :=
            hc _ _ m (hs1.trans hks.symm)
          rw [this]
          exact ⟨v1, hv1, hnew _ _ hv1⟩
        · left; exact ⟨s, by rw [h4]; exact List.mem_append_left _ hs, hks⟩
      · right
        intro m hm s1 hs1
        obtain ⟨v1, hv1, hle⟩ := hx m hm s1 hs1
        exact ⟨v1, h1 _ _ hv1, hle⟩
    · left; exact ⟨s, by rw [hv1]; exact hs, hks⟩
  · rw [h4, List.pairwise_append]
    refine ⟨(List.pairwise_cons.1 h.sorted).2, ?_, ?_⟩
    · have : ∀ a ∈ new, ∀ b ∈ new, a.2 ≤ b.2 := by
        intro a ha b hb
        rw [(h6 a.1 a.2 ha).1, (h6 b.1 b.2 hb).1]
      exact List.Pairwise.imp_of_mem (fun ha hb _ => this _ ha _ hb)
        (List.pairwise_of_forall (fun _ _ => trivial) : new.Pairwise fun _ _ => True)
    · intro a ha b hb
      rw [(h6 b.1 b.2 hb).1]
      exact (hqd a.1 a.2 ha).2
  · intro s d hs k v hk
    have := hnew k v hk
    rw [h4] at hs
    rcases List.mem_append.1 hs with hs | hs
    · have := (hqd s d hs).1; omega
    · have := (h6 s d hs).1; omega

theorem bfsLoop_inv {K : Type} [DecidableEq K] {extractor : CubeState → K}
    (hc : Congruent extractor) {start : CubeState} {max_depth : Int} :
    ∀ (fuel : Nat) (pdb : PDB K) (q : List (CubeState × Int)) (r : PDB K),
      BfsInv extractor start max_depth pdb q →
        bfsLoop extractor max_depth fuel pdb q = some r →
          BfsInv extractor start max_depth r [] := by
  intro fuel
  induction fuel with
  | zero =>
    intro pdb q r h hr
    cases q with
    | nil => simp only [bfsLoop, Option.some.injEq] at hr; subst hr; exact h
    | cons a q => simp [bfsLoop] at hr
  | succ fuel ih =>
    intro pdb q r h hr
    cases q with
    | nil => simp only [bfsLoop, Option.some.injEq] at hr; subst hr; exact h
    | cons a q =>
      obtain ⟨s0, d0⟩ := a
      rw [bfsLoop] at hr
      split at hr
      · rename_i hd; exact ih _ _ r (h.skip hd) hr
      · rename_i hd; exact ih _ _ r (h.expand hc (not_le.1 hd)) hr

/-! ## The pattern-database builder: what the finished map holds -/

theorem pdb_complete {K : Type} [DecidableEq K] {extractor : CubeState → K}
    {start : CubeState} {max_depth : Int} {pdb : PDB K}
    (h : BfsInv extractor start max_depth pdb []) (T : List Move) :
    ValidMoves T → (T.length : Int) ≤ max_depth →
      ∃ v, pdbFind pdb (extractor (applyMoves start T)) = some v ∧ v ≤ T.length := by
  induction T using List.reverseRecOn with
  | nil => intro _ _; exact ⟨0, h.start0, le_refl _⟩
  | append_singleton T m ih =>
    intro hT hlen
    have hm : m ∈ allMoves := hT m (by simp)
    have hT1 : ValidMoves T := fun x hx => hT x (List.mem_append_left _ hx)
    rw [List.length_append, List.length_singleton] at hlen
    push_cast at hlen
    obtain ⟨v, hv, hle⟩ := ih hT1 (by omega)
    rcases h.expanded _ v hv (by omega) with ⟨s, hs, _⟩ | hx
    · cases hs
    · obtain ⟨v1, hv1, hle1⟩ := hx m hm (applyMoves start T) rfl
      rw [applyMoves_concat]
      refine ⟨v1, hv1, ?_⟩
      rw [List.length_append, List.length_singleton]
      push_cast; omega

theorem pdb_minimal {K : Type} [DecidableEq K] {extractor : CubeState → K}
    {start : CubeState} {max_depth : Int} {pdb : PDB K}
    (h : BfsInv extractor start max_depth pdb []) (k : K) (v : Int)
    (hk : pdbFind pdb k = some v) (n : Nat) (hn : KeyReach extractor start k n) :
    v ≤ n := by
  obtain ⟨T, hlen, hT, hTk⟩ := hn
  by_cases hle : (T.length : Int) ≤ max_depth
  · obtain ⟨v1, hv1, hle1⟩ := pdb_complete h T hT hle
    rw [hTk, hk] at hv1
    simp only [Option.some.injEq] at hv1
    omega
  · have := (h.range k v hk).2
    omega

/-! ## The pattern-database builder always returns -/

theorem pdbFuel_pos (r : Nat) : 1 ≤ pdbFuel r := by
  cases r <;> simp [pdbFuel]

theorem queueWeight_append (max_depth : Int) (a b : List (CubeState × Int)) :
    queueWeight max_depth (a ++ b) = queueWeight max_depth a + queueWeight max_depth b := by
  simp [queueWeight]

theorem queueWeight_cons (max_depth : Int) (s : CubeState) (d : Int)
    (q : List (CubeState × Int)) :
    queueWeight max_depth ((s, d) :: q)
      = pdbFuel (max_depth - d).toNat + queueWeight max_depth q := by
  simp [queueWeight]

theorem queueWeight_level (max_depth d : Int) (new : List (CubeState × Int))
    (h : ∀ s x, (s, x) ∈ new → x = d) :
    queueWeight max_depth new = new.length * pdbFuel (max_depth - d).toNat := by
  induction new with
  | nil => simp [queueWeight]
  | cons a new ih =>
    obtain ⟨s, x⟩ := a
    have hx : x = d := h s x (List.mem_cons_self _ _)
    subst hx
    rw [queueWeight_cons, ih (fun s x hs => h s x (List.mem_cons_of_mem _ hs))]
    simp only [List.length_cons]
    ring

theorem length_allMoves : allMoves.length = 18 := rfl

theorem bfsLoop_isSome {K : Type} [DecidableEq K] (extractor : CubeState → K)
    (max_depth : Int) :
    ∀ (fuel : Nat) (pdb : PDB K) (q : List (CubeState × Int)),
      queueWeight max_depth q ≤ fuel → (bfsLoop extractor max_depth fuel pdb q).isSome := by
  intro fuel
  induction fuel with
  | zero =>
    intro pdb q h
    cases q with
    | nil => rfl
    | cons a q =>
      obtain ⟨s, d⟩ := a
      rw [queueWeight_cons] at h
      have := pdbFuel_pos (max_depth - d).toNat
      omega
  | succ fuel ih =>
    intro pdb q h
    cases q with
    | nil => rfl
    | cons a q =>
      obtain ⟨s0, d0⟩ := a
      rw [queueWeight_cons] at h
      rw [bfsLoop]
      split
      · have := pdbFuel_pos (max_depth - d0).toNat
        exact ih _ _ (by omega)
      · rename_i hd
        apply ih
        obtain ⟨_, _, _, new, h4, h5, h6⟩ :=
          expandMoves_spec extractor s0 d0 allMoves pdb q
        rw [h4, queueWeight_append,
          queueWeight_level max_depth (d0 + 1) new (fun s x hs => (h6 s x hs).1)]
        have e : (max_depth - d0).toNat = (max_depth - (d0 + 1)).toNat + 1 := by omega
        rw [e, pdbFuel] at h
        rw [length_allMoves] at h5
        have := Nat.mul_le_mul_right (pdbFuel (max_depth - (d0 + 1)).toNat) h5
        omega

theorem generatePDB_isSome {K : Type} [DecidableEq K] (start : CubeState)
    (extractor : CubeState → K) (max_depth : Int) :
    (generatePDB start extractor max_depth).isSome := by
  apply bfsLoop_isSome
  rw [queueWeight_cons]
  simp [queueWeight]

theorem generatePDB_inv {K : Type} [DecidableEq K] {extractor : CubeState → K}
    (hc : Congruent extractor) (start : CubeState) (max_depth : Int) (hmd : 0 ≤ max_depth)
    (pdb : PDB K) (h : generatePDB start extractor max_depth = some pdb) :
    BfsInv extractor start max_depth pdb [] :=
  bfsLoop_inv hc _ _ _ pdb (BfsInv.init extractor start max_depth hmd) h

/-! ## The three extractors are congruences -/

theorem Congruent_of_quarterTurn {K : Type} (extractor : CubeState → K)
    (h : ∀ f a b, extractor a = extractor b →
      extractor (quarterTurn f a) = extractor (quarterTurn f b)) :
    Congruent extractor := by
  intro a b m hab
  show extractor ((quarterTurn m.face)^[m.turns] a) = extractor ((quarterTurn m.face)^[m.turns] b)
  induction m.turns with
  | zero => exact hab
  | succ t ih =>
    rw [Function.iterate_succ_apply', Function.iterate_succ_apply']
    exact h _ _ _ ih

theorem Congruent_getEdgeOrientation : Congruent getEdgeOrientation := by
  apply Congruent_of_quarterTurn
  intro f a b h
  have h : a.edge_orient = b.edge_orient := h
  apply Subtype.ext
  show (quarterTurn f a).edge_orient.1 = (quarterTurn f b).edge_orient.1
  rw [quarterTurn_edge_orient, quarterTurn_edge_orient, h]

theorem Congruent_getCornerOrientation : Congruent getCornerOrientation := by
  apply Congruent_of_quarterTurn
  intro f a b h
  have h : a.corner_orient = b.corner_orient := h
  apply Subtype.ext
  show (quarterTurn f a).corner_orient.1 = (quarterTurn f b).corner_orient.1
  rw [quarterTurn_corner_orient, quarterTurn_corner_orient, h]

theorem Congruent_getESlice : Congruent getESlice := by
  apply Congruent_of_quarterTurn
  intro f a b h
  have h : a.edges.1.map (fun e => decide (4 ≤ e ∧ e ≤ 7))
      = b.edges.1.map (fun e => decide (4 ≤ e ∧ e ≤ 7)) := congrArg Subtype.val h
  apply Subtype.ext
  show (quarterTurn f a).edges.1.map (fun e => decide (4 ≤ e ∧ e ≤ 7))
    = (quarterTurn f b).edges.1.map (fun e => decide (4 ≤ e ∧ e ≤ 7))
  rw [quarterTurn_edges, quarterTurn_edges, List.map_map, List.map_map]
  apply List.map_congr_left
  intro j _
  show decide (4 ≤ a.edges.1.getD _ 0 ∧ a.edges.1.getD _ 0 ≤ 7)
    = decide (4 ≤ b.edges.1.getD _ 0 ∧ b.edges.1.getD _ 0 ≤ 7)
  have key : ∀ (l : List Nat) (i : Nat),
      decide (4 ≤ l.getD i 0 ∧ l.getD i 0 ≤ 7)
        = (l.map (fun e => decide (4 ≤ e ∧ e ≤ 7))).getD i false := by
    intro l i
    rw [show false = (fun e => decide (4 ≤ e ∧ e ≤ 7)) 0 from rfl, List.getD_map]
  rw [key, key, h]

/-! ## Exact pattern databases and the admissible heuristic -/

theorem Congruent.applyMoves_eq {K : Type} {extractor : CubeState → K}
    (hc : Congruent extractor) (T : List Move) :
    ∀ a b : CubeState, extractor a = extractor b →
      extractor (applyMoves a T) = extractor (applyMoves b T) := by
  induction T with
  | nil => intro a b h; exact h
  | cons m T ih => intro a b h; exact ih _ _ (hc a b m h)

theorem exactPDB_of_congruent {K : Type} [DecidableEq K] (extractor : CubeState → K)
    (hc : Congruent extractor) (max_depth : Int) (hmd : 0 ≤ max_depth) :
    ExactPDB extractor max_depth := by
  have hsome := generatePDB_isSome solvedCube extractor max_depth
  obtain ⟨pdb, hpdb⟩ := Option.isSome_iff_exists.1 hsome
  have hinv := generatePDB_inv hc solvedCube max_depth hmd pdb hpdb
  exact ⟨pdb, hpdb, fun k v hk =>
    ⟨(hinv.range k v hk).1, hinv.sound k v hk, fun n hn => pdb_minimal hinv k v hk n hn⟩⟩

theorem lookup_le_solution_length {K : Type} [DecidableEq K] (extractor : CubeState → K)
    (hc : Congruent extractor) (max_depth : Int) (hmd : 0 ≤ max_depth) (pdb : PDB K)
    (h : generatePDB solvedCube extractor max_depth = some pdb) (s : CubeState)
    (T : List Move) (hT : ValidMoves T) (hs : applyMoves s T = solvedCube) :
    lookupOr0 pdb (extractor s) ≤ T.length := by
  have hinv := generatePDB_inv hc solvedCube max_depth hmd pdb h
  cases hf : pdbFind pdb (extractor s) with
  | none => simp [lookupOr0, hf]
  | some v =>
    have e : lookupOr0 pdb (extractor s) = v := by simp [lookupOr0, hf]
    rw [e]
    obtain ⟨T1, _, hT1, hk1⟩ := hinv.sound _ v hf
    have hr : InRange (applyMoves solvedCube T1) := InRange_applyMoves _ T1 InRange_solvedCube
    have h1 : extractor (applyMoves (applyMoves solvedCube T1) T) = extractor solvedCube := by
      rw [hc.applyMoves_eq T _ s hk1, hs]
    have h2 := hc.applyMoves_eq (inverseSeq T) _ _ h1
    rw [applyMoves_inverseSeq T _ hr hT, hk1] at h2
    apply pdb_minimal hinv _ v hf
    exact ⟨inverseSeq T, length_inverseSeq T, ValidMoves_inverseSeq T hT, h2.symm⟩

theorem buildSolver_eq (max_depth : Int) (node_limit size_max : Nat) (sv : IDASolver)
    (h : buildSolver max_depth node_limit size_max = some sv) :
    sv.goal = solvedCube
      ∧ generatePDB solvedCube getEdgeOrientation max_depth = some sv.edgePDB
      ∧ generatePDB solvedCube getCornerOrientation max_depth = some sv.cornerPDB
      ∧ generatePDB solvedCube getESlice max_depth = some sv.eslicePDB
      ∧ sv.node_limit = node_limit ∧ sv.size_max = size_max := by
  unfold buildSolver at h
  split at h
  · rename_i e c sl he hc hsl
    simp only [Option.some.injEq] at h
    subst h
    exact ⟨rfl, he, hc, hsl, rfl, rfl⟩
  · cases h

theorem buildSolver_isSome (max_depth : Int) (node_limit size_max : Nat) :
    (buildSolver max_depth node_limit size_max).isSome := by
  obtain ⟨e, he⟩ := Option.isSome_iff_exists.1
    (generatePDB_isSome solvedCube getEdgeOrientation max_depth)
  obtain ⟨c, hc⟩ := Option.isSome_iff_exists.1
    (generatePDB_isSome solvedCube getCornerOrientation max_depth)
  obtain ⟨sl, hsl⟩ := Option.isSome_iff_exists.1
    (generatePDB_isSome solvedCube getESlice max_depth)
  simp [buildSolver, he, hc, hsl]

/-- C2: admissibility of the heuristic.  With the three PDBs built by
`generatePDB` from the solved cube for a `max_depth >= 0` (the set-up of
`solveCube`), for every state `s` and every sequence `T` of the eighteen moves
that takes `s` to the solved cube, `heuristic s <= length T`. -/
theorem heuristic_admissible (max_depth : Int) (node_limit size_max : Nat) (sv : IDASolver)
    (hmd : 0 ≤ max_depth) (hb : buildSolver max_depth node_limit size_max = some sv)
    (s : CubeState) (T : List Move) (hT : ValidMoves T)
    (hs : applyMoves s T = solvedCube) :
    heuristic sv s ≤ T.length := by
  obtain ⟨_, he, hc, hsl, _, _⟩ := buildSolver_eq _ _ _ sv hb
  have h1 := lookup_le_solution_length getEdgeOrientation Congruent_getEdgeOrientation
    max_depth hmd _ he s T hT hs
  have h2 := lookup_le_solution_length getCornerOrientation Congruent_getCornerOrientation
    max_depth hmd _ hc s T hT hs
  have h3 := lookup_le_solution_length getESlice Congruent_getESlice
    max_depth hmd _ hsl s T hT hs
  exact max_le h1 (max_le h2 h3)

theorem heuristic_admissible_witness :
    ∃ sv, (0 : Int) ≤ 2 ∧ buildSolver 2 50000000 4294967295 = some sv
      ∧ ValidMoves [⟨Face.U, 3⟩, ⟨Face.F, 3⟩]
      ∧ applyMoves (applyMoves solvedCube [⟨Face.F, 1⟩, ⟨Face.U, 1⟩])
          [⟨Face.U, 3⟩, ⟨Face.F, 3⟩] = solvedCube
      ∧ heuristic sv (applyMoves solvedCube [⟨Face.F, 1⟩, ⟨Face.U, 1⟩])
          ≤ ([⟨Face.U, 3⟩, ⟨Face.F, 3⟩] : List Move).length := by
  obtain ⟨sv, hsv⟩ := Option.isSome_iff_exists.1 (buildSolver_isSome 2 50000000 4294967295)
  exact ⟨sv, by decide, hsv, by unfold ValidMoves; decide, by decide,
    heuristic_admissible 2 50000000 4294967295 sv (by decide) hsv _ _
      (by unfold ValidMoves; decide) (by decide)⟩

/-- C3: exactness of the pattern databases.  For each of the three extractors
and every `max_depth >= 0`, `generatePDB` from the solved cube returns a map in
which every stored key `k` has as value the least length of a sequence of the
eighteen moves that takes the solved cube to a state whose extracted key is
`k`: some sequence of that length does, and none shorter. -/
theorem generatePDB_values_exact (max_depth : Int) (hmd : 0 ≤ max_depth) :
    ExactPDB getEdgeOrientation max_depth ∧ ExactPDB getCornerOrientation max_depth
      ∧ ExactPDB getESlice max_depth :=
  ⟨exactPDB_of_congruent _ Congruent_getEdgeOrientation max_depth hmd,
    exactPDB_of_congruent _ Congruent_getCornerOrientation max_depth hmd,
    exactPDB_of_congruent _ Congruent_getESlice max_depth hmd⟩

theorem generatePDB_values_exact_witness :
    (0 : Int) ≤ 14 ∧ (ExactPDB getEdgeOrientation 14 ∧ ExactPDB getCornerOrientation 14
      ∧ ExactPDB getESlice 14) :=
  ⟨by decide, generatePDB_values_exact 14 (by decide)⟩

/-! ## The node budget -/

theorem pdb_contains_within {K : Type} [DecidableEq K] (extractor : CubeState → K)
    (hc : Congruent extractor) (d : Nat) (max_depth : Int) (hd : (d : Int) ≤ max_depth)
    (T : List Move) (hT : ValidMoves T) (hlen : T.length ≤ d) :
    ∃ pdb v, generatePDB solvedCube extractor max_depth = some pdb
      ∧ pdbFind pdb (extractor (applyMoves solvedCube T)) = some v ∧ v ≤ d := by
  obtain ⟨pdb, hpdb⟩ := Option.isSome_iff_exists.1
    (generatePDB_isSome solvedCube extractor max_depth)
  have hinv := generatePDB_inv hc solvedCube max_depth (by omega) pdb hpdb
  obtain ⟨v, hv, hle⟩ := pdb_complete hinv T hT (by omega)
  exact ⟨pdb, v, hpdb, hv, by omega⟩

/-- C12: PDB upper bound.  For every `d`, every `max_depth >= d` and every
state reached from the solved cube by a sequence of at most `d` of the eighteen
moves, each of the three PDBs built by `generatePDB` from the solved cube holds
the key extracted from the state, with a value of at most `d`. -/
theorem pdb_upper_bound (d : Nat) (max_depth : Int) (T : List Move)
    (hd : (d : Int) ≤ max_depth) (hT : ValidMoves T) (hlen : T.length ≤ d) :
    (∃ pdb v, generatePDB solvedCube getEdgeOrientation max_depth = some pdb
      ∧ pdbFind pdb (getEdgeOrientation (applyMoves solvedCube T)) = some v ∧ v ≤ d)
    ∧ (∃ pdb v, generatePDB solvedCube getCornerOrientation max_depth = some pdb
      ∧ pdbFind pdb (getCornerOrientation (applyMoves solvedCube T)) = some v ∧ v ≤ d)
    ∧ (∃ pdb v, generatePDB solvedCube getESlice max_depth = some pdb
      ∧ pdbFind pdb (getESlice (applyMoves solvedCube T)) = some v ∧ v ≤ d) :=
  ⟨pdb_contains_within _ Congruent_getEdgeOrientation d max_depth hd T hT hlen,
    pdb_contains_within _ Congruent_getCornerOrientation d max_depth hd T hT hlen,
    pdb_contains_within _ Congruent_getESlice d max_depth hd T hT hlen⟩

theorem pdb_upper_bound_witness :
    ((2 : Nat) : Int) ≤ 14 ∧ ValidMoves [⟨Face.F, 1⟩, ⟨Face.R, 2⟩]
      ∧ ([⟨Face.F, 1⟩, ⟨Face.R, 2⟩] : List Move).length ≤ 2
      ∧ ((∃ pdb v, generatePDB solvedCube getEdgeOrientation 14 = some pdb
          ∧ pdbFind pdb (getEdgeOrientation
              (applyMoves solvedCube [⟨Face.F, 1⟩, ⟨Face.R, 2⟩])) = some v ∧ v ≤ (2 : Nat))
        ∧ (∃ pdb v, generatePDB solvedCube getCornerOrientation 14 = some pdb
          ∧ pdbFind pdb (getCornerOrientation
              (applyMoves solvedCube [⟨Face.F, 1⟩, ⟨Face.R, 2⟩])) = some v ∧ v ≤ (2 : Nat))
        ∧ (∃ pdb v, generatePDB solvedCube getESlice 14 = some pdb
          ∧ pdbFind pdb (getESlice
              (applyMoves solvedCube [⟨Face.F, 1⟩, ⟨Face.R, 2⟩])) = some v ∧ v ≤ (2 : Nat))) :=
  ⟨by decide, by unfold ValidMoves; decide, by decide,
    pdb_upper_bound 2 14 [⟨Face.F, 1⟩, ⟨Face.R, 2⟩] (by decide)
      (by unfold ValidMoves; decide) (by decide)⟩

/-! ## When the search returns -/

theorem wrapInt_eq (x : Int) (h1 : -2147483648 ≤ x) (h2 : x ≤ 2147483647) : wrapInt x = x := by
  unfold wrapInt; omega

theorem lookupOr0_within {K : Type} [DecidableEq K] (pdb : PDB K) (lo hi : Int)
    (hlo : lo ≤ 0) (hhi : 0 ≤ hi) (h : ∀ k v, pdbFind pdb k = some v → lo ≤ v ∧ v ≤ hi)
    (k : K) : lo ≤ lookupOr0 pdb k ∧ lookupOr0 pdb k ≤ hi := by
  unfold lookupOr0
  cases hf : pdbFind pdb k with
  | none => exact ⟨hlo, hhi⟩
  | some v => exact h k v hf

theorem heuristic_within (sv : IDASolver) (lo hi : Int) (hlo : lo ≤ 0) (hhi : 0 ≤ hi)
    (h : PDBsWithin sv lo hi) (c : CubeState) :
    lo ≤ heuristic sv c ∧ heuristic sv c ≤ hi := by
  have h1 := lookupOr0_within sv.edgePDB lo hi hlo hhi h.1 (getEdgeOrientation c)
  have h2 := lookupOr0_within sv.cornerPDB lo hi hlo hhi h.2.1 (getCornerOrientation c)
  have h3 := lookupOr0_within sv.eslicePDB lo hi hlo hhi h.2.2 (getESlice c)
  exact ⟨le_trans h1.1 (le_max_left _ _), max_le h1.2 (max_le h2.2 h3.2)⟩

theorem dfsMoves_isSome
    (child : CubeState → List Move → Nat → Option (Bool × List Move × Nat))
    (hchild : ∀ c1 p n, (child c1 p n).isSome) (c : CubeState) (ms : List Move) :
    ∀ (path : List Move) (nodes : Nat), (dfsMoves child c ms path nodes).isSome := by
  induction ms with
  | nil => intro path nodes; rfl
  | cons m ms ih =>
    intro path nodes
    rw [dfsMoves]
    split
    · exact ih _ _
    · have := hchild (applyMove c m) (path ++ [m]) nodes
      split
      · rename_i hc; rw [hc] at this; cases this
      · rfl
      · exact ih _ _

/-- When the stored values lie in a window `lo .. hi` no wider than
`INT_MAX - 31`, no sum of `dfs` wraps, a node at depth `g` is expanded only if
`g <= threshold - lo`, and `dfs` returns within that depth. -/
theorem dfs_isSome (sv : IDASolver) (lo hi : Int) (hlo : lo ≤ 0) (hhi : 0 ≤ hi)
    (hw : hi - lo ≤ 2147483616) (hp : PDBsWithin sv lo hi) (threshold : Int)
    (ht : threshold ≤ 30) :
    ∀ (fuel : Nat) (c : CubeState) (g : Int) (path : List Move) (nodes : Nat),
      0 ≤ g → g ≤ threshold - lo + 1 → threshold - lo + 2 ≤ fuel + g →
        (dfs sv fuel c g threshold path nodes).isSome := by
  intro fuel
  induction fuel with
  | zero => intro c g path nodes h0 h1 h2; omega
  | succ fuel ih =>
    intro c g path nodes h0 h1 hf
    rw [dfs]
    generalize bump sv.size_max nodes = n1
    split
    · rfl
    · split
      · rfl
      · rename_i hh
        split
        · rfl
        · have hb := heuristic_within sv lo hi hlo hhi hp c
          rw [wrapInt_eq _ (by omega) (by omega)] at hh
          rw [wrapInt_eq _ (by omega) (by omega)]
          apply dfsMoves_isSome
          intro c1 p n
          apply ih
          · omega
          · omega
          · push_cast at hf ⊢; omega

theorem solveLoop_isSome (sv : IDASolver) (lo hi : Int) (hlo : lo ≤ 0) (hhi : 0 ≤ hi)
    (hw : hi - lo ≤ 2147483616) (hp : PDBsWithin sv lo hi) (fuel : Nat)
    (hf : 32 - lo ≤ fuel) (start : CubeState) :
    ∀ (n : Nat) (threshold : Int) (path : List Move),
      (31 - threshold).toNat + 1 ≤ n → lo ≤ threshold →
        (solveLoop sv fuel start n threshold path).isSome := by
  intro n
  induction n with
  | zero => intro threshold path h; omega
  | succ n ih =>
    intro threshold path hn hfl
    rw [solveLoop]
    split
    · rename_i hle
      have hd := dfs_isSome sv lo hi hlo hhi hw hp threshold hle fuel start 0 path 0
        (le_refl _) (by omega) (by omega)
      split
      · rename_i hc; rw [hc] at hd; cases hd
      · rfl
      · exact ih _ _ (by omega) (by omega)
    · rfl

theorem solve_isSome (sv : IDASolver) (lo hi : Int) (hlo : lo ≤ 0) (hhi : 0 ≤ hi)
    (hw : hi - lo ≤ 2147483616) (hp : PDBsWithin sv lo hi) (fuel : Nat)
    (hf : 32 - lo ≤ fuel) (start : CubeState) : (solve sv fuel start).isSome :=
  solveLoop_isSome sv lo hi hlo hhi hw hp fuel hf start _ _ _ (le_refl _)
    (heuristic_within sv lo hi hlo hhi hp start).1

theorem buildSolver_within (max_depth : Int) (hmd : 0 ≤ max_depth)
    (node_limit size_max : Nat) (sv : IDASolver)
    (hb : buildSolver max_depth node_limit size_max = some sv) :
    PDBsWithin sv 0 max_depth := by
  obtain ⟨_, he, hc, hsl, _, _⟩ := buildSolver_eq _ _ _ sv hb
  exact ⟨(generatePDB_inv Congruent_getEdgeOrientation _ _ hmd _ he).range,
    (generatePDB_inv Congruent_getCornerOrientation _ _ hmd _ hc).range,
    (generatePDB_inv Congruent_getESlice _ _ hmd _ hsl).range⟩

theorem PDBsWithin_mono (sv : IDASolver) (lo hi lo1 hi1 : Int) (h1 : lo1 ≤ lo) (h2 : hi ≤ hi1)
    (h : PDBsWithin sv lo hi) : PDBsWithin sv lo1 hi1 :=
  ⟨fun k v hf => ⟨le_trans h1 (h.1 k v hf).1, le_trans (h.1 k v hf).2 h2⟩,
    fun k v hf => ⟨le_trans h1 (h.2.1 k v hf).1, le_trans (h.2.1 k v hf).2 h2⟩,
    fun k v hf => ⟨le_trans h1 (h.2.2 k v hf).1, le_trans (h.2.2 k v hf).2 h2⟩⟩

/-! ## States that cannot be solved -/

theorem Reachable_of_solution (s : CubeState) (T : List Move) (hr : InRange s)
    (hT : ValidMoves T) (hs : applyMoves s T = solvedCube) : Reachable s := by
  refine ⟨inverseSeq T, ValidMoves_inverseSeq T hT, ?_⟩
  rw [← hs]
  exact applyMoves_inverseSeq T s hr hT

theorem Reachable_edge_orient_sum (s : CubeState) (h : Reachable s) :
    s.edge_orient.1.sum % 2 = 0 := by
  obtain ⟨T, _, rfl⟩ := h
  exact applyMoves_invariant (fun s => s.edge_orient.1.sum % 2 = 0)
    (fun f s hs => (quarterTurn_edge_orient_sum f s).trans hs) T solvedCube rfl

theorem solve_unreachable (sv : IDASolver) (fuel : Nat) (s : CubeState)
    (hg : sv.goal = solvedCube) (hr : InRange s) (hu : ¬ Reachable s) (T : List Move)
    (hT : solve sv fuel s = some T) : T = [] := by
  by_contra hne
  obtain ⟨hv, hs⟩ := solveLoop_post sv fuel s _ _ T hT hne
  exact absurd (Reachable_of_solution s T hr hv (hs.trans hg)) hu

/-- C13 (amended): unreachable configurations yield the empty solution when
no sum of `dfs` wraps.  For every state with orientation cells in range that
no sequence of the eighteen moves reaches from the solved cube, every solver
whose goal is the solved cube and every `node_limit`: whatever the PDBs hold,
the only sequence `solve` can return is the empty one; and when the stored
values lie in a window `lo .. hi` around 0 no wider than
`INT_MAX - 31 = 2147483616` (empty PDBs, or those `generatePDB` builds),
`solve` returns, with a recursion no deeper than `32 - lo`, and returns the
empty sequence. -/
theorem unreachable_returns_empty (sv : IDASolver) (s : CubeState)
    (hg : sv.goal = solvedCube) (hr : InRange s) (hu : ¬ Reachable s) :
    (∀ (fuel : Nat) (T : List Move), solve sv fuel s = some T → T = [])
    ∧ (∀ lo hi : Int, lo ≤ 0 → 0 ≤ hi → hi - lo ≤ 2147483616 → PDBsWithin sv lo hi →
        ∀ fuel : Nat, 32 - lo ≤ fuel → solve sv fuel s = some []) := by
  refine ⟨fun fuel T hT => solve_unreachable sv fuel s hg hr hu T hT, ?_⟩
  intro lo hi hlo hhi hw hp fuel hf
  obtain ⟨T, hT⟩ := Option.isSome_iff_exists.1 (solve_isSome sv lo hi hlo hhi hw hp fuel hf s)
  rw [hT, solve_unreachable sv fuel s hg hr hu T hT]

theorem unreachable_returns_empty_witness :
    (⟨solvedCube, [], [], [], 1000, 4294967295⟩ : IDASolver).goal = solvedCube
      ∧ InRange { solvedCube with edge_orient := ⟨[1, 0, 0, 0, 0, 0, 0, 0, 0, 0, 0, 0], rfl⟩ }
      ∧ ¬ Reachable
          { solvedCube with edge_orient := ⟨[1, 0, 0, 0, 0, 0, 0, 0, 0, 0, 0, 0], rfl⟩ }
      ∧ PDBsWithin ⟨solvedCube, [], [], [], 1000, 4294967295⟩ 0 0
      ∧ solve ⟨solvedCube, [], [], [], 1000, 4294967295⟩ 32
          { solvedCube with edge_orient := ⟨[1, 0, 0, 0, 0, 0, 0, 0, 0, 0, 0, 0], rfl⟩ }
        = some [] :=
  ⟨rfl, by unfold InRange; decide,
    fun h => absurd (Reachable_edge_orient_sum _ h) (by decide),
    ⟨fun _ _ h => (by cases h), fun _ _ h => (by cases h), fun _ _ h => (by cases h)⟩,
    (unreachable_returns_empty _ _ rfl (by unfold InRange; decide)
      (fun h => absurd (Reachable_edge_orient_sum _ h) (by decide))).2 0 0 (le_refl _)
      (le_refl _) (by decide)
      ⟨fun _ _ h => (by cases h), fun _ _ h => (by cases h), fun _ _ h => (by cases h)⟩
      32 (by decide)⟩
/-! ## One quarter turn, slot by slot -/

theorem tab_prevSlot_edge (f : Face) (i : Nat) (hi : i < 4) :
    prevSlot (edge_cycles f) (tab (edge_cycles f) i) = tab (edge_cycles f) ((i + 3) % 4)
      ∧ slotDelta (edge_cycles f) (edge_orient f) (tab (edge_cycles f) i)
          = tab (edge_orient f) i
      ∧ tab (edge_cycles f) i ∈ edge_cycles f ∧ tab (edge_cycles f) i < 12 := by
  cases f <;> interval_cases i <;> decide

theorem tab_prevSlot_corner (f : Face) (i : Nat) (hi : i < 4) :
    prevSlot (corner_cycles f) (tab (corner_cycles f) i)
        = tab (corner_cycles f) ((i + 3) % 4)
      ∧ slotDelta (corner_cycles f) (corner_orient f) (tab (corner_cycles f) i)
          = tab (corner_orient f) i
      ∧ tab (corner_cycles f) i ∈ corner_cycles f ∧ tab (corner_cycles f) i < 8 := by
  cases f <;> interval_cases i <;> decide

theorem prevSlot_off_cycle (t : List Nat) (j : Nat)
    (h : j ∉ [tab t 0, tab t 1, tab t 2, tab t 3]) : prevSlot t j = j := by
  simp only [List.mem_cons, List.mem_singleton, List.not_mem_nil, or_false, not_or] at h
  simp [prevSlot, h.1, h.2.1, h.2.2.1, h.2.2.2]

theorem cycle_eq_tabs_edge (f : Face) :
    edge_cycles f = [tab (edge_cycles f) 0, tab (edge_cycles f) 1, tab (edge_cycles f) 2,
      tab (edge_cycles f) 3] := by
  cases f <;> rfl

theorem cycle_eq_tabs_corner (f : Face) :
    corner_cycles f = [tab (corner_cycles f) 0, tab (corner_cycles f) 1,
      tab (corner_cycles f) 2, tab (corner_cycles f) 3] := by
  cases f <;> rfl

/-- C17: reference behaviour of one quarter turn.  In `r = apply s f 1`, for
each `i` in 0..3 the slot `edge_cycles[f][i]` holds the edge that `s` had in
slot `edge_cycles[f][(i+3) % 4]`, with orientation (its old orientation +
`edge_orient[f][i]`) mod 2; the slot `corner_cycles[f][i]` holds the corner
that `s` had in slot `corner_cycles[f][(i+3) % 4]`, with orientation (its old
orientation + `corner_orient[f][i]`) mod 3; every edge slot and corner slot
outside the two cycles of `f` keeps its piece and its orientation. -/
theorem quarter_turn_reference (f : Face) (s : CubeState) :
    (∀ i, i < 4 →
      (apply s f 1).edges.rd (tab (edge_cycles f) i)
          = s.edges.rd (tab (edge_cycles f) ((i + 3) % 4))
      ∧ (apply s f 1).edge_orient.rd (tab (edge_cycles f) i)
          = (s.edge_orient.rd (tab (edge_cycles f) ((i + 3) % 4))
              + tab (edge_orient f) i) % 2
      ∧ (apply s f 1).corners.rd (tab (corner_cycles f) i)
          = s.corners.rd (tab (corner_cycles f) ((i + 3) % 4))
      ∧ (apply s f 1).corner_orient.rd (tab (corner_cycles f) i)
          = (s.corner_orient.rd (tab (corner_cycles f) ((i + 3) % 4))
              + tab (corner_orient f) i) % 3)
    ∧ (∀ j, j < 12 → j ∉ edge_cycles f →
        (apply s f 1).edges.rd j = s.edges.rd j
          ∧ (apply s f 1).edge_orient.rd j = s.edge_orient.rd j)
    ∧ (∀ j, j < 8 → j ∉ corner_cycles f →
        (apply s f 1).corners.rd j = s.corners.rd j
          ∧ (apply s f 1).corner_orient.rd j = s.corner_orient.rd j) := by
  have e : apply s f 1 = quarterTurn f s := rfl
  rw [e]
  refine ⟨fun i hi => ?_, fun j hj hn => ?_, fun j hj hn => ?_⟩
  · obtain ⟨h1, h2, h3, h4⟩ := tab_prevSlot_edge f i hi
    obtain ⟨k1, k2, k3, k4⟩ := tab_prevSlot_corner f i hi
    rw [rd_quarterTurn_edges _ _ _ h4, rd_quarterTurn_edge_orient _ _ _ h4,
      rd_quarterTurn_corners _ _ _ k4, rd_quarterTurn_corner_orient _ _ _ k4,
      if_pos h3, if_pos k3, h1, h2, k1, k2]
    exact ⟨rfl, rfl, rfl, rfl⟩
  · rw [rd_quarterTurn_edges _ _ _ hj, rd_quarterTurn_edge_orient _ _ _ hj, if_neg hn,
      prevSlot_off_cycle _ _ (by rw [← cycle_eq_tabs_edge]; exact hn)]
    exact ⟨rfl, rfl⟩
  · rw [rd_quarterTurn_corners _ _ _ hj, rd_quarterTurn_corner_orient _ _ _ hj, if_neg hn,
      prevSlot_off_cycle _ _ (by rw [← cycle_eq_tabs_corner]; exact hn)]
    exact ⟨rfl, rfl⟩

/-- C18: each abstraction is a congruence for the moves.  For each of the
three extractors, two states with the same extracted key have the same
extracted key after any move: the key after a move depends only on the key
before it and the move. -/
theorem extractors_are_congruences :
    (∀ (a b : CubeState) (m : Move), getEdgeOrientation a = getEdgeOrientation b →
      getEdgeOrientation (applyMove a m) = getEdgeOrientation (applyMove b m))
    ∧ (∀ (a b : CubeState) (m : Move), getCornerOrientation a = getCornerOrientation b →
      getCornerOrientation (applyMove a m) = getCornerOrientation (applyMove b m))
    ∧ (∀ (a b : CubeState) (m : Move), getESlice a = getESlice b →
      getESlice (applyMove a m) = getESlice (applyMove b m)) :=
  ⟨Congruent_getEdgeOrientation, Congruent_getCornerOrientation, Congruent_getESlice⟩

/-! ## Tokens -/

theorem parseMove_of_not_mem (c0 : Char) (rest : List Char) (h : c0 ∉ faceChars) :
    parseMove (c0 :: rest) = ⟨Face.U, parseTurns rest⟩ := by
  have : faceChars.indexOf c0 = faceChars.length := List.indexOf_of_not_mem h
  simp [parseMove, this]

/-- C14 (amended): an unrecognised face letter is coerced to the face `U`;
the turn count is still read from the second character.  For every non-empty
token whose first character is not one of `U D F B L R`, `parseMove` returns
`(U, 1)` for a one-character token, `(U, 2)` when the second character is `2`,
`(U, 3)` when it is an apostrophe, and `(U, 1)` for any other second
character, whatever follows. -/
theorem parseMove_unknown_face (c0 : Char) (h : c0 ∉ faceChars) :
    parseMove [c0] = ⟨Face.U, 1⟩
      ∧ (∀ rest : List Char, parseMove (c0 :: '2' :: rest) = ⟨Face.U, 2⟩)
      ∧ (∀ rest : List Char, parseMove (c0 :: primeChar :: rest) = ⟨Face.U, 3⟩)
      ∧ (∀ (c1 : Char) (rest : List Char), c1 ≠ '2' → c1 ≠ primeChar →
          parseMove (c0 :: c1 :: rest) = ⟨Face.U, 1⟩) := by
  refine ⟨parseMove_of_not_mem c0 [] h, fun rest => ?_, fun rest => ?_,
    fun c1 rest h2 h3 => ?_⟩
  · rw [parseMove_of_not_mem c0 _ h]; rfl
  · rw [parseMove_of_not_mem c0 _ h]; rfl
  · rw [parseMove_of_not_mem c0 _ h]
    simp [parseTurns, h2, h3]

theorem parseMove_unknown_face_witness :
    'X' ∉ faceChars
      ∧ (parseMove ['X'] = ⟨Face.U, 1⟩
        ∧ (∀ rest : List Char, parseMove ('X' :: '2' :: rest) = ⟨Face.U, 2⟩)
        ∧ (∀ rest : List Char, parseMove ('X' :: primeChar :: rest) = ⟨Face.U, 3⟩)
        ∧ (∀ (c1 : Char) (rest : List Char), c1 ≠ '2' → c1 ≠ primeChar →
            parseMove ('X' :: c1 :: rest) = ⟨Face.U, 1⟩)) :=
  ⟨by decide, parseMove_unknown_face 'X' (by decide)⟩

/-- C14, as stated, fails: the token `X2` is not empty and its first
character is none of `U D F B L R`, and `parseMove` returns `(U, 2)`, not
`(U, 1)`. -/
theorem parseMove_unknown_face_keeps_suffix :
    'X' ∉ faceChars ∧ parseMove ['X', '2'] = ⟨Face.U, 2⟩
      ∧ parseMove ['X', '2'] ≠ ⟨Face.U, 1⟩ := by
  decide

/-- C15: token round trip.  For each of the eighteen valid tokens,
formatting `parseMove token` with the formatter of `solveCube` gives the token
back; and for each of the eighteen moves, `parseMove` of its formatted token is
the move. -/
theorem token_round_trip :
    (∀ tok ∈ validTokens, formatMove (parseMove tok) = tok)
      ∧ (∀ m ∈ allMoves, parseMove (formatMove m) = m)
      ∧ validTokens = allMoves.map formatMove := by
  decide

/-! ## Shape of the returned path -/

theorem dfsMoves_shape (sv : IDASolver) (g g1 threshold : Int)
    (hstep : PDBsWithin sv 0 2147483616 → 0 ≤ g → g ≤ 31 → threshold ≤ 30 →
      g1 = g + 1 ∧ g + 1 ≤ 31)
    (child : CubeState → List Move → Nat → Option (Bool × List Move × Nat))
    (hchild : ∀ c1 p n r, child c1 p n = some r → DfsShape sv g1 threshold p r)
    (c : CubeState) (ms : List Move) :
    ∀ (path : List Move) (nodes : Nat) (r : Bool × List Move × Nat),
      dfsMoves child c ms path nodes = some r → DfsShape sv g threshold path r := by
  induction ms with
  | nil =>
    intro path nodes r h
    simp only [dfsMoves, Option.some.injEq] at h
    subst h
    constructor
    · intro h; cases h
    · intro _; rfl
  | cons m ms ih =>
    intro path nodes r h
    rw [dfsMoves] at h
    split at h
    · exact ih path nodes r h
    · rename_i hpr
      split at h
      · cases h
      · rename_i path1 nodes1 hc
        simp only [Option.some.injEq] at h
        subst h
        obtain ⟨T, hp, hadm, hlen⟩ := (hchild _ _ _ _ hc).1 rfl
        constructor
        · intro _
          refine ⟨m :: T, ?_, ?_, ?_⟩
          · show path1 = path ++ m :: T
            rw [show path1 = path ++ [m] ++ T from hp]; simp
          · simp only [admittedFrom, Bool.and_eq_true, Bool.not_eq_true']
            exact ⟨by simpa using hpr, hadm⟩
          · intro hw h0 h31 ht
            obtain ⟨e1, e2⟩ := hstep hw h0 h31 ht
            have := hlen hw (by omega) (by omega) ht
            simp only [List.length_cons]; push_cast; omega
        · intro h; cases h
      · rename_i path1 nodes1 hc
        have hp : path1 = path ++ [m] := (hchild _ _ _ _ hc).2 rfl
        rw [hp, List.dropLast_concat] at h
        exact ih path nodes1 r h

theorem dfs_shape (sv : IDASolver) (threshold : Int) :
    ∀ (fuel : Nat) (c : CubeState) (g : Int) (path : List Move) (nodes : Nat)
      (r : Bool × List Move × Nat),
      dfs sv fuel c g threshold path nodes = some r → DfsShape sv g threshold path r := by
  intro fuel
  induction fuel with
  | zero => intro c g path nodes r h; simp [dfs] at h
  | succ fuel ih =>
    intro c g path nodes r h
    rw [dfs] at h
    generalize bump sv.size_max nodes = n1 at h
    split at h
    · simp only [Option.some.injEq] at h; subst h
      constructor
      · intro h; cases h
      · intro _; rfl
    · split at h
      · simp only [Option.some.injEq] at h; subst h
        constructor
        · intro h; cases h
        · intro _; rfl
      · rename_i hf
        have hcut : PDBsWithin sv 0 2147483616 → 0 ≤ g → g ≤ 31 → threshold ≤ 30 →
            g ≤ threshold := by
          intro hw h0 h31 _
          have hb := heuristic_within sv 0 2147483616 (le_refl _) (by decide) hw c
          rw [wrapInt_eq _ (by omega) (by omega)] at hf
          omega
        split at h
        · simp only [Option.some.injEq] at h; subst h
          constructor
          · intro _
            refine ⟨[], by simp, rfl, ?_⟩
            intro hw h0 h31 ht
            have := hcut hw h0 h31 ht
            simp only [List.length_nil]; push_cast; omega
          · intro h; cases h
        · refine dfsMoves_shape sv g (wrapInt (g + 1)) threshold ?_ _
            (fun c1 p n r hr => ih c1 (wrapInt (g + 1)) p n r hr) c allMoves path _ r h
          intro hw h0 h31 ht
          have := hcut hw h0 h31 ht
          exact ⟨wrapInt_eq _ (by omega) (by omega), by omega⟩

theorem solveLoop_shape (sv : IDASolver) (fuel : Nat) (start : CubeState) :
    ∀ (n : Nat) (threshold : Int) (T : List Move),
      solveLoop sv fuel start n threshold [] = some T →
        admittedFrom [] T = true ∧ (PDBsWithin sv 0 2147483616 → (T.length : Int) ≤ 30) := by
  intro n
  induction n with
  | zero => intro threshold T h; simp [solveLoop] at h
  | succ n ih =>
    intro threshold T h
    rw [solveLoop] at h
    split at h
    · rename_i hle
      split at h
      · cases h
      · rename_i path1 nodes1 hd
        simp only [Option.some.injEq] at h; subst h
        obtain ⟨T, hp, hadm, hlen⟩ := (dfs_shape sv threshold _ _ _ _ _ _ hd).1 rfl
        have : path1 = T := by simpa using hp
        subst this
        refine ⟨hadm, fun hw => ?_⟩
        have := hlen hw (le_refl _) (by decide) hle
        omega
      · rename_i path1 nodes1 hd
        have hp : path1 = [] := (dfs_shape sv threshold _ _ _ _ _ _ hd).2 rfl
        rw [hp] at h
        exact ih _ T h
    · simp only [Option.some.injEq] at h
      subst h
      exact ⟨rfl, fun _ => by decide⟩

theorem pruned_concat_same_face (path : List Move) (m m2 : Move) (h : m.face = m2.face) :
    pruned (path ++ [m]) m2 = true := by
  simp [pruned, h]

theorem admittedFrom_chain (T : List Move) :
    ∀ path : List Move, admittedFrom path T = true →
      List.Chain' (fun a b : Move => a.face ≠ b.face) T := by
  induction T with
  | nil => intro _ _; exact List.chain'_nil
  | cons m T ih =>
    intro path h
    simp only [admittedFrom, Bool.and_eq_true, Bool.not_eq_true'] at h
    have hT := ih (path ++ [m]) h.2
    cases T with
    | nil => exact List.chain'_singleton _
    | cons m2 T2 =>
      refine List.chain'_cons.2 ⟨?_, hT⟩
      intro hface
      have h2 := h.2
      simp only [admittedFrom, Bool.and_eq_true, Bool.not_eq_true'] at h2
      rw [pruned_concat_same_face path m m2 hface] at h2
      exact absurd h2.1 (by decide)

/-- C19 (amended): the returned sequence is bounded by the threshold ceiling
when no sum of `dfs` wraps.  For every start state, every `node_limit` and
any PDBs, no two consecutive moves of the sequence `solve` returns are on the
same face; when the stored values are between 0 and
`INT_MAX - 31 = 2147483616`, the sequence has at most 30 moves; and the PDBs
that `generatePDB` builds for `solveCube`, at any depth from 0 to 2147483616,
have their values in that range. -/
theorem solve_length_and_faces (sv : IDASolver) (fuel : Nat) (start : CubeState)
    (T : List Move) (h : solve sv fuel start = some T) :
    List.Chain' (fun a b : Move => a.face ≠ b.face) T
      ∧ (PDBsWithin sv 0 2147483616 → T.length ≤ 30)
      ∧ (∀ (max_depth : Int) (node_limit size_max : Nat), 0 ≤ max_depth →
          max_depth ≤ 2147483616 → buildSolver max_depth node_limit size_max = some sv →
            T.length ≤ 30) := by
  obtain ⟨h1, h2⟩ := solveLoop_shape sv fuel start _ _ T h
  refine ⟨admittedFrom_chain T [] h1, fun hw => ?_, fun md nl sm h0 hmd hb => ?_⟩
  · have := h2 hw; omega
  · have := h2 (PDBsWithin_mono sv 0 md 0 2147483616 (le_refl _) hmd
      (buildSolver_within md h0 nl sm sv hb))
    omega

theorem solve_length_and_faces_witness :
    solve ⟨solvedCube, [], [], [], 50000000, 4294967295⟩ 4
        (applyMoves solvedCube [⟨Face.U, 1⟩, ⟨Face.D, 2⟩]) = some [⟨Face.U, 3⟩, ⟨Face.D, 2⟩]
      ∧ PDBsWithin ⟨solvedCube, [], [], [], 50000000, 4294967295⟩ 0 2147483616
      ∧ List.Chain' (fun a b : Move => a.face ≠ b.face) [⟨Face.U, 3⟩, ⟨Face.D, 2⟩]
      ∧ ([⟨Face.U, 3⟩, ⟨Face.D, 2⟩] : List Move).length ≤ 30 :=
  ⟨by rfl,
    ⟨fun _ _ h => (by cases h), fun _ _ h => (by cases h), fun _ _ h => (by cases h)⟩,
    (solve_length_and_faces ⟨solvedCube, [], [], [], 50000000, 4294967295⟩ 4
      (applyMoves solvedCube [⟨Face.U, 1⟩, ⟨Face.D, 2⟩]) [⟨Face.U, 3⟩, ⟨Face.D, 2⟩]
      (by rfl)).1,
    (solve_length_and_faces ⟨solvedCube, [], [], [], 50000000, 4294967295⟩ 4
      (applyMoves solvedCube [⟨Face.U, 1⟩, ⟨Face.D, 2⟩]) [⟨Face.U, 3⟩, ⟨Face.D, 2⟩]
      (by rfl)).2.1
      ⟨fun _ _ h => (by cases h), fun _ _ h => (by cases h), fun _ _ h => (by cases h)⟩⟩

/-! ## A one-move scramble -/

theorem bump_le (size_max n : Nat) : bump size_max n ≤ n + 1 := by
  unfold bump; split <;> omega

theorem dfs_leaf (sv : IDASolver)
    (hb : ∀ c, 0 ≤ heuristic sv c ∧ heuristic sv c ≤ 2147483616) (fuel : Nat)
    (c : CubeState) (g threshold : Int) (path : List Move) (n : Nat) (hg : threshold < g)
    (hg31 : g ≤ 31) (ht : 0 ≤ threshold) (hn : n + 1 ≤ sv.node_limit) :
    dfs sv (fuel + 1) c g threshold path n = some (false, path, bump sv.size_max n) := by
  have hbn := bump_le sv.size_max n
  have hh := hb c
  rw [dfs]
  rw [if_neg (by omega), wrapInt_eq _ (by omega) (by omega), if_pos (by omega)]

theorem dfsMoves_leaves (sv : IDASolver)
    (hb : ∀ c, 0 ≤ heuristic sv c ∧ heuristic sv c ≤ 2147483616) (fuel : Nat)
    (c : CubeState) (g threshold : Int) (hg : threshold < g) (hg31 : g ≤ 31)
    (ht : 0 ≤ threshold) (ms : List Move) :
    ∀ (path : List Move) (n : Nat), n + ms.length ≤ sv.node_limit →
      ∃ n1, dfsMoves (fun c1 p k => dfs sv (fuel + 1) c1 g threshold p k) c ms path n
          = some (false, path, n1) ∧ n1 ≤ n + ms.length := by
  induction ms with
  | nil => intro path n _; exact ⟨n, rfl, le_refl _⟩
  | cons m ms ih =>
    intro path n hn
    simp only [List.length_cons] at hn
    rw [dfsMoves]
    split
    · obtain ⟨n1, h1, h2⟩ := ih path n (by omega)
      exact ⟨n1, h1, by simp only [List.length_cons]; omega⟩
    · have hbn := bump_le sv.size_max n
      rw [dfs_leaf sv hb fuel _ g threshold _ n hg hg31 ht (by omega)]
      simp only [List.dropLast_concat]
      obtain ⟨n1, h1, h2⟩ := ih path (bump sv.size_max n) (by omega)
      exact ⟨n1, h1, by simp only [List.length_cons]; omega⟩

theorem dfs_at_threshold_not_goal (sv : IDASolver)
    (hb : ∀ c, 0 ≤ heuristic sv c ∧ heuristic sv c ≤ 2147483616)
    (fuel : Nat) (c : CubeState) (g : Int) (hg0 : 0 ≤ g) (hg30 : g ≤ 30) (path : List Move)
    (n : Nat) (hc : c ≠ sv.goal) (hn : n + 19 ≤ sv.node_limit) :
    ∃ n1, dfs sv (fuel + 2) c g g path n = some (false, path, n1) ∧ n1 ≤ n + 19 := by
  have hbn := bump_le sv.size_max n
  rw [dfs, if_neg (by omega)]
  split
  · exact ⟨_, rfl, by omega⟩
  · rw [wrapInt_eq (g + 1) (by omega) (by omega)]
    obtain ⟨n1, h1, h2⟩ := dfsMoves_leaves sv hb fuel c (g + 1) g (by omega) (by omega) hg0
      allMoves path (bump sv.size_max n) (by rw [length_allMoves]; omega)
    rw [length_allMoves] at h2
    exact ⟨n1, h1, by omega⟩

theorem dfs_at_goal (sv : IDASolver) (h0 : heuristic sv sv.goal = 0) (fuel : Nat)
    (g threshold : Int) (hg0 : 0 ≤ g) (hg : g ≤ threshold) (ht : threshold ≤ 30)
    (path : List Move) (n : Nat) (hn : n + 1 ≤ sv.node_limit) :
    dfs sv (fuel + 1) sv.goal g threshold path n
      = some (true, path, bump sv.size_max n) := by
  have hbn := bump_le sv.size_max n
  rw [dfs, if_neg (by omega), h0, wrapInt_eq _ (by omega) (by omega), if_neg (by omega),
    if_pos rfl]

theorem dfsMoves_finds_target (sv : IDASolver)
    (hb : ∀ c, 0 ≤ heuristic sv c ∧ heuristic sv c ≤ 2147483616)
    (h0 : heuristic sv sv.goal = 0) (fuel : Nat) (c : CubeState) (target : Move)
    (ms : List Move) :
    ∀ n : Nat, target ∈ ms → (∀ m ∈ ms, applyMove c m = sv.goal ↔ m = target) →
      n + 19 * ms.length ≤ sv.node_limit →
      ∃ n1, dfsMoves (fun c1 p k => dfs sv (fuel + 2) c1 1 1 p k) c ms [] n
        = some (true, [target], n1) := by
  induction ms with
  | nil => intro n h; cases h
  | cons m ms ih =>
    intro n hmem huniq hn
    simp only [List.length_cons] at hn
    have hpr : pruned [] m = false := rfl
    rw [dfsMoves, hpr]
    simp only [Bool.false_eq_true, if_false, List.nil_append]
    by_cases hm : m = target
    · have hgoal : applyMove c m = sv.goal := (huniq m (List.mem_cons_self _ _)).2 hm
      rw [hgoal, dfs_at_goal sv h0 (fuel + 1) 1 1 (by decide) (le_refl _) (by decide) [m] n
        (by omega), hm]
      exact ⟨_, rfl⟩
    · have hng : applyMove c m ≠ sv.goal := fun h =>
        hm ((huniq m (List.mem_cons_self _ _)).1 h)
      obtain ⟨n1, h1, h2⟩ := dfs_at_threshold_not_goal sv hb fuel (applyMove c m) 1
        (by decide) (by decide) [m] n hng (by omega)
      rw [h1]
      simp only [List.dropLast_single]
      have hmem1 : target ∈ ms := by
        rcases List.mem_cons.1 hmem with h | h
        · exact absurd h.symm hm
        · exact h
      exact ih n1 hmem1 (fun x hx => huniq x (List.mem_cons_of_mem _ hx)) (by omega)

theorem dfs_root_threshold_one (sv : IDASolver)
    (hb : ∀ c, 0 ≤ heuristic sv c ∧ heuristic sv c ≤ 2147483616)
    (h0 : heuristic sv sv.goal = 0) (fuel : Nat) (start : CubeState) (target : Move)
    (h1 : heuristic sv start ≤ 1) (hs : start ≠ sv.goal) (hmem : target ∈ allMoves)
    (huniq : ∀ m ∈ allMoves, applyMove start m = sv.goal ↔ m = target)
    (hn : 400 ≤ sv.node_limit) :
    ∃ n1, dfs sv (fuel + 3) start 0 1 [] 0 = some (true, [target], n1) := by
  have hbn := bump_le sv.size_max 0
  have hh := hb start
  rw [dfs, if_neg (by omega), wrapInt_eq _ (by omega) (by omega), if_neg (by omega),
    if_neg hs, wrapInt_eq (0 + 1) (by decide) (by decide)]
  exact dfsMoves_finds_target sv hb h0 fuel start target allMoves _ hmem huniq
    (by rw [length_allMoves]; omega)

theorem dfs_root_threshold_zero (sv : IDASolver)
    (hb : ∀ c, 0 ≤ heuristic sv c ∧ heuristic sv c ≤ 2147483616)
    (fuel : Nat) (start : CubeState) (hs : start ≠ sv.goal) (hn : 400 ≤ sv.node_limit) :
    ∃ n1, dfs sv (fuel + 2) start 0 0 [] 0 = some (false, [], n1) := by
  obtain ⟨n1, h1, _⟩ := dfs_at_threshold_not_goal sv hb fuel start 0 (le_refl _) (by decide)
    [] 0 hs (by omega)
  exact ⟨n1, h1⟩

theorem solve_one_move (sv : IDASolver)
    (hb : ∀ c, 0 ≤ heuristic sv c ∧ heuristic sv c ≤ 2147483616)
    (h0 : heuristic sv sv.goal = 0) (fuel : Nat) (hf : 3 ≤ fuel) (start : CubeState)
    (target : Move) (h1 : heuristic sv start ≤ 1) (hs : start ≠ sv.goal)
    (hmem : target ∈ allMoves)
    (huniq : ∀ m ∈ allMoves, applyMove start m = sv.goal ↔ m = target)
    (hn : 400 ≤ sv.node_limit) :
    solve sv fuel start = some [target] := by
  have hh := hb start
  obtain ⟨k, rfl⟩ : ∃ k, fuel = k + 3 := ⟨fuel - 3, by omega⟩
  obtain ⟨n1, hd1⟩ := dfs_root_threshold_one sv hb h0 k start target h1 hs hmem huniq hn
  have step1 : ∀ n, solveLoop sv (k + 3) start (n + 1) 1 [] = some [target] := by
    intro n
    rw [solveLoop, if_pos (by decide), hd1]
  unfold solve
  rcases (by omega : heuristic sv start = 0 ∨ heuristic sv start = 1) with hz | hz
  · rw [hz]
    obtain ⟨n0, hd0⟩ := dfs_root_threshold_zero sv hb (k + 1) start hs hn
    show solveLoop sv (k + 3) start (31 + 1) 0 [] = some [target]
    rw [solveLoop, if_pos (by decide), hd0]
    exact step1 30
  · rw [hz]
    exact step1 30

theorem buildSolver_heuristic_solved (max_depth : Int) (hmd : 0 ≤ max_depth)
    (node_limit size_max : Nat) (sv : IDASolver)
    (hb : buildSolver max_depth node_limit size_max = some sv) :
    heuristic sv solvedCube = 0 := by
  obtain ⟨_, he, hc, hsl, _, _⟩ := buildSolver_eq _ _ _ sv hb
  have h1 := (generatePDB_inv Congruent_getEdgeOrientation _ _ hmd _ he).start0
  have h2 := (generatePDB_inv Congruent_getCornerOrientation _ _ hmd _ hc).start0
  have h3 := (generatePDB_inv Congruent_getESlice _ _ hmd _ hsl).start0
  simp [heuristic, lookupOr0, h1, h2, h3]

theorem buildSolver_heuristic_le (max_depth : Int) (hmd : 0 ≤ max_depth)
    (node_limit size_max : Nat) (sv : IDASolver)
    (hb : buildSolver max_depth node_limit size_max = some sv)
    (s : CubeState) (T : List Move) (hT : ValidMoves T)
    (hs : applyMoves s T = solvedCube) : heuristic sv s ≤ T.length := by
  obtain ⟨_, he, hc, hsl, _, _⟩ := buildSolver_eq _ _ _ sv hb
  exact max_le
    (lookup_le_solution_length getEdgeOrientation Congruent_getEdgeOrientation
      max_depth hmd _ he s T hT hs)
    (max_le
      (lookup_le_solution_length getCornerOrientation Congruent_getCornerOrientation
        max_depth hmd _ hc s T hT hs)
      (lookup_le_solution_length getESlice Congruent_getESlice max_depth hmd _ hsl s T hT hs))

theorem one_move_not_solved :
    ∀ m ∈ allMoves, applyMove solvedCube m ≠ solvedCube := by
  decide

theorem one_move_unique_inverse :
    ∀ m ∈ allMoves, ∀ m1 ∈ allMoves,
      (applyMove (applyMove solvedCube m) m1 = solvedCube ↔ m1 = m.inv) := by
  decide

/-- C11: a one-move scramble is solved by its inverse.  For every move
`m = (f, k)` of the eighteen, with the PDBs built by `generatePDB` from the
solved cube at depth 14 and `node_limit` 50,000,000, `solve` on
`applyMove solvedCube m` returns exactly the one-element sequence
`[(f, 4 - k)]`; the recursion of `dfs` is no deeper than 3. -/
theorem one_move_scramble (m : Move) (size_max : Nat) (sv : IDASolver) (fuel : Nat)
    (hm : m ∈ allMoves) (hb : buildSolver 14 50000000 size_max = some sv)
    (hf : 3 ≤ fuel) :
    solve sv fuel (applyMove solvedCube m) = some [⟨m.face, 4 - m.turns⟩] := by
  obtain ⟨hg, _, _, _, hl, _⟩ := buildSolver_eq _ _ _ sv hb
  have hw := buildSolver_within 14 (by decide) _ _ sv hb
  have hw1 := PDBsWithin_mono sv 0 14 0 2147483616 (le_refl _) (by decide) hw
  have h0 := buildSolver_heuristic_solved 14 (by decide) _ _ sv hb
  have h1 := buildSolver_heuristic_le 14 (by decide) _ _ sv hb (applyMove solvedCube m)
    [m.inv] (fun x hx => by rw [List.mem_singleton.1 hx]; exact inv_mem_allMoves m hm)
    (applyMove_inv solvedCube m InRange_solvedCube hm)
  apply solve_one_move sv (heuristic_within sv 0 2147483616 (le_refl _) (by decide) hw1)
    (by rw [hg]; exact h0) fuel hf _ m.inv
    (by simpa using h1) (by rw [hg]; exact one_move_not_solved m hm)
    (inv_mem_allMoves m hm)
    (fun m1 hm1 => by rw [hg]; exact one_move_unique_inverse m hm m1 hm1)
    (by rw [hl]; decide)

theorem one_move_scramble_witness :
    ∃ sv, (⟨Face.R, 1⟩ : Move) ∈ allMoves
      ∧ buildSolver 14 50000000 4294967295 = some sv ∧ 3 ≤ 3
      ∧ solve sv 3 (applyMove solvedCube ⟨Face.R, 1⟩) = some [⟨Face.R, 4 - 1⟩] := by
  obtain ⟨sv, hsv⟩ := Option.isSome_iff_exists.1 (buildSolver_isSome 14 50000000 4294967295)
  exact ⟨sv, by decide, hsv, le_refl 3,
    one_move_scramble ⟨Face.R, 1⟩ 4294967295 sv 3 (by decide) hsv (le_refl 3)⟩

/-! ## The packed cube -/

theorem Packed.init_isSolved : Packed.CubeState.init.isSolved = true := by decide

theorem Packed.set5Bits_fresh (w n v : Nat) (hw : w < 2 ^ (n * 5)) (hv : v < 32)
    (hn : n < 12) : Packed.set5Bits w n v = w + v * 2 ^ (n * 5) := by
  have hk : n * 5 + 5 ≤ 60 := by omega
  have hm : 31 <<< (n * 5) < 2 ^ 64 := by
    rw [Nat.shiftLeft_eq]
    calc 31 * 2 ^ (n * 5) < 2 ^ 5 * 2 ^ (n * 5) := by
          apply Nat.mul_lt_mul_of_pos_right (by decide) (by positivity)
      _ = 2 ^ (n * 5 + 5) := by rw [← pow_add, Nat.add_comm]
      _ ≤ 2 ^ 64 := Nat.pow_le_pow_right (by decide) (by omega)
  have hvs : v <<< (n * 5) < 2 ^ 64 := by
    rw [Nat.shiftLeft_eq]
    calc v * 2 ^ (n * 5) < 2 ^ 5 * 2 ^ (n * 5) := by
          apply Nat.mul_lt_mul_of_pos_right hv (by positivity)
      _ = 2 ^ (n * 5 + 5) := by rw [← pow_add, Nat.add_comm]
      _ ≤ 2 ^ 64 := Nat.pow_le_pow_right (by decide) (by omega)
  have hv31 : v &&& 31 = v := by
    have : v &&& (2 ^ 5 - 1) = v % 2 ^ 5 := Nat.and_pow_two_sub_one_eq_mod v 5
    simpa [Nat.mod_eq_of_lt hv] using this
  have hclear : w &&& (2 ^ 64 - 1 - 31 <<< (n * 5)) = w := by
    apply Nat.eq_of_testBit_eq
    intro j
    rw [Nat.testBit_and]
    by_cases hj : w.testBit j = true
    · have hjn : j < n * 5 := by
        by_contra hge
        have := Nat.testBit_lt_two_pow (Nat.lt_of_lt_of_le hw
          (Nat.pow_le_pow_right (by decide) (Nat.le_of_not_lt hge)))
        rw [this] at hj; cases hj
      have e : 2 ^ 64 - 1 - 31 <<< (n * 5) = 2 ^ 64 - (31 <<< (n * 5) + 1) := by omega
      rw [e, Nat.testBit_two_pow_sub_succ hm, Nat.testBit_shiftLeft]
      simp [hj]
      omega
    · simp at hj; simp [hj]
  unfold Packed.set5Bits Packed.MASK5 Packed.WORD
  simp only [Nat.mod_eq_of_lt hm, Nat.mod_eq_of_lt hvs, hv31, hclear]
  rw [Nat.shiftLeft_eq, Nat.mul_comm v, Nat.lor_comm, ← Nat.mul_add_lt_is_or hw v]
  omega

theorem Packed.pack_append (l : List Nat) (v : Nat) :
    Packed.pack (l ++ [v]) = Packed.pack l + v * 32 ^ l.length := by
  induction l with
  | nil => simp [Packed.pack]
  | cons a l ih =>
    show a + 32 * Packed.pack (l ++ [v]) = (a + 32 * Packed.pack l) + v * 32 ^ (l.length + 1)
    rw [ih, pow_succ]; ring

theorem Packed.pack_lt (l : List Nat) (h : ∀ v ∈ l, v < 32) :
    Packed.pack l < 32 ^ l.length := by
  induction l with
  | nil => simp [Packed.pack]
  | cons a l ih =>
    have ha := h a (List.mem_cons_self _ _)
    have hl := ih (fun v hv => h v (List.mem_cons_of_mem _ hv))
    simp only [Packed.pack, List.length_cons, pow_succ]
    omega

theorem Packed.foldl_set5Bits (val : Nat → Nat) (n : Nat) (hn : n ≤ 12)
    (hval : ∀ i, i < n → val i < 32) :
    (List.range n).foldl (fun w i => Packed.set5Bits w i (val i)) 0
      = Packed.pack ((List.range n).map val) := by
  induction n with
  | zero => rfl
  | succ n ih =>
    have ih1 := ih (by omega) (fun i hi => hval i (by omega))
    rw [List.range_succ, List.foldl_append, List.map_append, ih1]
    simp only [List.foldl_cons, List.foldl_nil, List.map_cons, List.map_nil]
    have hlt := Packed.pack_lt ((List.range n).map val) (by
      intro v hv
      simp only [List.mem_map, List.mem_range] at hv
      obtain ⟨i, hi, rfl⟩ := hv
      exact hval i (by omega))
    simp only [List.length_map, List.length_range] at hlt
    have e : (32 : Nat) ^ n = 2 ^ (n * 5) := by
      rw [Nat.mul_comm, pow_mul]; rfl
    rw [Packed.set5Bits_fresh _ n _ (by rw [← e]; exact hlt) (hval n (by omega)) (by omega),
      Packed.pack_append, List.length_map, List.length_range, e]

theorem Packed.get5Bits_eq (w i : Nat) : Packed.get5Bits w i = w / 32 ^ i % 32 := by
  unfold Packed.get5Bits Packed.MASK5
  have e : (32 : Nat) ^ i = 2 ^ (i * 5) := by
    rw [Nat.mul_comm, pow_mul]; rfl
  rw [Nat.shiftRight_eq_div_pow, e]
  exact Nat.and_pow_two_sub_one_eq_mod _ 5

theorem Packed.get5Bits_lt (w i : Nat) : Packed.get5Bits w i < 32 := by
  rw [Packed.get5Bits_eq]; exact Nat.mod_lt _ (by decide)

theorem Packed.get5Bits_pack (l : List Nat) (h : ∀ v ∈ l, v < 32) :
    ∀ i, i < l.length → Packed.get5Bits (Packed.pack l) i = l.getD i 0 := by
  induction l with
  | nil => intro i hi; cases hi
  | cons a l ih =>
    intro i hi
    have ha := h a (List.mem_cons_self _ _)
    rw [Packed.get5Bits_eq]
    cases i with
    | zero =>
      simp only [Packed.pack, pow_zero, Nat.div_one, List.getD_cons_zero]
      omega
    | succ i =>
      have hi1 : i < l.length := by simpa using hi
      have := ih (fun v hv => h v (List.mem_cons_of_mem _ hv)) i hi1
      rw [Packed.get5Bits_eq] at this
      rw [List.getD_cons_succ, ← this, pow_succ, Nat.mul_comm, ← Nat.div_div_eq_div_mul]
      have : (a + 32 * Packed.pack l) / 32 = Packed.pack l := by omega
      simp only [Packed.pack, this]

theorem Packed.get5Bits_foldl (val : Nat → Nat) (n : Nat) (hn : n ≤ 12)
    (hval : ∀ i, i < n → val i < 32) (i : Nat) (hi : i < n) :
    Packed.get5Bits ((List.range n).foldl (fun w i => Packed.set5Bits w i (val i)) 0) i
      = val i := by
  rw [Packed.foldl_set5Bits val n hn hval, Packed.get5Bits_pack _ (by
    intro v hv
    simp only [List.mem_map, List.mem_range] at hv
    obtain ⟨j, hj, rfl⟩ := hv
    exact hval j hj) i (by simpa using hi)]
  exact getD_map_range n val 0 i hi

theorem Packed.foldl_lt (val : Nat → Nat) (n : Nat) (hn : n ≤ 12)
    (hval : ∀ i, i < n → val i < 32) :
    (List.range n).foldl (fun w i => Packed.set5Bits w i (val i)) 0 < 32 ^ n := by
  rw [Packed.foldl_set5Bits val n hn hval]
  have := Packed.pack_lt ((List.range n).map val) (by
    intro v hv
    simp only [List.mem_map, List.mem_range] at hv
    obtain ⟨j, hj, rfl⟩ := hv
    exact hval j hj)
  simpa using this

theorem Packed.corner_bits :
    ∀ p, p < 8 → ∀ o, o < 3 →
      ((p <<< 2) ||| o) < 32 ∧ ((p <<< 2) ||| o) >>> 2 = p ∧ ((p <<< 2) ||| o) &&& 3 = o := by
  decide

theorem Packed.edge_bits :
    ∀ p, p < 16 → ∀ f, f < 2 → ∀ d, d < 2 →
      ((p <<< 1) ||| (f ^^^ d)) < 32 ∧ ((p <<< 1) ||| (f ^^^ d)) >>> 1 = p := by
  decide

theorem Packed.field_bits :
    ∀ x, x < 32 → x >>> 2 < 8 ∧ x >>> 1 < 16 ∧ x &&& 1 < 2 := by
  decide

theorem Packed.cornerField_spec (tb : Packed.MoveTables) (w m i : Nat) :
    Packed.cornerField tb w m i < 32
      ∧ Packed.cornerField tb w m i >>> 2 = Packed.get5Bits w (tb.cornerPerm m i) >>> 2
      ∧ Packed.cornerField tb w m i &&& 3 < 3 := by
  have hx := Packed.get5Bits_lt w (tb.cornerPerm m i)
  have hp := (Packed.field_bits _ hx).1
  have ho : ((Packed.get5Bits w (tb.cornerPerm m i) &&& 3) + tb.cornerOrientDelta m i) % 3 < 3 :=
    Nat.mod_lt _ (by decide)
  obtain ⟨h1, h2, h3⟩ := Packed.corner_bits _ hp _ ho
  unfold Packed.cornerField
  dsimp only
  rw [h3]
  exact ⟨h1, h2, ho⟩

theorem Packed.edgeField_spec (tb : Packed.MoveTables) (w m i : Nat)
    (hd : tb.edgeFlipDelta m i < 2) :
    Packed.edgeField tb w m i < 32
      ∧ Packed.edgeField tb w m i >>> 1 = Packed.get5Bits w (tb.edgePerm m i) >>> 1 := by
  have hx := Packed.get5Bits_lt w (tb.edgePerm m i)
  obtain ⟨_, hp, hf⟩ := Packed.field_bits _ hx
  unfold Packed.edgeField
  dsimp only
  exact Packed.edge_bits _ hp _ hf _ hd

theorem Packed.applyMove_wellFormed (tb : Packed.MoveTables) (m : Nat)
    (c : Packed.CubeState) (ht : Packed.TablesOK tb m) (hc : Packed.WellFormed c) :
    Packed.WellFormed (c.applyMove tb m) := by
  obtain ⟨tc, te, _, tde⟩ := ht
  obtain ⟨hcp, _, hep, _, _⟩ := hc
  have hcv : ∀ i, i < 8 → Packed.cornerField tb c.cornerData m i < 32 :=
    fun i hi => (Packed.cornerField_spec tb _ m i).1
  have hev : ∀ i, i < 12 → Packed.edgeField tb c.edgeData m i < 32 :=
    fun i hi => (Packed.edgeField_spec tb _ m i (tde i hi)).1
  have hcg : ∀ i, i < 8 → Packed.get5Bits (c.applyMove tb m).cornerData i
      = Packed.cornerField tb c.cornerData m i :=
    fun i hi => Packed.get5Bits_foldl (Packed.cornerField tb c.cornerData m) 8
      (by decide) hcv i hi
  have heg : ∀ i, i < 12 → Packed.get5Bits (c.applyMove tb m).edgeData i
      = Packed.edgeField tb c.edgeData m i :=
    fun i hi => Packed.get5Bits_foldl (Packed.edgeField tb c.edgeData m) 12
      (by decide) hev i hi
  refine ⟨?_, ?_, ?_, ?_, ?_⟩
  · have e : ((List.range 8).map fun i =>
          Packed.get5Bits (c.applyMove tb m).cornerData i >>> 2)
        = ((List.range 8).map (tb.cornerPerm m)).map
            (fun j => Packed.get5Bits c.cornerData j >>> 2) := by
      rw [List.map_map]
      apply List.map_congr_left
      intro i hi
      have hi : i < 8 := List.mem_range.1 hi
      rw [hcg i hi]
      exact (Packed.cornerField_spec tb _ m i).2.1
    rw [e]
    exact (List.Perm.map _ tc).trans hcp
  · intro i hi
    rw [hcg i hi]
    exact (Packed.cornerField_spec tb _ m i).2.2
  · have e : ((List.range 12).map fun i =>
          Packed.get5Bits (c.applyMove tb m).edgeData i >>> 1)
        = ((List.range 12).map (tb.edgePerm m)).map
            (fun j => Packed.get5Bits c.edgeData j >>> 1) := by
      rw [List.map_map]
      apply List.map_congr_left
      intro i hi
      have hi : i < 12 := List.mem_range.1 hi
      rw [heg i hi]
      exact (Packed.edgeField_spec tb _ m i (tde i hi)).2
    rw [e]
    exact (List.Perm.map _ te).trans hep
  · exact Packed.foldl_lt (Packed.cornerField tb c.cornerData m) 8 (by decide) hcv
  · exact Packed.foldl_lt (Packed.edgeField tb c.edgeData m) 12 (by decide) hev

theorem Packed.init_wellFormed : Packed.WellFormed Packed.CubeState.init := by
  unfold Packed.WellFormed
  decide

/-- C20: packed-state well-formedness is preserved by the packed
`applyMove`.  With the move tables as parameters, if for move `m` the row
`cornerPerm[m]` is a permutation of `0 .. 7`, `edgePerm[m]` a permutation of
`0 .. 11`, the corner deltas are below 3 and the edge deltas below 2, then for
every well-formed packed state the state after `applyMove(m)` is well-formed;
the default-constructed state is well-formed and `isSolved()` holds for it. -/
theorem packed_applyMove_preserves_wellFormed (tb : Packed.MoveTables) (m : Nat)
    (c : Packed.CubeState) (ht : Packed.TablesOK tb m) (hc : Packed.WellFormed c) :
    Packed.WellFormed (c.applyMove tb m)
      ∧ Packed.WellFormed Packed.CubeState.init
      ∧ Packed.CubeState.init.isSolved = true :=
  ⟨Packed.applyMove_wellFormed tb m c ht hc, Packed.init_wellFormed, Packed.init_isSolved⟩

theorem packed_applyMove_preserves_wellFormed_witness :
    Packed.TablesOK
        ⟨fun _ i => (i + 1) % 8, fun _ _ => 2, fun _ i => (i + 5) % 12, fun _ _ => 1⟩ 3
      ∧ Packed.WellFormed Packed.CubeState.init
      ∧ (Packed.WellFormed (Packed.CubeState.init.applyMove
            ⟨fun _ i => (i + 1) % 8, fun _ _ => 2, fun _ i => (i + 5) % 12, fun _ _ => 1⟩ 3)
        ∧ Packed.WellFormed Packed.CubeState.init
        ∧ Packed.CubeState.init.isSolved = true) :=
  ⟨by unfold Packed.TablesOK; decide, Packed.init_wellFormed,
    packed_applyMove_preserves_wellFormed _ 3 _ (by unfold Packed.TablesOK; decide)
      Packed.init_wellFormed⟩


/-! ## Keys as numbers -/

theorem qtCode_eq (b p0 p1 p2 p3 d0 d1 d2 d3 c : Nat) :
    qtCode b p0 p1 p2 p3 d0 d1 d2 d3 c =
      c + ((c / p3 % b + d0) % b * p0 + (c / p0 % b + d1) % b * p1
          + (c / p1 % b + d2) % b * p2 + (c / p2 % b + d3) % b * p3)
        - (c / p0 % b * p0 + c / p1 % b * p1 + c / p2 % b * p2 + c / p3 % b * p3) := rfl

theorem codeOf_digit (b : Nat) (l : List Nat) (h : ∀ v ∈ l, v < b) :
    ∀ i, i < l.length → codeOf b l / b ^ i % b = l.getD i 0 := by
  induction l with
  | nil => intro i hi; cases hi
  | cons a l ih =>
    intro i hi
    have ha := h a (List.mem_cons_self _ _)
    have hb : 0 < b := by omega
    cases i with
    | zero =>
      simp only [codeOf, pow_zero, Nat.div_one, List.getD_cons_zero]
      rw [Nat.add_mul_mod_self_left]
      exact Nat.mod_eq_of_lt ha
    | succ i =>
      have hi1 : i < l.length := by simpa using hi
      rw [List.getD_cons_succ, ← ih (fun v hv => h v (List.mem_cons_of_mem _ hv)) i hi1,
        pow_succ, Nat.mul_comm, ← Nat.div_div_eq_div_mul]
      have : (a + b * codeOf b l) / b = codeOf b l := by
        rw [Nat.add_mul_div_left _ _ hb, Nat.div_eq_of_lt ha, Nat.zero_add]
      simp only [codeOf, this]

theorem codeOf_set (b : Nat) (l : List Nat) (v : Nat) :
    ∀ i, i < l.length →
      codeOf b (l.set i v) + l.getD i 0 * b ^ i = codeOf b l + v * b ^ i := by
  induction l with
  | nil => intro i hi; cases hi
  | cons a l ih =>
    intro i hi
    cases i with
    | zero =>
      simp only [List.set_cons_zero, codeOf, List.getD_cons_zero, pow_zero, Nat.mul_one]
      omega
    | succ i =>
      have hi1 : i < l.length := by simpa using hi
      have := ih i hi1
      simp only [List.set_cons_succ, codeOf, List.getD_cons_succ, pow_succ]
      calc a + b * codeOf b (l.set i v) + l.getD i 0 * (b ^ i * b)
          = a + b * (codeOf b (l.set i v) + l.getD i 0 * b ^ i) := by ring
        _ = a + b * (codeOf b l + v * b ^ i) := by rw [this]
        _ = a + b * codeOf b l + v * (b ^ i * b) := by ring

theorem getD_set_ne (l : List Nat) (i j v : Nat) (h : i ≠ j) :
    (l.set i v).getD j 0 = l.getD j 0 := by
  simp [List.getD_eq_getElem?_getD, List.getElem?_set_ne h]

theorem codeOf_cycList (b : Nat) (l : List Nat) (h : ∀ v ∈ l, v < b)
    (e0 e1 e2 e3 d0 d1 d2 d3 : Nat) (h0 : e0 < l.length) (h1 : e1 < l.length)
    (h2 : e2 < l.length) (h3 : e3 < l.length) (n01 : e0 ≠ e1) (n02 : e0 ≠ e2)
    (n03 : e0 ≠ e3) (n12 : e1 ≠ e2) (n13 : e1 ≠ e3) (n23 : e2 ≠ e3) :
    codeOf b (cycList b [e0, e1, e2, e3] [d0, d1, d2, d3] l)
      = qtCode b (b ^ e0) (b ^ e1) (b ^ e2) (b ^ e3) d0 d1 d2 d3 (codeOf b l) := by
  rw [qtCode_eq, codeOf_digit b l h e0 h0, codeOf_digit b l h e1 h1,
    codeOf_digit b l h e2 h2, codeOf_digit b l h e3 h3]
  unfold cycList
  simp only [tab, List.getD_cons_zero, List.getD_cons_succ]
  have k3 := codeOf_set b l ((l.getD e2 0 + d3) % b) e3 h3
  have k2 := codeOf_set b (l.set e3 ((l.getD e2 0 + d3) % b)) ((l.getD e1 0 + d2) % b) e2
    (by simpa using h2)
  have k1 := codeOf_set b
    ((l.set e3 ((l.getD e2 0 + d3) % b)).set e2 ((l.getD e1 0 + d2) % b))
    ((l.getD e0 0 + d1) % b) e1 (by simpa using h1)
  have k0 := codeOf_set b
    (((l.set e3 ((l.getD e2 0 + d3) % b)).set e2 ((l.getD e1 0 + d2) % b)).set e1
      ((l.getD e0 0 + d1) % b))
    ((l.getD e3 0 + d0) % b) e0 (by simpa using h0)
  rw [getD_set_ne _ _ _ _ n23.symm] at k2
  rw [getD_set_ne _ _ _ _ n12.symm, getD_set_ne _ _ _ _ n13.symm] at k1
  rw [getD_set_ne _ _ _ _ n01.symm, getD_set_ne _ _ _ _ n02.symm,
    getD_set_ne _ _ _ _ n03.symm] at k0
  omega

theorem quarterTurn_edge_orient_cyc (f : Face) (s : CubeState) :
    (quarterTurn f s).edge_orient.1
      = cycList 2 (edge_cycles f) (edge_orient f) s.edge_orient.1 := by
  obtain ⟨e, c, eo, co⟩ := s
  obtain ⟨o0, o1, o2, o3, o4, o5, o6, o7, o8, o9, o10, o11, rfl⟩ := Arr.exists12 eo
  cases f <;> rfl

theorem quarterTurn_corner_orient_cyc (f : Face) (s : CubeState) :
    (quarterTurn f s).corner_orient.1
      = cycList 3 (corner_cycles f) (corner_orient f) s.corner_orient.1 := by
  obtain ⟨e, c, eo, co⟩ := s
  obtain ⟨t0, t1, t2, t3, t4, t5, t6, t7, rfl⟩ := Arr.exists8 co
  cases f <;> rfl

theorem ite_mod_two (p : Prop) [Decidable p] :
    (if p then 1 else 0) % 2 = if p then 1 else 0 := by
  split <;> rfl

theorem quarterTurn_slice_cyc (f : Face) (s : CubeState) :
    (getESlice (quarterTurn f s)).1.map (fun x => if x then 1 else 0)
      = cycList 2 (edge_cycles f) [0, 0, 0, 0]
          ((getESlice s).1.map fun x => if x then 1 else 0) := by
  obtain ⟨e, c, eo, co⟩ := s
  obtain ⟨e0, e1, e2, e3, e4, e5, e6, e7, e8, e9, e10, e11, rfl⟩ := Arr.exists12 e
  unfold getESlice
  simp only [quarterTurn_edges]
  cases f <;>
    simp [List.range_succ, prevSlot, tab, edge_cycles, Arr.rd, cycList, ite_mod_two]

theorem edgeCode_quarterTurn (f : Face) (s : CubeState) (h : InRange s) :
    edgeCode (quarterTurn f s) = qtEdgeCode f (edgeCode s) := by
  unfold edgeCode getEdgeOrientation
  rw [quarterTurn_edge_orient_cyc]
  have hl : s.edge_orient.1.length = 12 := s.edge_orient.2
  cases f <;>
    refine codeOf_cycList 2 _ h.1 _ _ _ _ _ _ _ _ ?_ ?_ ?_ ?_ ?_ ?_ ?_ ?_ ?_ ?_ <;>
    first | (rw [hl]; decide) | decide

theorem cornerCode_quarterTurn (f : Face) (s : CubeState) (h : InRange s) :
    cornerCode (quarterTurn f s) = qtCornerCode f (cornerCode s) := by
  unfold cornerCode getCornerOrientation
  rw [quarterTurn_corner_orient_cyc]
  have hl : s.corner_orient.1.length = 8 := s.corner_orient.2
  cases f <;>
    refine codeOf_cycList 3 _ h.2 _ _ _ _ _ _ _ _ ?_ ?_ ?_ ?_ ?_ ?_ ?_ ?_ ?_ ?_ <;>
    first | (rw [hl]; decide) | decide

theorem slice_bits_lt (l : List Bool) :
    ∀ v ∈ l.map (fun x => if x then 1 else 0), v < 2 := by
  intro v hv
  simp only [List.mem_map] at hv
  obtain ⟨x, _, rfl⟩ := hv
  split <;> decide

theorem sliceCode_quarterTurn (f : Face) (s : CubeState) :
    sliceCode (quarterTurn f s) = qtSliceCode f (sliceCode s) := by
  unfold sliceCode
  rw [quarterTurn_slice_cyc]
  have hl : ((getESlice s).1.map fun x => if x then 1 else 0).length = 12 := by
    rw [List.length_map]; exact (getESlice s).2
  cases f <;>
    refine codeOf_cycList 2 _ (slice_bits_lt _) _ _ _ _ _ _ _ _ ?_ ?_ ?_ ?_ ?_ ?_ ?_ ?_ ?_ ?_ <;>
    first | (rw [hl]; decide) | decide

/-! ## Bit sets of key numbers -/

theorem hasBit_eq_testBit (V c : Nat) : hasBit V c = V.testBit c := by
  show Nat.beq ((V >>> c) &&& 1) 1 = V.testBit c
  rw [Nat.testBit_to_div_mod, Nat.and_one_is_mod, Nat.shiftRight_eq_div_pow]
  rcases Nat.mod_two_eq_zero_or_one (V / 2 ^ c) with h | h <;> rw [h] <;> rfl

theorem hasBit_setBit (V c x : Nat) (h : hasBit (setBit V c) x = true) :
    x = c ∨ hasBit V x = true := by
  rw [hasBit_eq_testBit] at h ⊢
  have h1 : (V ||| 1 <<< c).testBit x = true := h
  rw [Nat.testBit_or, Nat.one_shiftLeft, Nat.testBit_two_pow] at h1
  simp only [Bool.or_eq_true, decide_eq_true_eq] at h1
  rcases h1 with h1 | h1
  · exact Or.inr h1
  · exact Or.inl h1.symm

theorem hasBit_zero (x : Nat) : hasBit 0 x = false := by
  rw [hasBit_eq_testBit]; exact Nat.zero_testBit x

theorem withValue_eq {α : Type} (n : Nat) (k : Nat → α) : withValue n k = k n := by
  cases n <;> rfl

theorem addCodes_sound (P : Nat → Prop) :
    ∀ (cs : List Nat) (V : Nat) (F : List Nat), (∀ c ∈ cs, P c) →
      (∀ c, hasBit V c = true → P c) → (∀ c ∈ F, P c) →
      (∀ c, hasBit (addCodes cs (V, F)).1 c = true → P c)
        ∧ ∀ c ∈ (addCodes cs (V, F)).2, P c := by
  intro cs
  induction cs with
  | nil => intro V F _ hV hF; exact ⟨hV, hF⟩
  | cons a cs ih =>
    intro V F hcs hV hF
    have ha := hcs a (List.mem_cons_self _ _)
    have hcs1 : ∀ c ∈ cs, P c := fun c hc => hcs c (List.mem_cons_of_mem _ hc)
    unfold addCodes
    rw [withValue_eq]
    cases hb : hasBit V a with
    | true => exact ih V F hcs1 hV hF
    | false =>
      simp only [withValue_eq]
      refine ih _ _ hcs1 ?_ ?_
      · intro c hc
        rcases hasBit_setBit V a c hc with rfl | h
        · exact ha
        · exact hV c h
      · intro c hc
        rcases List.mem_cons.1 hc with rfl | h
        · exact ha
        · exact hF c h

/-- One round of the search on numbers: if the numbers of the bit set satisfy
`Q`, those of the frontier satisfy `P`, a quarter turn takes `P` to `Q` and
`P` implies `Q`, then after the round both the bit set and the new frontier
satisfy `Q`. -/
theorem expandFrontier_sound (qt : Face → Nat → Nat) (P Q : Nat → Prop)
    (hstep : ∀ f c, P c → Q (qt f c)) :
    ∀ (F : List Nat) (acc : Nat × List Nat), (∀ c ∈ F, P c) →
      (∀ c, hasBit acc.1 c = true → Q c) → (∀ c ∈ acc.2, Q c) →
      (∀ c, hasBit (expandFrontier qt F acc).1 c = true → Q c)
        ∧ ∀ c ∈ (expandFrontier qt F acc).2, Q c := by
  intro F
  induction F with
  | nil => intro acc _ hV hF; exact ⟨hV, hF⟩
  | cons a F ih =>
    intro acc hP hV hF
    obtain ⟨V, G⟩ := acc
    have ha := hP a (List.mem_cons_self _ _)
    have hnew : ∀ c ∈ Face.all.map (fun f => qt f a), Q c := by
      intro c hc
      obtain ⟨f, _, rfl⟩ := List.mem_map.1 hc
      exact hstep f a ha
    have h1 := addCodes_sound Q (Face.all.map fun f => qt f a) V G hnew hV hF
    exact ih _ (fun c hc => hP c (List.mem_cons_of_mem _ hc)) h1.1 h1.2

theorem bfsCodes_sound (qt : Face → Nat → Nat) (P : Nat → Nat → Prop)
    (hmono : ∀ d c, P d c → P (d + 1) c) (hstep : ∀ d f c, P d c → P (d + 1) (qt f c)) :
    ∀ (r d V : Nat) (F : List Nat), (∀ c, hasBit V c = true → P d c) → (∀ c ∈ F, P d c) →
      ∀ c, hasBit (bfsCodes qt r V F) c = true → P (d + r) c := by
  intro r
  induction r with
  | zero => intro d V F hV _ c hc; exact hV c hc
  | succ r ih =>
    intro d V F hV hF c hc
    unfold bfsCodes at hc
    have h1 := expandFrontier_sound qt (P d) (P (d + 1)) (hstep d) F (V, []) hF
      (fun c hc => hmono d c (hV c hc)) (fun c hc => by cases hc)
    have h2 := ih (d + 1) _ _ h1.1 h1.2 c hc
    have he : d + (r + 1) = d + 1 + r := by omega
    rw [he]; exact h2

theorem closedBelow_spec (qt : Face → Nat → Nat) (V : Nat) :
    ∀ N, closedBelow qt V N = true →
      ∀ n, n < N → hasBit V n = true → ∀ f, hasBit V (qt f n) = true := by
  intro N
  induction N with
  | zero => intro _ n hn; cases hn
  | succ N ih =>
    intro h n hn hb f
    unfold closedBelow at h
    simp only [Bool.and_eq_true, Bool.or_eq_true, Bool.not_eq_true', List.all_eq_true] at h
    rcases Nat.lt_succ_iff_lt_or_eq.1 hn with hlt | rfl
    · exact ih h.2 n hlt hb f
    · rcases h.1 with h1 | h1
      · rw [hb] at h1; cases h1
      · exact h1 f (by cases f <;> decide)

/-! ## Every key is found within depth 14 -/

theorem applyMove_quarter (f : Face) (s : CubeState) :
    applyMove s ⟨f, 1⟩ = quarterTurn f s := rfl

theorem quarter_mem_allMoves (f : Face) : (⟨f, 1⟩ : Move) ∈ allMoves := by
  cases f <;> decide

theorem CodeReach_mono (code : CubeState → Nat) (d c : Nat) (h : CodeReach code d c) :
    CodeReach code (d + 1) c := by
  obtain ⟨T, hT, hl, hc⟩ := h
  exact ⟨T, hT, by omega, hc⟩

theorem CodeReach_step (code : CubeState → Nat) (qt : Face → Nat → Nat)
    (hqt : ∀ f s, InRange s → code (quarterTurn f s) = qt f (code s))
    (d : Nat) (f : Face) (c : Nat) (h : CodeReach code d c) :
    CodeReach code (d + 1) (qt f c) := by
  obtain ⟨T, hT, hl, hc⟩ := h
  refine ⟨T ++ [⟨f, 1⟩], ?_, by simp; omega, ?_⟩
  · intro m hm
    rcases List.mem_append.1 hm with h1 | h1
    · exact hT m h1
    · rw [List.mem_singleton.1 h1]; exact quarter_mem_allMoves f
  · rw [applyMoves_append]
    show code (applyMove (applyMoves solvedCube T) ⟨f, 1⟩) = qt f c
    rw [applyMove_quarter, hqt f _ (InRange_applyMoves _ T InRange_solvedCube), hc]

theorem codeOf_lt (b : Nat) (l : List Nat) (h : ∀ v ∈ l, v < b) :
    codeOf b l < b ^ l.length := by
  induction l with
  | nil => simp [codeOf]
  | cons a l ih =>
    have ha := h a (List.mem_cons_self _ _)
    have := ih fun v hv => h v (List.mem_cons_of_mem _ hv)
    simp only [codeOf, List.length_cons, pow_succ]
    calc a + b * codeOf b l < b + b * codeOf b l := by omega
      _ = b * (codeOf b l + 1) := by ring
      _ ≤ b * b ^ l.length := Nat.mul_le_mul_left _ this
      _ = b ^ l.length * b := Nat.mul_comm _ _

theorem codeOf_inj (b : Nat) :
    ∀ l1 l2 : List Nat, l1.length = l2.length → (∀ v ∈ l1, v < b) → (∀ v ∈ l2, v < b) →
      codeOf b l1 = codeOf b l2 → l1 = l2 := by
  intro l1
  induction l1 with
  | nil =>
    intro l2 hl _ _ _
    cases l2 with
    | nil => rfl
    | cons a l => cases hl
  | cons a l1 ih =>
    intro l2 hl h1 h2 hc
    cases l2 with
    | nil => cases hl
    | cons a2 l2 =>
      have ha := h1 a (List.mem_cons_self _ _)
      have ha2 := h2 a2 (List.mem_cons_self _ _)
      simp only [codeOf] at hc
      have e1 : a = a2 := by
        have := congrArg (· % b) hc
        simp only [Nat.add_mul_mod_self_left, Nat.mod_eq_of_lt ha, Nat.mod_eq_of_lt ha2] at this
        exact this
      have e2 : codeOf b l1 = codeOf b l2 := by
        subst e1
        have hb : 0 < b := by omega
        exact Nat.eq_of_mul_eq_mul_left hb (by omega)
      rw [e1, ih l2 (by simpa using hl) (fun v hv => h1 v (List.mem_cons_of_mem _ hv))
        (fun v hv => h2 v (List.mem_cons_of_mem _ hv)) e2]

/-- The search on numbers finds the number of every reachable key: if the bit
set found in 14 rounds is closed under quarter turns, the key number of every
state reached from the solved cube is the key number of a state reached in at
most 14 moves. -/
theorem keysWithin14_sound (code : CubeState → Nat) (qt : Face → Nat → Nat) (N : Nat)
    (hqt : ∀ f s, InRange s → code (quarterTurn f s) = qt f (code s))
    (hN : ∀ s, InRange s → code s < N)
    (hk : keysWithin14 qt (code solvedCube) N = true)
    (T : List Move) :
    CodeReach code 14 (code (applyMoves solvedCube T)) := by
  unfold keysWithin14 at hk
  rw [withValue_eq] at hk
  simp only [Bool.and_eq_true] at hk
  have hclosed := closedBelow_spec qt _ N hk.2
  have hin : InRange (applyMoves solvedCube T)
      ∧ hasBit (bfsCodes qt 14 (setBit 0 (code solvedCube)) [code solvedCube])
          (code (applyMoves solvedCube T)) = true := by
    refine applyMoves_invariant
      (fun s => InRange s
        ∧ hasBit (bfsCodes qt 14 (setBit 0 (code solvedCube)) [code solvedCube])
            (code s) = true) ?_ T solvedCube ⟨InRange_solvedCube, hk.1⟩
    intro f s hs
    refine ⟨InRange_quarterTurn f s hs.1, ?_⟩
    rw [hqt f s hs.1]
    exact hclosed _ (hN s hs.1) hs.2 f
  have hstart : CodeReach code 0 (code solvedCube) :=
    ⟨[], (fun m hm => by cases hm), Nat.le_refl 0, rfl⟩
  have h := bfsCodes_sound qt (CodeReach code) (CodeReach_mono code) (CodeReach_step code qt hqt)
    14 0 (setBit 0 (code solvedCube)) [code solvedCube]
    (fun c hc => by
      rcases hasBit_setBit 0 _ c hc with rfl | h
      · exact hstart
      · rw [hasBit_zero] at h; cases h)
    (fun c hc => by rw [List.mem_singleton.1 hc]; exact hstart)
    _ hin.2
  simpa using h

theorem edgeCode_lt (s : CubeState) (h : InRange s) : edgeCode s < 4096 := by
  have := codeOf_lt 2 s.edge_orient.1 h.1
  rw [s.edge_orient.2] at this
  exact this

theorem cornerCode_lt (s : CubeState) (h : InRange s) : cornerCode s < 6561 := by
  have := codeOf_lt 3 s.corner_orient.1 h.2
  rw [s.corner_orient.2] at this
  exact this

theorem sliceCode_lt (s : CubeState) : sliceCode s < 4096 := by
  have := codeOf_lt 2 _ (slice_bits_lt (getESlice s).1)
  rw [List.length_map, (getESlice s).2] at this
  exact this

theorem edge_keys_within14 : keysWithin14 qtEdgeCode (edgeCode solvedCube) 4096 = true := by
  decide!

theorem corner_keys_within14 :
    keysWithin14 qtCornerCode (cornerCode solvedCube) 6561 = true := by
  decide!

theorem slice_keys_within14 : keysWithin14 qtSliceCode (sliceCode solvedCube) 4096 = true := by
  decide!

theorem edgeCode_inj (a b : CubeState) (ha : InRange a) (hb : InRange b)
    (h : edgeCode a = edgeCode b) : getEdgeOrientation a = getEdgeOrientation b :=
  Subtype.ext (codeOf_inj 2 _ _ (by rw [(getEdgeOrientation a).2, (getEdgeOrientation b).2]) ha.1 hb.1 h)

theorem cornerCode_inj (a b : CubeState) (ha : InRange a) (hb : InRange b)
    (h : cornerCode a = cornerCode b) : getCornerOrientation a = getCornerOrientation b :=
  Subtype.ext (codeOf_inj 3 _ _ (by rw [(getCornerOrientation a).2, (getCornerOrientation b).2]) ha.2 hb.2 h)

theorem sliceCode_inj (a b : CubeState) (h : sliceCode a = sliceCode b) :
    getESlice a = getESlice b := by
  have h1 := codeOf_inj 2 _ _
    (by rw [List.length_map, List.length_map, (getESlice a).2, (getESlice b).2])
    (slice_bits_lt _) (slice_bits_lt _) h
  have hinj : Function.Injective fun x : Bool => if x then 1 else 0 := by
    intro x y hxy
    cases x <;> cases y <;> first | rfl | cases hxy
  exact Subtype.ext (List.map_injective_iff.2 hinj h1)

/-- A pattern database of depth 14 holds the key of every reachable state, for
an extractor whose key numbers pass the check `keysWithin14`. -/
theorem pdb14_contains {K : Type} [DecidableEq K] (extractor : CubeState → K)
    (hc : Congruent extractor) (code : CubeState → Nat) (qt : Face → Nat → Nat) (N : Nat)
    (hqt : ∀ f s, InRange s → code (quarterTurn f s) = qt f (code s))
    (hN : ∀ s, InRange s → code s < N)
    (hinj : ∀ a b, InRange a → InRange b → code a = code b → extractor a = extractor b)
    (hk : keysWithin14 qt (code solvedCube) N = true)
    (s : CubeState) (hs : Reachable s) :
    ∃ pdb v, generatePDB solvedCube extractor 14 = some pdb
      ∧ pdbFind pdb (extractor s) = some v ∧ v ≤ 14 := by
  obtain ⟨T, hT, rfl⟩ := hs
  obtain ⟨T1, hT1, hl, hcode⟩ := keysWithin14_sound code qt N hqt hN hk T
  have hkey := hinj _ _ (InRange_applyMoves _ T1 InRange_solvedCube)
    (InRange_applyMoves _ T InRange_solvedCube) hcode
  obtain ⟨pdb, v, hp, hf, hv⟩ :=
    pdb_contains_within extractor hc 14 14 (by decide) T1 hT1 hl
  rw [hkey] at hf
  exact ⟨pdb, v, hp, hf, by simpa using hv⟩

/-- C16: with `max_depth = 14` no PDB key is missing.  For every state `s`
reachable from the solved cube by any sequence of the eighteen moves,
`generatePDB` from the solved cube with depth 14 returns, for each of the three
extractors, a PDB that holds the key extracted from `s`; so `heuristic` on `s`,
for a solver with these three PDBs, is the largest of the three stored values
and no absent key is replaced by 0. -/
theorem depth14_pdbs_hold_every_key (s : CubeState) (hs : Reachable s) :
    ∃ (e : PDB (Arr Nat 12)) (c : PDB (Arr Nat 8)) (sl : PDB (Arr Bool 12)) (ve vc vs : Int),
      generatePDB solvedCube getEdgeOrientation 14 = some e
      ∧ generatePDB solvedCube getCornerOrientation 14 = some c
      ∧ generatePDB solvedCube getESlice 14 = some sl
      ∧ pdbFind e (getEdgeOrientation s) = some ve
      ∧ pdbFind c (getCornerOrientation s) = some vc
      ∧ pdbFind sl (getESlice s) = some vs
      ∧ ∀ node_limit size_max : Nat,
          heuristic ⟨solvedCube, e, c, sl, node_limit, size_max⟩ s = max ve (max vc vs) := by
  obtain ⟨e, ve, he, hfe, _⟩ := pdb14_contains getEdgeOrientation Congruent_getEdgeOrientation
    edgeCode qtEdgeCode 4096 edgeCode_quarterTurn edgeCode_lt edgeCode_inj
    edge_keys_within14 s hs
  obtain ⟨c, vc, hc, hfc, _⟩ := pdb14_contains getCornerOrientation
    Congruent_getCornerOrientation cornerCode qtCornerCode 6561 cornerCode_quarterTurn
    cornerCode_lt cornerCode_inj corner_keys_within14 s hs
  obtain ⟨sl, vs, hsl, hfs, _⟩ := pdb14_contains getESlice Congruent_getESlice
    sliceCode qtSliceCode 4096 (fun f s _ => sliceCode_quarterTurn f s)
    (fun s _ => sliceCode_lt s) (fun a b _ _ h => sliceCode_inj a b h)
    slice_keys_within14 s hs
  refine ⟨e, c, sl, ve, vc, vs, he, hc, hsl, hfe, hfc, hfs, ?_⟩
  intro node_limit size_max
  simp only [heuristic, lookupOr0, hfe, hfc, hfs]

theorem depth14_pdbs_hold_every_key_witness :
    Reachable (applyMoves solvedCube [⟨Face.R, 1⟩, ⟨Face.U, 3⟩, ⟨Face.F, 2⟩]) ∧
    ∃ (e : PDB (Arr Nat 12)) (c : PDB (Arr Nat 8)) (sl : PDB (Arr Bool 12)) (ve vc vs : Int),
      generatePDB solvedCube getEdgeOrientation 14 = some e
      ∧ generatePDB solvedCube getCornerOrientation 14 = some c
      ∧ generatePDB solvedCube getESlice 14 = some sl
      ∧ pdbFind e (getEdgeOrientation
          (applyMoves solvedCube [⟨Face.R, 1⟩, ⟨Face.U, 3⟩, ⟨Face.F, 2⟩])) = some ve
      ∧ pdbFind c (getCornerOrientation
          (applyMoves solvedCube [⟨Face.R, 1⟩, ⟨Face.U, 3⟩, ⟨Face.F, 2⟩])) = some vc
      ∧ pdbFind sl (getESlice
          (applyMoves solvedCube [⟨Face.R, 1⟩, ⟨Face.U, 3⟩, ⟨Face.F, 2⟩])) = some vs
      ∧ ∀ node_limit size_max : Nat,
          heuristic ⟨solvedCube, e, c, sl, node_limit, size_max⟩
            (applyMoves solvedCube [⟨Face.R, 1⟩, ⟨Face.U, 3⟩, ⟨Face.F, 2⟩])
              = max ve (max vc vs) :=
  ⟨⟨[⟨Face.R, 1⟩, ⟨Face.U, 3⟩, ⟨Face.F, 2⟩], (by unfold ValidMoves; decide), rfl⟩,
    depth14_pdbs_hold_every_key _
      ⟨[⟨Face.R, 1⟩, ⟨Face.U, 3⟩, ⟨Face.F, 2⟩], (by unfold ValidMoves; decide), rfl⟩⟩

/-! ## More fuel gives the same result -/

theorem dfsMoves_mono
    (child child1 : CubeState → List Move → Nat → Option (Bool × List Move × Nat))
    (h : ∀ c p n r, child c p n = some r → child1 c p n = some r) (c : CubeState)
    (ms : List Move) :
    ∀ (path : List Move) (nodes : Nat) (r : Bool × List Move × Nat),
      dfsMoves child c ms path nodes = some r → dfsMoves child1 c ms path nodes = some r := by
  induction ms with
  | nil => intro path nodes r hr; exact hr
  | cons m ms ih =>
    intro path nodes r hr
    rw [dfsMoves] at hr ⊢
    split
    · rename_i hp
      rw [if_pos hp] at hr
      exact ih _ _ _ hr
    · rename_i hp
      rw [if_neg hp] at hr
      cases hc : child (applyMove c m) (path ++ [m]) nodes with
      | none => rw [hc] at hr; cases hr
      | some r1 =>
        rw [hc] at hr
        rw [h _ _ _ _ hc]
        obtain ⟨b, p1, n1⟩ := r1
        cases b with
        | true => exact hr
        | false => exact ih _ _ _ hr

theorem dfs_mono_succ (sv : IDASolver) (threshold : Int) :
    ∀ (fuel : Nat) (c : CubeState) (g : Int) (path : List Move) (nodes : Nat)
      (r : Bool × List Move × Nat),
      dfs sv fuel c g threshold path nodes = some r →
        dfs sv (fuel + 1) c g threshold path nodes = some r := by
  intro fuel
  induction fuel with
  | zero => intro c g path nodes r h; simp [dfs] at h
  | succ fuel ih =>
    intro c g path nodes r h
    rw [dfs] at h ⊢
    generalize bump sv.size_max nodes = n1 at h ⊢
    split
    · rename_i h1; rw [if_pos h1] at h; exact h
    · rename_i h1
      rw [if_neg h1] at h
      split
      · rename_i h2; rw [if_pos h2] at h; exact h
      · rename_i h2
        rw [if_neg h2] at h
        split
        · rename_i h3; rw [if_pos h3] at h; exact h
        · rename_i h3
          rw [if_neg h3] at h
          exact dfsMoves_mono _ _ (fun c1 p n r1 hr => ih c1 _ p n r1 hr) c allMoves path n1 r h

theorem dfs_mono (sv : IDASolver) (threshold : Int) (fuel fuel1 : Nat) (hf : fuel ≤ fuel1)
    (c : CubeState) (g : Int) (path : List Move) (nodes : Nat) (r : Bool × List Move × Nat)
    (h : dfs sv fuel c g threshold path nodes = some r) :
    dfs sv fuel1 c g threshold path nodes = some r := by
  induction fuel1 with
  | zero =>
    have : fuel = 0 := by omega
    rw [this] at h; exact h
  | succ k ih =>
    rcases Nat.lt_or_ge fuel (k + 1) with hlt | hge
    · exact dfs_mono_succ sv threshold k c g path nodes r (ih (by omega))
    · have : fuel = k + 1 := by omega
      rw [this] at h; exact h

theorem solveLoop_mono (sv : IDASolver) (fuel fuel1 : Nat) (hf : fuel ≤ fuel1)
    (start : CubeState) :
    ∀ (n : Nat) (threshold : Int) (path : List Move) (T : List Move),
      solveLoop sv fuel start n threshold path = some T →
        solveLoop sv fuel1 start n threshold path = some T := by
  intro n
  induction n with
  | zero => intro threshold path T h; simp [solveLoop] at h
  | succ n ih =>
    intro threshold path T h
    rw [solveLoop] at h ⊢
    split
    · rename_i hle
      rw [if_pos hle] at h
      cases hd : dfs sv fuel start 0 threshold path 0 with
      | none => rw [hd] at h; cases h
      | some r =>
        rw [hd] at h
        rw [dfs_mono sv threshold fuel fuel1 hf start 0 path 0 r hd]
        obtain ⟨b, p1, n1⟩ := r
        cases b with
        | true => exact h
        | false => exact ih _ _ _ h
    · rename_i hle
      rw [if_neg hle] at h
      exact h

theorem solve_mono (sv : IDASolver) (fuel fuel1 : Nat) (hf : fuel ≤ fuel1) (start : CubeState)
    (T : List Move) (h : solve sv fuel start = some T) : solve sv fuel1 start = some T :=
  solveLoop_mono sv fuel fuel1 hf start _ _ _ T h

theorem pdbFind_mem {K : Type} [DecidableEq K] (pdb : PDB K) (k : K) (v : Int)
    (h : pdbFind pdb k = some v) : (k, v) ∈ pdb := by
  induction pdb with
  | nil => cases h
  | cons kv rest ih =>
    obtain ⟨k1, v1⟩ := kv
    rw [pdbFind] at h
    split at h
    · rename_i hk
      simp only [Option.some.injEq] at h
      rw [hk, h]; exact List.mem_cons_self _ _
    · exact List.mem_cons_of_mem _ (ih h)

theorem longSolver_nonneg : PDBsWithin longSolver 0 2147483647 := by
  refine ⟨fun _ _ h => (by cases h), fun k v h => ?_, fun _ _ h => (by cases h)⟩
  have hm := pdbFind_mem _ k v h
  have hall : ∀ kv ∈ longCornerPDB, 0 ≤ kv.2 ∧ kv.2 ≤ 2147483647 := by decide
  exact hall (k, v) hm

theorem longSolver_eval :
    solve longSolver 33 (applyMoves solvedCube longScramble) = some longSolution := by
  decide!

theorem longSolution_solves :
    applyMoves (applyMoves solvedCube longScramble) longSolution = solvedCube := by
  decide!

/-- C19, as stated, fails: the stored values of `longSolver` are
non-negative, and on the state reached by the scramble `longScramble` `solve`
returns the 32 moves of `longSolution`, which take the state to the solved
cube; with stored values close to `INT_MAX` the sum `g + heuristic(c)` wraps to
a negative number and the cut-off at the threshold does not apply. -/
theorem solve_returns_32_moves :
    PDBsWithin longSolver 0 2147483647
      ∧ (∀ fuel : Nat, 33 ≤ fuel →
          solve longSolver fuel (applyMoves solvedCube longScramble) = some longSolution)
      ∧ longSolution.length = 32
      ∧ applyMoves (applyMoves solvedCube longScramble) longSolution = solvedCube :=
  ⟨longSolver_nonneg,
    fun fuel hf => solve_mono longSolver 33 fuel hf _ _ longSolver_eval, rfl,
    longSolution_solves⟩

/-! ## A search that does not return -/

theorem bump_le_max (size_max n : Nat) (h : n ≤ size_max) : bump size_max n ≤ size_max := by
  unfold bump; split <;> omega

theorem dfsMoves_false_covers (sv : IDASolver) (fuel : Nat) (g1 threshold : Int)
    (child : CubeState → List Move → Nat → Option (Bool × List Move × Nat))
    (hchild : ∀ c1 p1 n1 p2 n2, n1 ≤ sv.size_max → child c1 p1 n1 = some (false, p2, n2) →
      p2 = p1 ∧ n2 ≤ sv.size_max
        ∧ ∀ ms, OpenPath sv threshold c1 g1 p1 ms → ms.length < fuel)
    (c : CubeState) (L : List Move) :
    ∀ (path : List Move) (nodes : Nat) (p : List Move) (n : Nat), nodes ≤ sv.size_max →
      dfsMoves child c L path nodes = some (false, p, n) →
      n ≤ sv.size_max ∧ ∀ m ∈ L, pruned path m = false →
        ∀ ms, OpenPath sv threshold (applyMove c m) g1 (path ++ [m]) ms → ms.length < fuel := by
  induction L with
  | nil =>
    intro path nodes p n hn h
    simp only [dfsMoves, Option.some.injEq, Prod.mk.injEq] at h
    refine ⟨by omega, fun m hm => ?_⟩
    cases hm
  | cons a L ih =>
    intro path nodes p n hn h
    rw [dfsMoves] at h
    by_cases hp : pruned path a = true
    · rw [if_pos hp] at h
      obtain ⟨h1, h2⟩ := ih path nodes p n hn h
      refine ⟨h1, fun m hm hpm => ?_⟩
      rcases List.mem_cons.1 hm with rfl | hm1
      · rw [hpm] at hp; cases hp
      · exact h2 m hm1 hpm
    · rw [if_neg hp] at h
      cases hc : child (applyMove c a) (path ++ [a]) nodes with
      | none => rw [hc] at h; cases h
      | some r1 =>
        obtain ⟨b, p1, n1⟩ := r1
        rw [hc] at h
        cases b with
        | true => simp at h
        | false =>
          obtain ⟨e1, e2, e3⟩ := hchild _ _ _ _ _ hn hc
          have h' : dfsMoves child c L path n1 = some (false, p, n) := by
            subst e1
            dsimp only at h
            rw [List.dropLast_concat] at h; exact h
          obtain ⟨h1, h2⟩ := ih path n1 p n e2 h'
          refine ⟨h1, fun m hm hpm => ?_⟩
          rcases List.mem_cons.1 hm with rfl | hm1
          · exact e3
          · exact h2 m hm1 hpm

/-- When `node_limit` is at least `SIZE_MAX` the budget never ends a call, and
a call of `dfs` that returns `false` has been through every node that is
open: no path of open nodes from its node is as long as the fuel. -/
theorem dfs_false_covers (sv : IDASolver) (hlim : sv.size_max ≤ sv.node_limit)
    (threshold : Int) :
    ∀ (fuel : Nat) (c : CubeState) (g : Int) (path : List Move) (nodes : Nat)
      (p : List Move) (n : Nat), nodes ≤ sv.size_max →
      dfs sv fuel c g threshold path nodes = some (false, p, n) →
      p = path ∧ n ≤ sv.size_max
        ∧ ∀ ms, OpenPath sv threshold c g path ms → ms.length < fuel := by
  intro fuel
  induction fuel with
  | zero => intro c g path nodes p n _ h; simp [dfs] at h
  | succ fuel ih =>
    intro c g path nodes p n hn h
    have hpost : p = path := (dfs_post sv threshold _ _ _ _ _ _ h).2 rfl
    refine ⟨hpost, ?_⟩
    rw [dfs] at h
    have hb := bump_le_max sv.size_max nodes hn
    generalize bump sv.size_max nodes = n1 at h hb
    split at h
    · omega
    · split at h
      · rename_i hcut
        simp only [Option.some.injEq, Prod.mk.injEq, true_and] at h
        refine ⟨by omega, fun ms hms => ?_⟩
        cases ms with
        | nil => simp
        | cons m ms =>
          have := hms.1
          omega
      · split at h
        · simp at h
        · obtain ⟨h1, h2⟩ := dfsMoves_false_covers sv fuel (wrapInt (g + 1)) threshold _
            (fun c1 p1 k1 p2 k2 hk hd => ih c1 (wrapInt (g + 1)) p1 k1 p2 k2 hk hd)
            c allMoves path n1 p n hb h
          refine ⟨h1, fun ms hms => ?_⟩
          cases ms with
          | nil => simp
          | cons m ms =>
            obtain ⟨_, _, hm, hpm, hrest⟩ := hms
            have := h2 m hm hpm ms hrest
            simp only [List.length_cons]; omega

theorem OpenPath_snoc (sv : IDASolver) (threshold : Int) (m : Move) :
    ∀ (ms : List Move) (c : CubeState) (g : Int) (path : List Move),
      OpenPath sv threshold c g path ms →
      wrapInt ((fun x => wrapInt (x + 1))^[ms.length] g + heuristic sv (applyMoves c ms))
        ≤ threshold →
      applyMoves c ms ≠ sv.goal → m ∈ allMoves → pruned (path ++ ms) m = false →
      OpenPath sv threshold c g path (ms ++ [m]) := by
  intro ms
  induction ms with
  | nil =>
    intro c g path _ h1 h2 h3 h4
    simp only [List.append_nil] at h4
    exact ⟨h1, h2, h3, h4, trivial⟩
  | cons a ms ih =>
    intro c g path h h1 h2 h3 h4
    obtain ⟨k1, k2, k3, k4, k5⟩ := h
    refine ⟨k1, k2, k3, k4, ?_⟩
    apply ih _ _ _ k5 h1 h2 h3
    rw [List.append_assoc]; exact h4

theorem iterate_wrapInt (k : Nat) : (fun x => wrapInt (x + 1))^[k] 0 = wrapInt k := by
  induction k with
  | zero => rfl
  | succ k ih =>
    rw [Function.iterate_succ_apply', ih]
    unfold wrapInt
    push_cast
    omega

theorem pruned_snoc_false (p : List Move) (a m : Move) (h1 : a.face ≠ m.face)
    (h2 : (a.turns + m.turns) % 4 ≠ 0) : pruned (p ++ [a]) m = false := by
  simp [pruned, h1, h2]
  split <;> rfl

theorem walkFace_ne (d : Nat) : walkFace d ≠ walkFace (d + 1) := by
  unfold walkFace
  split_ifs <;> first | omega | decide

theorem length_walk (n : Nat) : (walk n).length = n := by
  induction n with
  | zero => rfl
  | succ n ih => simp [walk, ih]

theorem ValidMoves_walk (n : Nat) : ValidMoves (walk n) := by
  induction n with
  | zero => intro m hm; cases hm
  | succ n ih =>
    intro m hm
    rcases List.mem_append.1 hm with h | h
    · exact ih m h
    · rw [List.mem_singleton.1 h]; exact quarter_mem_allMoves _

theorem pruned_walk (n : Nat) : pruned (walk n) ⟨walkFace n, 1⟩ = false := by
  cases n with
  | zero => rfl
  | succ n => exact pruned_snoc_false _ _ _ (walkFace_ne n) (by simp)

theorem mKey_step (j : Nat) :
    cycList 3 (corner_cycles (if j % 2 = 0 then Face.U else Face.D))
      (corner_orient (if j % 2 = 0 then Face.U else Face.D)) (mKey j) = mKey (j + 1) := by
  have h8 : j % 8 < 8 := Nat.mod_lt _ (by decide)
  have e1 : (j + 1) % 8 = (j % 8 + 1) % 8 := by omega
  have e2 : j % 2 = j % 8 % 2 := by omega
  unfold mKey
  rw [e1, e2]
  generalize j % 8 = t at h8
  interval_cases t <;> rfl

theorem walkFace_F (n : Nat) (h : n % 4294967296 = 0 ∨ n % 4294967296 = 2147483649) :
    walkFace n = Face.F := by
  unfold walkFace
  split_ifs <;> first | rfl | omega

theorem walkFace_M (n : Nat) (h1 : 1 ≤ n % 4294967296) (h2 : n % 4294967296 ≤ 2147483648) :
    walkFace n = if n % 4294967296 % 2 = 1 then Face.U else Face.D := by
  unfold walkFace
  split_ifs <;> first | rfl | omega

theorem walkFace_Z (n : Nat) (h : 2147483650 ≤ n % 4294967296) :
    walkFace n = if n % 4294967296 % 2 = 0 then Face.U else Face.D := by
  unfold walkFace
  split_ifs <;> first | rfl | omega

theorem keyAt_M (n : Nat) (h1 : 1 ≤ n % 4294967296) (h2 : n % 4294967296 ≤ 2147483649) :
    keyAt n = mKey (n % 4294967296 - 1) := by
  unfold keyAt
  split_ifs <;> first | rfl | omega

theorem keyAt_Z (n : Nat) (h : n % 4294967296 = 0 ∨ 2147483650 ≤ n % 4294967296) :
    keyAt n = [0, 0, 0, 0, 0, 0, 0, 0] := by
  unfold keyAt
  split_ifs <;> first | rfl | omega

theorem keyAt_step (n : Nat) :
    cycList 3 (corner_cycles (walkFace n)) (corner_orient (walkFace n)) (keyAt n)
      = keyAt (n + 1) := by
  have hr : n % 4294967296 < 4294967296 := Nat.mod_lt _ (by decide)
  rcases (by omega : n % 4294967296 = 0
      ∨ (1 ≤ n % 4294967296 ∧ n % 4294967296 ≤ 2147483648)
      ∨ n % 4294967296 = 2147483649
      ∨ (2147483650 ≤ n % 4294967296 ∧ n % 4294967296 < 4294967295)
      ∨ n % 4294967296 = 4294967295) with h | h | h | h | h
  · have e : (n + 1) % 4294967296 = 1 := by omega
    rw [walkFace_F n (Or.inl h), keyAt_Z n (Or.inl h), keyAt_M (n + 1) (by omega) (by omega), e]
    rfl
  · have e : (n + 1) % 4294967296 = n % 4294967296 + 1 := by omega
    have hs := mKey_step (n % 4294967296 - 1)
    have e3 : n % 4294967296 - 1 + 1 = n % 4294967296 := by omega
    rw [e3] at hs
    rw [walkFace_M n h.1 h.2, keyAt_M n h.1 (by omega), keyAt_M (n + 1) (by omega) (by omega),
      e, Nat.add_sub_cancel]
    by_cases hpar : n % 4294967296 % 2 = 1
    · rw [if_pos hpar]
      rw [if_pos (by omega)] at hs
      exact hs
    · rw [if_neg hpar]
      rw [if_neg (by omega)] at hs
      exact hs
  · have e : 2147483650 ≤ (n + 1) % 4294967296 := by omega
    rw [walkFace_F n (Or.inr h), keyAt_M n (by omega) (by omega), keyAt_Z (n + 1) (Or.inr e), h]
    rfl
  · have e : 2147483650 ≤ (n + 1) % 4294967296 := by omega
    rw [walkFace_Z n h.1, keyAt_Z n (Or.inr h.1), keyAt_Z (n + 1) (Or.inr e)]
    split <;> rfl
  · have e : (n + 1) % 4294967296 = 0 := by omega
    rw [walkFace_Z n (by omega), keyAt_Z n (Or.inr (by omega)), keyAt_Z (n + 1) (Or.inl e)]
    split <;> rfl

theorem pdbFind_val (pdb : PDB (Arr Nat 8)) (k : Arr Nat 8) :
    pdbFind pdb k = pdbFind (pdb.map fun kv => (kv.1.1, kv.2)) k.1 := by
  induction pdb with
  | nil => rfl
  | cons kv rest ih =>
    obtain ⟨k1, v⟩ := kv
    simp only [pdbFind, List.map_cons]
    by_cases h : k1 = k
    · rw [if_pos h, if_pos (congrArg Subtype.val h)]
    · rw [if_neg h, if_neg (fun e => h (Subtype.ext e)), ih]

theorem heuristic_loop (c : CubeState) :
    heuristic loopSolver c
      = max 0 (max (lookupOr0 loopCornerPDB (getCornerOrientation c)) 0) := rfl

theorem heuristic_loop_M (c : CubeState) (j : Nat) (h : c.corner_orient.1 = mKey j) :
    heuristic loopSolver c = 2147483647 := by
  have h8 : j % 8 < 8 := Nat.mod_lt _ (by decide)
  rw [heuristic_loop]
  unfold lookupOr0
  rw [pdbFind_val]
  have hc : (getCornerOrientation c).1 = c.corner_orient.1 := rfl
  rw [hc, h]
  unfold mKey
  generalize j % 8 = t at h8
  interval_cases t <;> rfl

theorem heuristic_loop_Z (c : CubeState) (h : c.corner_orient.1 = [0, 0, 0, 0, 0, 0, 0, 0]) :
    heuristic loopSolver c = 0 := by
  rw [heuristic_loop]
  unfold lookupOr0
  rw [pdbFind_val]
  have hc : (getCornerOrientation c).1 = c.corner_orient.1 := rfl
  rw [hc, h]
  rfl

theorem walk_corner (n : Nat) :
    (applyMoves flippedEdge (walk n)).corner_orient.1 = keyAt n := by
  induction n with
  | zero => rfl
  | succ n ih =>
    show (applyMoves flippedEdge (walk n ++ [⟨walkFace n, 1⟩])).corner_orient.1 = _
    rw [applyMoves_append]
    show (applyMove (applyMoves flippedEdge (walk n)) ⟨walkFace n, 1⟩).corner_orient.1 = _
    rw [applyMove_quarter, quarterTurn_corner_orient_cyc, ih, keyAt_step]

theorem walk_node_open (n : Nat) :
    wrapInt (wrapInt n + heuristic loopSolver (applyMoves flippedEdge (walk n))) ≤ 0 := by
  have hk := walk_corner n
  have hr : n % 4294967296 < 4294967296 := Nat.mod_lt _ (by decide)
  rcases (by omega : n % 4294967296 = 0
      ∨ (1 ≤ n % 4294967296 ∧ n % 4294967296 ≤ 2147483649)
      ∨ 2147483650 ≤ n % 4294967296) with h | h | h
  · rw [heuristic_loop_Z _ (hk.trans (keyAt_Z n (Or.inl h)))]
    unfold wrapInt
    omega
  · rw [heuristic_loop_M _ _ (hk.trans (keyAt_M n h.1 h.2))]
    unfold wrapInt
    omega
  · rw [heuristic_loop_Z _ (hk.trans (keyAt_Z n (Or.inr h)))]
    unfold wrapInt
    omega

theorem InRange_flippedEdge : InRange flippedEdge := by
  unfold InRange; decide

theorem flippedEdge_unreachable : ¬ Reachable flippedEdge :=
  fun h => absurd (Reachable_edge_orient_sum _ h) (by decide)

theorem walk_not_goal (n : Nat) : applyMoves flippedEdge (walk n) ≠ solvedCube :=
  fun h => flippedEdge_unreachable
    (Reachable_of_solution flippedEdge (walk n) InRange_flippedEdge (ValidMoves_walk n) h)

theorem walk_open (n : Nat) : OpenPath loopSolver 0 flippedEdge 0 [] (walk n) := by
  induction n with
  | zero => trivial
  | succ n ih =>
    show OpenPath loopSolver 0 flippedEdge 0 [] (walk n ++ [⟨walkFace n, 1⟩])
    apply OpenPath_snoc loopSolver 0 _ _ _ _ _ ih
    · rw [length_walk, iterate_wrapInt]
      exact walk_node_open n
    · exact walk_not_goal n
    · exact quarter_mem_allMoves _
    · rw [List.nil_append]
      exact pruned_walk n

theorem loop_dfs_none (fuel : Nat) : dfs loopSolver fuel flippedEdge 0 0 [] 0 = none := by
  cases h : dfs loopSolver fuel flippedEdge 0 0 [] 0 with
  | none => rfl
  | some r =>
    obtain ⟨b, p, n⟩ := r
    cases b with
    | true =>
      obtain ⟨⟨T, _, hT, hg⟩, _⟩ := (dfs_post loopSolver 0 _ _ _ _ _ _ h).1 rfl
      exact absurd (Reachable_of_solution flippedEdge T InRange_flippedEdge hT hg)
        flippedEdge_unreachable
    | false =>
      have := (dfs_false_covers loopSolver (le_refl _) 0 fuel flippedEdge 0 [] 0 p n
        (Nat.zero_le _) h).2.2 (walk fuel) (walk_open fuel)
      rw [length_walk] at this
      omega

/-- C13, as stated, fails: `flippedEdge` is a state of the data model that no
move sequence reaches, `loopSolver` has the solved cube as goal, stored values
`INT_MAX` and `node_limit = SIZE_MAX`, and `solve` does not return on it: the
first call of `dfs`, at threshold 0, goes deeper than any given depth, because
`g + heuristic(c)` wraps to a negative number along `F U D U D ..` and the
node budget never ends a call. -/
theorem unreachable_search_never_returns :
    InRange flippedEdge ∧ ¬ Reachable flippedEdge ∧ loopSolver.goal = solvedCube
      ∧ (∀ fuel : Nat, dfs loopSolver fuel flippedEdge 0 0 [] 0 = none)
      ∧ ∀ fuel : Nat, solve loopSolver fuel flippedEdge = none := by
  refine ⟨InRange_flippedEdge, flippedEdge_unreachable, rfl, loop_dfs_none, fun fuel => ?_⟩
  have e : heuristic loopSolver flippedEdge = 0 := heuristic_loop_Z _ rfl
  show solveLoop loopSolver fuel flippedEdge ((31 - heuristic loopSolver flippedEdge).toNat + 1)
    (heuristic loopSolver flippedEdge) [] = none
  rw [e, solveLoop, if_pos (by decide), loop_dfs_none]
end RubikCA
